import Mathlib

/-!
The expectation registry of rmq-rpc-mockserver.

A shallow embedding of the expectation–matching engine
(`internal/domain/expectations`, `internal/app/expectations.go`) together with
the library sort it calls (`sort.Slice`, the pattern-defeating quicksort of the
Go standard library), of the JSON body comparator
(`internal/domain/comparators/jsonbody.go`), of the subscriptions service, the
consumer and its listeners (`internal/app/subscriptions.go`,
`internal/infra/amqp`) and of the handlers of the gRPC server
(`internal/infra/grpc`), and theorems about them.

Conventions of the embedding
* a Go slice that is permuted in place is the list of its cells; `Less(i, j)`
  reads two cells, `Swap(i, j)` exchanges two cells;
* `time.Now()` is an explicit argument `now` (nanoseconds), a `time.Duration`
  is an `Int` of nanoseconds;
* a Go pointer that the source tests against `nil` is an `Option`;
* `uint32` is a `Nat` with explicit reduction modulo `2 ^ 32`;
* a run-time panic (nil interface call) is the result `none`.
* a function that returns `(T, error)` returns `Except Error T`;
* the functions of `encoding/json` and `jsondiff` are the fields of a structure
  `JSONLib` that the comparator takes as an argument; a decoded document is a
  `JSONValue`, a decoded number (a `float64`) is the rational it denotes.
* the calls of the broker library are the fields of a structure `Broker`, and
  the errors that `Publish` and `Ack` return are arguments of `handleMessage`;
  what a listener does to the outside is the list of its effects, in order;
* a Go map is the list of its entries, with distinct keys; the order in which a
  `range` statement visits them is an argument, a `RangeOrder`;
* a UUID is a natural number, and the value of `uuid.New()` is an argument.
-/

namespace GoSort

variable {α : Type} [Inhabited α]

/-- The cell `data[i]` of a slice held as the list of its cells. Every index the
sort reads lies inside the slice; outside it the read is the default value. -/
def cell (d : List α) (i : Nat) : α := d.getD i default

/-- Exchange of the cells `i` and `j` (`data.Swap(i, j)`). -/
def swap (d : List α) (i j : Nat) : List α :=
  (d.set i (cell d j)).set j (cell d i)

/-- Inner loop of `insertionSort_func`:
`for j := i; j > a && data.Less(j, j-1); j-- { data.Swap(j, j-1) }`. -/
def insertionSort_inner (less : α → α → Bool) (a : Nat) : Nat → List α → List α
  | 0, d => d
  | j + 1, d =>
    if j + 1 > a && less (cell d (j + 1)) (cell d j) then
      insertionSort_inner less a j (swap d (j + 1) j)
    else d

/-- Outer loop of `insertionSort_func`: `for i := a + 1; i < b; i++`. -/
def insertionSort_outer (less : α → α → Bool) (a b : Nat) :
    Nat → Nat → List α → List α
  | 0, _, d => d
  | fuel + 1, i, d =>
    if i < b then
      insertionSort_outer less a b fuel (i + 1) (insertionSort_inner less a i d)
    else d

/-- The function `insertionSort_func(data, a, b)`: sorts `data[a:b]` by insertion. -/
def insertionSort_func (less : α → α → Bool) (d : List α) (a b : Nat) : List α :=
  insertionSort_outer less a b (b - a) (a + 1) d

/-- The function `siftDown_func(data, lo, hi, first)`; `fuel` bounds the number
of levels descended (each round at least doubles `root + 1`). -/
def siftDown_func (less : α → α → Bool) (hi first : Nat) :
    Nat → Nat → List α → List α
  | 0, _, d => d
  | fuel + 1, root, d =>
    let child := 2 * root + 1
    if child ≥ hi then d
    else
      let child :=
        if child + 1 < hi && less (cell d (first + child)) (cell d (first + child + 1)) then child + 1
        else child
      if !less (cell d (first + root)) (cell d (first + child)) then d
      else siftDown_func less hi first fuel child (swap d (first + root) (first + child))

/-- First loop of `heapSort_func`:
`for i := (hi - 1) / 2; i >= 0; i-- { siftDown_func(data, i, hi, first) }`,
entered with `n = i + 1`. -/
def heapSort_build (less : α → α → Bool) (hi first : Nat) : Nat → List α → List α
  | 0, d => d
  | i + 1, d => heapSort_build less hi first i (siftDown_func less hi first hi i d)

/-- Second loop of `heapSort_func`:
`for i := hi - 1; i >= 0; i-- { data.Swap(first, first+i); siftDown_func(data, lo, i, first) }`,
entered with `n = i + 1`. -/
def heapSort_pop (less : α → α → Bool) (first : Nat) : Nat → List α → List α
  | 0, d => d
  | i + 1, d =>
    heapSort_pop less first i (siftDown_func less i first i 0 (swap d first (first + i)))

/-- The function `heapSort_func(data, a, b)`. In Go `(hi - 1) / 2` is a signed
division that truncates towards zero, so it is `0` for `hi = 0`. -/
def heapSort_func (less : α → α → Bool) (d : List α) (a b : Nat) : List α :=
  let first := a
  let hi := b - a
  let d := heapSort_build less hi first ((hi - 1) / 2 + 1) d
  heapSort_pop less first hi d

/-- Scan `for i <= j && p(data[i]) { i++ }`; the result is the final `i`. -/
def scanUp (p : α → Bool) (d : List α) (j : Nat) : Nat → Nat → Nat
  | 0, i => i
  | fuel + 1, i => if i ≤ j && p (cell d i) then scanUp p d j fuel (i + 1) else i

/-- Scan `for i <= j && p(data[j]) { j-- }`; the result is the final `j`.
Every caller has `i ≥ 1`, so the scan stops at `j = 0` at the latest. -/
def scanDown (p : α → Bool) (d : List α) (i : Nat) : Nat → Nat
  | 0 => 0
  | j + 1 => if i ≤ j + 1 && p (cell d (j + 1)) then scanDown p d i j else j + 1

/-- The closing `for { ... }` of `partition_func`; the result is the memory and
the final `j`. -/
def partition_loop (less : α → α → Bool) (a : Nat) :
    Nat → List α → Nat → Nat → List α × Nat
  | 0, d, _, j => (d, j)
  | fuel + 1, d, i, j =>
    let i := scanUp (fun x => less x (cell d a)) d j (j + 1 - i) i
    let j := scanDown (fun x => !less x (cell d a)) d i j
    if i > j then (d, j)
    else partition_loop less a fuel (swap d i j) (i + 1) (j - 1)

/-- The function `partition_func(data, a, b, pivot)`; the result is the memory,
`newpivot` and `alreadyPartitioned`. -/
def partition_func (less : α → α → Bool) (d : List α) (a b pivot : Nat) :
    List α × Nat × Bool :=
  let d := swap d a pivot
  let i := a + 1
  let j := b - 1
  let i := scanUp (fun x => less x (cell d a)) d j (j + 1 - i) i
  let j := scanDown (fun x => !less x (cell d a)) d i j
  if i > j then (swap d j a, j, true)
  else
    let d := swap d i j
    let r := partition_loop less a (b - a) d (i + 1) (j - 1)
    (swap r.1 r.2 a, r.2, false)

/-- The `for { ... }` of `partitionEqual_func`; the result is the memory and the
final `i`. -/
def partitionEqual_loop (less : α → α → Bool) (a : Nat) :
    Nat → List α → Nat → Nat → List α × Nat
  | 0, d, i, _ => (d, i)
  | fuel + 1, d, i, j =>
    let i := scanUp (fun x => !less (cell d a) x) d j (j + 1 - i) i
    let j := scanDown (fun x => less (cell d a) x) d i j
    if i > j then (d, i)
    else partitionEqual_loop less a fuel (swap d i j) (i + 1) (j - 1)

/-- The function `partitionEqual_func(data, a, b, pivot)`. -/
def partitionEqual_func (less : α → α → Bool) (d : List α) (a b pivot : Nat) :
    List α × Nat :=
  let d := swap d a pivot
  partitionEqual_loop less a (b - a) d (a + 1) (b - 1)

/-- Scan `for i < b && !data.Less(i, i-1) { i++ }` of `partialInsertionSort_func`. -/
def sortedRun (less : α → α → Bool) (d : List α) (b : Nat) : Nat → Nat → Nat
  | 0, i => i
  | fuel + 1, i => if i < b && !less (cell d i) (cell d (i - 1)) then sortedRun less d b fuel (i + 1) else i

/-- Loop `for j := i - 1; j >= 1; j-- { if !data.Less(j, j-1) { break }; data.Swap(j, j-1) }`. -/
def shiftLeft (less : α → α → Bool) : Nat → List α → List α
  | 0, d => d
  | j + 1, d => if !less (cell d (j + 1)) (cell d j) then d else shiftLeft less j (swap d (j + 1) j)

/-- Loop `for j := i + 1; j < b; j++ { if !data.Less(j, j-1) { break }; data.Swap(j, j-1) }`. -/
def shiftRight (less : α → α → Bool) (b : Nat) : Nat → Nat → List α → List α
  | 0, _, d => d
  | fuel + 1, j, d =>
    if j < b then
      if !less (cell d j) (cell d (j - 1)) then d else shiftRight less b fuel (j + 1) (swap d j (j - 1))
    else d

/-- Loop `for j := 0; j < maxSteps; j++` of `partialInsertionSort_func`, entered
with the number of steps left. -/
def partialInsertionSort_loop (less : α → α → Bool) (a b : Nat) :
    Nat → Nat → List α → List α × Bool
  | 0, _, d => (d, false)
  | steps + 1, i, d =>
    let i := sortedRun less d b (b - i) i
    if i = b then (d, true)
    else if b - a < 50 then (d, false)
    else
      let d := swap d i (i - 1)
      let d := if i - a ≥ 2 then shiftLeft less (i - 1) d else d
      let d := if b - i ≥ 2 then shiftRight less b (b - (i + 1)) (i + 1) d else d
      partialInsertionSort_loop less a b steps i d

/-- The function `partialInsertionSort_func(data, a, b)` (`maxSteps = 5`,
`shortestShifting = 50`). -/
def partialInsertionSort_func (less : α → α → Bool) (d : List α) (a b : Nat) :
    List α × Bool :=
  partialInsertionSort_loop less a b 5 (a + 1) d

/-- The function `bits.Len(uint(n))`: the number of bits needed to write `n`. -/
def bitsLenAux : Nat → Nat → Nat
  | 0, _ => 0
  | fuel + 1, n => if n = 0 then 0 else bitsLenAux fuel (n / 2) + 1

/-- The function `bits.Len`. -/
def bitsLen (n : Nat) : Nat := bitsLenAux n n

/-- The method `(*xorshift).Next` on a `uint64` state. -/
def xorshiftNext (r : Nat) : Nat :=
  let r := Nat.xor r ((r <<< 13) % 2 ^ 64)
  let r := Nat.xor r (r >>> 7)
  Nat.xor r ((r <<< 17) % 2 ^ 64)

/-- The function `nextPowerOfTwo(length)`, that is `1 << bits.Len(uint(length))`. -/
def nextPowerOfTwo (length : Nat) : Nat := 2 ^ bitsLen length

/-- One round `i` of the loop of `breakPatterns_func`. -/
def breakPatterns_step (a length idx modulus : Nat) (i : Nat) (s : List α × Nat) :
    List α × Nat :=
  let random := xorshiftNext s.2
  let other := Nat.land random (modulus - 1)
  let other := if other ≥ length then other - length else other
  (swap s.1 (idx - 1 + i) (a + other), random)

/-- The function `breakPatterns_func(data, a, b)`. -/
def breakPatterns_func (d : List α) (a b : Nat) : List α :=
  let length := b - a
  if length ≥ 8 then
    let random := length
    let modulus := nextPowerOfTwo length
    let idx := a + (length / 4) * 2 - 1
    let s := breakPatterns_step a length idx modulus 0 (d, random)
    let s := breakPatterns_step a length idx modulus 1 s
    let s := breakPatterns_step a length idx modulus 2 s
    s.1
  else d

/-- The type `sortedHint`. -/
inductive sortedHint where
  | unknownHint
  | increasingHint
  | decreasingHint
  deriving DecidableEq, Repr

/-- The function `order2_func(data, a, b, swaps)`; the result is `(x, y, swaps)`. -/
def order2_func (less : α → α → Bool) (d : List α) (a b swaps : Nat) : Nat × Nat × Nat :=
  if less (cell d b) (cell d a) then (b, a, swaps + 1) else (a, b, swaps)

/-- The function `median_func(data, a, b, c, swaps)`; the result is `(b, swaps)`. -/
def median_func (less : α → α → Bool) (d : List α) (a b c swaps : Nat) : Nat × Nat :=
  let r := order2_func less d a b swaps
  let a := r.1
  let b := r.2.1
  let r := order2_func less d b c r.2.2
  let b := r.1
  let r := order2_func less d a b r.2.2
  (r.2.1, r.2.2)

/-- The function `medianAdjacent_func(data, a, swaps)`. -/
def medianAdjacent_func (less : α → α → Bool) (d : List α) (a swaps : Nat) : Nat × Nat :=
  median_func less d (a - 1) a (a + 1) swaps

/-- The function `choosePivot_func(data, a, b)` (`shortestNinther = 50`,
`maxSwaps = 4 * 3`). -/
def choosePivot_func (less : α → α → Bool) (d : List α) (a b : Nat) : Nat × sortedHint :=
  let l := b - a
  let swaps := 0
  let i := a + l / 4 * 1
  let j := a + l / 4 * 2
  let k := a + l / 4 * 3
  let r : Nat × Nat :=
    if l ≥ 8 then
      if l ≥ 50 then
        let ri := medianAdjacent_func less d i swaps
        let rj := medianAdjacent_func less d j ri.2
        let rk := medianAdjacent_func less d k rj.2
        median_func less d ri.1 rj.1 rk.1 rk.2
      else median_func less d i j k swaps
    else (j, swaps)
  if r.2 = 0 then (r.1, sortedHint.increasingHint)
  else if r.2 = 12 then (r.1, sortedHint.decreasingHint)
  else (r.1, sortedHint.unknownHint)

/-- Loop `for i < j { data.Swap(i, j); i++; j-- }` of `reverseRange_func`. -/
def reverseRange_loop : Nat → Nat → Nat → List α → List α
  | 0, _, _, d => d
  | fuel + 1, i, j, d => if i < j then reverseRange_loop fuel (i + 1) (j - 1) (swap d i j) else d

/-- The function `reverseRange_func(data, a, b)`. -/
def reverseRange_func (d : List α) (a b : Nat) : List α :=
  reverseRange_loop (b - a) a (b - 1) d

/-- The function `pdqsort_func(data, a, b, limit)`: its `for` loop, with the loop
variables `a`, `b`, `limit`, `wasBalanced`, `wasPartitioned` as arguments and the
recursive call as a fresh loop. Every round shortens `b - a`, which `fuel`
bounds. -/
def pdqsort_loop (less : α → α → Bool) :
    Nat → List α → Nat → Nat → Nat → Bool → Bool → List α
  | 0, d, _, _, _, _, _ => d
  | fuel + 1, d, a, b, limit, wasBalanced, wasPartitioned =>
    let length := b - a
    if length ≤ 12 then insertionSort_func less d a b
    else if limit = 0 then heapSort_func less d a b
    else
      let d := if !wasBalanced then breakPatterns_func d a b else d
      let limit := if !wasBalanced then limit - 1 else limit
      let ph := choosePivot_func less d a b
      let decreasing : Bool := ph.2 = sortedHint.decreasingHint
      let d := if decreasing then reverseRange_func d a b else d
      let pivot := if decreasing then (b - 1) - (ph.1 - a) else ph.1
      let hint := if decreasing then sortedHint.increasingHint else ph.2
      let pis : List α × Bool :=
        if wasBalanced && wasPartitioned && hint = sortedHint.increasingHint then
          partialInsertionSort_func less d a b
        else (d, false)
      let d := pis.1
      if pis.2 then d
      else if a > 0 && !less (cell d (a - 1)) (cell d pivot) then
        let pe := partitionEqual_func less d a b pivot
        pdqsort_loop less fuel pe.1 pe.2 b limit wasBalanced wasPartitioned
      else
        let pt := partition_func less d a b pivot
        let d := pt.1
        let mid := pt.2.1
        let wasPartitioned := pt.2.2
        let leftLen := mid - a
        let rightLen := b - mid
        let balanceThreshold := length / 8
        if leftLen < rightLen then
          let wasBalanced : Bool := leftLen ≥ balanceThreshold
          let d := pdqsort_loop less fuel d a mid limit true true
          pdqsort_loop less fuel d (mid + 1) b limit wasBalanced wasPartitioned
        else
          let wasBalanced : Bool := rightLen ≥ balanceThreshold
          let d := pdqsort_loop less fuel d (mid + 1) b limit true true
          pdqsort_loop less fuel d a mid limit wasBalanced wasPartitioned

/-- The function `pdqsort_func(data, a, b, limit)`. -/
def pdqsort_func (less : α → α → Bool) (d : List α) (a b limit : Nat) : List α :=
  pdqsort_loop less (b - a + 1) d a b limit true true

/-- The function `sort.Slice(x, less)`:
`pdqsort_func(lessSwap{less, swap}, 0, length, bits.Len(uint(length)))`. -/
def Slice (less : α → α → Bool) (x : List α) : List α :=
  let length := x.length
  let limit := bitsLen length
  pdqsort_func less x 0 length limit

end GoSort

namespace Expectations

/-- A raw byte payload (`[]byte`, `json.RawMessage`). -/
abbrev Bytes := List UInt8

/-- The interface `BodyComparator`: one method `Match(payload []byte) bool`. -/
structure BodyComparator where
  Match : Bytes → Bool

/-- The struct `Request`. `BodyComparator` is an interface value and may be nil. -/
structure Request where
  Exchange : String
  RoutingKey : String
  BodyComparator : Option BodyComparator

/-- The struct `Response`. -/
structure Response where
  Body : Bytes
  deriving DecidableEq, Repr

/-- The struct `Candidate`. -/
structure Candidate where
  Exchange : String
  RoutingKey : String
  Body : Bytes
  deriving DecidableEq, Repr

/-- The struct `Times`; `RemainingTimes` is a `uint32`. -/
structure Times where
  RemainingTimes : Nat
  Unlimited : Bool
  deriving DecidableEq, Repr

/-- The struct `TimeToLive`; `TTL` is a `time.Duration` in nanoseconds. -/
structure TimeToLive where
  TTL : Int
  deriving DecidableEq, Repr

/-- The struct `Expectation`. `ID` is the UUID, `CreatedAt` an instant in
nanoseconds; `Times` and `TimeToLive` are pointers the source tests against nil. -/
structure Expectation where
  ID : Nat
  Request : Request
  Response : Response
  Times : Option Times
  TimeToLive : Option TimeToLive
  Priority : Int
  CreatedAt : Int

/-- The method `(*Times).Copy`. -/
def Times.Copy (t : Option Times) : Option Times :=
  match t with
  | none => none
  | some t => some { RemainingTimes := t.RemainingTimes, Unlimited := t.Unlimited }

/-- The method `(*TimeToLive).Copy`. -/
def TimeToLive.Copy (t : Option TimeToLive) : Option TimeToLive :=
  match t with
  | none => none
  | some t => some { TTL := t.TTL }

/-- The method `(*Request).Matches`. The `&&` chain is evaluated left to right;
calling `Match` on a nil comparator panics (`none`). -/
def Request.Matches (r : Request) (cnd : Candidate) : Option Bool :=
  if r.Exchange = cnd.Exchange then
    if r.RoutingKey = cnd.RoutingKey then
      match r.BodyComparator with
      | none => none
      | some c => some (c.Match cnd.Body)
    else some false
  else some false

/-- The method `(*Expectation).IsActive`, with `time.Now()` passed as `now`. -/
def Expectation.IsActive (e : Expectation) (now : Int) : Bool :=
  if (match e.Times with
      | none => false
      | some t => !t.Unlimited && decide (t.RemainingTimes ≤ 0)) then false
  else if (match e.TimeToLive with
      | none => false
      | some t => decide (now > e.CreatedAt + t.TTL)) then false
  else true

/-- The method `(*Expectation).Matches`. -/
def Expectation.Matches (e : Expectation) (cnd : Candidate) (now : Int) : Option Bool :=
  if e.IsActive now then e.Request.Matches cnd else some false

/-- The method `(*Expectation).Use`: `RemainingTimes--` on a `uint32`. -/
def Expectation.Use (e : Expectation) : Expectation :=
  match e.Times with
  | none => e
  | some t =>
    if !t.Unlimited then
      { e with Times := some { t with RemainingTimes := (t.RemainingTimes + 2 ^ 32 - 1) % 2 ^ 32 } }
    else e

/-- The method `(*Expectation).Copy`. -/
def Expectation.Copy (e : Expectation) : Expectation :=
  { ID := e.ID
    Request := e.Request
    Response := e.Response
    Times := Times.Copy e.Times
    TimeToLive := TimeToLive.Copy e.TimeToLive
    Priority := e.Priority
    CreatedAt := e.CreatedAt }

/-- The struct `Assertion`. -/
structure Assertion where
  Candidate : Candidate
  Expectation : Option Expectation
  CreatedAt : Int

/-- The function `NewMatchedAssertion`. -/
def NewMatchedAssertion (cnd : Candidate) (exp : Expectation) (now : Int) : Assertion :=
  { Candidate := cnd, Expectation := some exp.Copy, CreatedAt := now }

/-- The function `NewUnmatchedAssertion`. -/
def NewUnmatchedAssertion (cnd : Candidate) (now : Int) : Assertion :=
  { Candidate := cnd, Expectation := none, CreatedAt := now }

/-- The struct `Assertions`. -/
structure Assertions where
  list : List Assertion

/-- The method `(*Assertions).Add`. -/
def Assertions.Add (a : Assertions) (assertion : Assertion) : Assertions :=
  { list := a.list ++ [assertion] }

/-- The struct `ExpectationsService`. The slice `expectations` holds pointers;
the pointer stored at position `i` is identified with `i`, every stored
pointer referring to an object of its own. -/
structure ExpectationsService where
  expectations : List Expectation
  assertions : Assertions

/-- The function `NewExpectationsService`. -/
def NewExpectationsService : ExpectationsService :=
  { expectations := [], assertions := { list := [] } }

/-- The method `(*ExpectationsService).Create`. -/
def ExpectationsService.Create (s : ExpectationsService) (exp : Expectation) :
    ExpectationsService :=
  { s with expectations := s.expectations ++ [exp] }

/-- The method `(*ExpectationsService).Reset`. -/
def ExpectationsService.Reset (s : ExpectationsService) : ExpectationsService :=
  { s with expectations := [] }

/-- A pointer into the stored slice together with the object it points to. -/
abbrev Ref := Nat × Expectation

instance : Inhabited Ref :=
  ⟨(0, { ID := 0, Request := { Exchange := "", RoutingKey := "", BodyComparator := none },
         Response := { Body := [] }, Times := none, TimeToLive := none, Priority := 0,
         CreatedAt := 0 })⟩

/-- The collecting loop of `Match`:
`for _, exp := range s.expectations { if exp.Matches(candidate) { matches = append(matches, exp) } }`,
run on the stored pointers from position `i` on. -/
def collectMatches (cnd : Candidate) (now : Int) : Nat → List Expectation → Option (List Ref)
  | _, [] => some []
  | i, exp :: rest =>
    match exp.Matches cnd now with
    | none => none
    | some m =>
      match collectMatches cnd now (i + 1) rest with
      | none => none
      | some ms => some (if m then (i, exp) :: ms else ms)

/-- The comparison handed to `sort.Slice`:
`matches[i].Priority > matches[j].Priority`. -/
def byPriority (x y : Ref) : Bool := decide (x.2.Priority > y.2.Priority)

/-- The method `(*ExpectationsService).Match`. The result is the service after
the call and the returned pointer (`none` for nil); a panic is `none`. -/
def ExpectationsService.Match (s : ExpectationsService) (candidate : Candidate) (now : Int) :
    Option (ExpectationsService × Option Response) :=
  match collectMatches candidate now 0 s.expectations with
  | none => none
  | some [] =>
    some ({ s with assertions := s.assertions.Add (NewUnmatchedAssertion candidate now) }, none)
  | some (m :: ms) =>
    let sorted := GoSort.Slice byPriority (m :: ms)
    let chosen := GoSort.cell sorted 0
    let used := chosen.2.Use
    some ({ expectations := s.expectations.set chosen.1 used
            assertions := s.assertions.Add (NewMatchedAssertion candidate used now) },
          some used.Response)

end Expectations

namespace GoSort

variable {α : Type} [Inhabited α]

/-- The slice `d'` is the slice `d` with the cells of `[a, b)` permuted: same
length, and a permutation of the indices that is the identity outside `[a, b)`
carries the cells of `d'` to those of `d`. -/
def RangePerm (a b : Nat) (d d' : List α) : Prop :=
  d'.length = d.length ∧
    ∃ σ : Equiv.Perm Nat, (∀ k, k < a ∨ b ≤ k → σ k = k) ∧ ∀ k, cell d' k = cell d (σ k)

/-- The cells of `[a, b)` are in non-decreasing order of `key`. -/
def SortedOn (key : α → Int) (d : List α) (a b : Nat) : Prop :=
  ∀ i j, a ≤ i → i ≤ j → j < b → key (cell d i) ≤ key (cell d j)

/-- The cell before `a`, when there is one, is not above any cell of `[a, b)`. -/
def LowerBound (key : α → Int) (d : List α) (a b : Nat) : Prop :=
  0 < a → ∀ k, a ≤ k → k < b → key (cell d (a - 1)) ≤ key (cell d k)

/-- The comparison `less` is the strict order of the integer `key`. -/
def KeyOrder (less : α → α → Bool) (key : α → Int) : Prop :=
  ∀ x y, less x y = true ↔ key x < key y

end GoSort

namespace GoSort

variable {α : Type} [Inhabited α]

/-- The nodes `[lo, hi)` of the implicit binary tree rooted at cell `first` form
a max-heap: no node whose parent is at `lo` or later is above its parent. -/
def HeapOn (key : α → Int) (d : List α) (first lo hi : Nat) : Prop :=
  ∀ c, c < hi → 0 < c → lo ≤ (c - 1) / 2 →
    key (cell d (first + c)) ≤ key (cell d (first + (c - 1) / 2))

end GoSort

namespace GoSort

variable {α : Type} [Inhabited α]

/-- The cell `mid` splits `[a, b)`: nothing before it is above it and nothing
after it is below it. -/
def PartitionedAt (key : α → Int) (d : List α) (a mid b : Nat) : Prop :=
  (∀ k, a ≤ k → k < mid → key (cell d k) ≤ key (cell d mid)) ∧
    (∀ k, mid < k → k < b → key (cell d mid) ≤ key (cell d k))

end GoSort

namespace Expectations

/-- The struct `GetExpectationsRequest`. -/
structure GetExpectationsRequest where
  Status : Option String

/-- The method `(*ExpectationsService).GetExpectations`, with `time.Now()` passed
as `now`. A loop that appends the elements passing a test is a `filter`. -/
def ExpectationsService.GetExpectations (s : ExpectationsService)
    (req : GetExpectationsRequest) (now : Int) : List Expectation :=
  match req.Status with
  | none => s.expectations.map Expectation.Copy
  | some status =>
    (s.expectations.filter (fun exp =>
      if status = "active" then exp.IsActive now
      else if status = "expired" then !exp.IsActive now
      else false)).map Expectation.Copy

/-- The method `(*ExpectationsService).GetExpectation`: the first stored
expectation with the given id, or nil. -/
def ExpectationsService.GetExpectation (s : ExpectationsService) (id : Nat) :
    Option Expectation :=
  s.expectations.find? (fun exp => decide (exp.ID = id))

/-- The method `(*Assertions).GetUnmatched`. -/
def Assertions.GetUnmatched (a : Assertions) : List Assertion :=
  a.list.filter (fun assertion => assertion.Expectation.isNone)

/-- The method `(*Assertions).GetMatched`. -/
def Assertions.GetMatched (a : Assertions) : List Assertion :=
  a.list.filter (fun assertion => assertion.Expectation.isSome)

/-- The method `(*Assertions).GetAll`. -/
def Assertions.GetAll (a : Assertions) : List Assertion := a.list

/-- The method `(*Assertions).GetForExpectationByID`; the id is compared through
its string form, which is one-to-one. -/
def Assertions.GetForExpectationByID (a : Assertions) (id : Nat) : List Assertion :=
  a.list.filter (fun assertion =>
    match assertion.Expectation with
    | none => false
    | some exp => decide (exp.ID = id))

/-- The struct `GetAssertionsRequest`. -/
structure GetAssertionsRequest where
  ExpectationID : Option Nat
  Status : Option String
  Include : List String

/-- The method `(*ExpectationsService).GetAssertions`. -/
def ExpectationsService.GetAssertions (s : ExpectationsService) (req : GetAssertionsRequest) :
    List Assertion :=
  match req.ExpectationID with
  | some id => s.assertions.GetForExpectationByID id
  | none =>
    match req.Status with
    | some status =>
      if status = "matched" then s.assertions.GetMatched
      else if status = "unmatched" then s.assertions.GetUnmatched
      else s.assertions.GetAll
    | none => s.assertions.GetAll

/-- What the embedding asks of a stored expectation: its request carries a body
comparator (the data model's "comparator required") and its remaining count is a
`uint32`. -/
def Expectation.wellFormed (e : Expectation) : Bool :=
  e.Request.BodyComparator.isSome &&
    (match e.Times with
     | none => true
     | some t => decide (t.RemainingTimes < 2 ^ 32))

/-- Every stored expectation is well formed. -/
def ExpectationsService.WellFormed (s : ExpectationsService) : Prop :=
  ∀ e ∈ s.expectations, e.wellFormed = true

instance (s : ExpectationsService) : Decidable s.WellFormed := by
  unfold ExpectationsService.WellFormed
  infer_instance

/-- A run of `Match` calls, one per candidate and instant, in order. -/
def ExpectationsService.MatchAll (s : ExpectationsService) :
    List (Candidate × Int) → Option ExpectationsService
  | [] => some s
  | (cnd, now) :: rest =>
    match s.Match cnd now with
    | none => none
    | some (s', _) => ExpectationsService.MatchAll s' rest

/-- A call of one of the registry operations. -/
inductive Op where
  | create (exp : Expectation)
  | matchCandidate (cnd : Candidate) (now : Int)
  | reset
  | getExpectations (req : GetExpectationsRequest) (now : Int)
  | getExpectation (id : Nat)
  | getAssertions (req : GetAssertionsRequest)

/-- The registry after one operation (`none` when the call panics). The getters
leave the registry as it is. -/
def ExpectationsService.step (s : ExpectationsService) : Op → Option ExpectationsService
  | Op.create exp => some (s.Create exp)
  | Op.matchCandidate cnd now =>
    match s.Match cnd now with
    | none => none
    | some (s', _) => some s'
  | Op.reset => some s.Reset
  | Op.getExpectations _ _ => some s
  | Op.getExpectation _ => some s
  | Op.getAssertions _ => some s

/-- The registry after a sequence of operations. -/
def ExpectationsService.run (s : ExpectationsService) : List Op → Option ExpectationsService
  | [] => some s
  | op :: rest =>
    match s.step op with
    | none => none
    | some s' => ExpectationsService.run s' rest

/-- How often the expectation `id` has been chosen by `Match` so far: the number
of matched assertions that `GetForExpectationByID` finds for it. -/
def ExpectationsService.timesChosen (s : ExpectationsService) (id : Nat) : Nat :=
  (s.assertions.GetForExpectationByID id).length

/-- Memory of `Times` objects, address ↦ object, for the pointer-level reading of
`Copy` and `Use`: an expectation holds the address of its `Times`. -/
abbrev TimesHeap := List Times

/-- The method `(*Times).Copy` on memory: `&Times{...}` allocates a new object
holding the fields of the old one and returns its address. -/
def TimesHeap.Copy (h : TimesHeap) (t : Option Nat) : TimesHeap × Option Nat :=
  match t with
  | none => (h, none)
  | some p =>
    match h[p]? with
    | none => (h, none)
    | some v => (h ++ [{ RemainingTimes := v.RemainingTimes, Unlimited := v.Unlimited }],
                 some h.length)

/-- The method `(*Expectation).Use` on memory: `e.Times.RemainingTimes--` writes
through the pointer `e.Times`. -/
def TimesHeap.Use (h : TimesHeap) (t : Option Nat) : TimesHeap :=
  match t with
  | none => h
  | some p =>
    match h[p]? with
    | none => h
    | some v =>
      if !v.Unlimited then
        h.set p { v with RemainingTimes := (v.RemainingTimes + 2 ^ 32 - 1) % 2 ^ 32 }
      else h

/-- The comparator of `comparators.NewRegex("")`: the empty pattern matches
every payload. -/
def regexEmpty : BodyComparator := { Match := fun _ => true }

/-- An expectation as `NewExpectation` builds it for exchange `X`, routing key
`rk`, the comparator `regexEmpty`, the given response body and priority, and the
default usage (limited, one use). -/
def sampleExpectation (id : Nat) (body : Bytes) (priority : Int) : Expectation :=
  { ID := id
    Request := { Exchange := "X", RoutingKey := "rk", BodyComparator := some regexEmpty }
    Response := { Body := body }
    Times := some { RemainingTimes := 1, Unlimited := false }
    TimeToLive := none
    Priority := priority
    CreatedAt := 0 }

/-- The candidate `("X", "rk", "foo")`. -/
def sampleCandidate : Candidate :=
  { Exchange := "X", RoutingKey := "rk", Body := [102, 111, 111] }

/-- The registry after `Create` of each expectation of the list, in order. -/
def createAll (exps : List Expectation) : ExpectationsService :=
  exps.foldl ExpectationsService.Create NewExpectationsService

/-- Thirteen expectations on the same route: the first with priority 0, the
twelve after it with priority 1; the response body of the expectation created
`i`-th is the byte `i`. -/
def tieExpectations : List Expectation :=
  sampleExpectation 0 [0] 0 ::
    (List.range 12).map (fun i => sampleExpectation (i + 1) [UInt8.ofNat (i + 1)] 1)

/-- Scenario A of the specification: priorities 0, 10, 0. -/
def scenarioA : ExpectationsService :=
  createAll [sampleExpectation 1 [98, 49] 0, sampleExpectation 2 [98, 50] 10,
    sampleExpectation 3 [98, 51] 0]

end Expectations

namespace Expectations

/-- The registry `scenarioA` after one `Match` of `sampleCandidate` at instant 0:
the second expectation (priority 10) has been used and a matched assertion
holding its copy has been appended. -/
def scenarioA_after : ExpectationsService :=
  { expectations := scenarioA.expectations.set 1 (sampleExpectation 2 [98, 50] 10).Use
    assertions := scenarioA.assertions.Add
      (NewMatchedAssertion sampleCandidate (sampleExpectation 2 [98, 50] 10).Use 0) }

end Expectations

namespace Expectations

/-- An operation that a run about the expectation `id` may contain: a `Create`
brings a well-formed expectation with an id other than `id` (ids are unique). -/
def Op.admissible (id : Nat) : Op → Bool
  | Op.create exp => decide (exp.ID ≠ id) && exp.wellFormed
  | _ => true

/-- The usage budget `B` of the expectation `id` is respected by the registry:
the registry is well formed, `id` has been chosen at most `B` times, and `id` is
stored at most once, as a limited expectation whose remaining count added to the
number of times it has been chosen does not exceed `B`. -/
def BudgetInv (B id : Nat) (s : ExpectationsService) : Prop :=
  s.WellFormed ∧ s.timesChosen id ≤ B ∧
    ∀ (i : Nat) (x : Expectation), s.expectations[i]? = some x → x.ID = id →
      (∃ r, x.Times = some { RemainingTimes := r, Unlimited := false } ∧
        s.timesChosen id + r ≤ B) ∧
      ∀ (j : Nat) (y : Expectation), s.expectations[j]? = some y → y.ID = id → j = i

/-- An expectation like `sampleExpectation` with unlimited usage, as
`WithUnlimitedTimes` sets it. -/
def unlimitedExpectation (id : Nat) (body : Bytes) : Expectation :=
  { sampleExpectation id body 0 with Times := some { RemainingTimes := 0, Unlimited := true } }

end Expectations

/-! ## Constructors, options, the reset handler and the JSON body comparator -/

namespace Expectations

/-- The error values of the packages: the four sentinel errors of
`expectations`, and any other error (`errors.New`, `fmt.Errorf`) by its text. -/
inductive Error where
  | ErrEmptyExchange
  | ErrEmptyRoutingKey
  | ErrBadRequestTimes
  | ErrTTLMustBeGreaterThanZero
  | message (text : String)
  deriving DecidableEq, Repr

/-- The function `NewCandidate`. -/
def NewCandidate (exchange rk : String) (body : Bytes) : Except Error Candidate :=
  if exchange = "" then Except.error Error.ErrEmptyExchange
  else if rk = "" then Except.error Error.ErrEmptyRoutingKey
  else Except.ok { Exchange := exchange, RoutingKey := rk, Body := body }

/-- The function `NewRequest`; `bodyCmp` is an interface value and may be nil. -/
def NewRequest (exchange routingKey : String) (bodyCmp : Option BodyComparator) :
    Except Error Request :=
  if exchange = "" then Except.error Error.ErrEmptyExchange
  else if routingKey = "" then Except.error Error.ErrEmptyRoutingKey
  else Except.ok { Exchange := exchange, RoutingKey := routingKey, BodyComparator := bodyCmp }

/-- The function `NewResponse`. -/
def NewResponse (body : Bytes) : Except Error Response :=
  Except.ok { Body := body }

/-- The type `ExpectationOption`: the options the package builds, each by its
constructor and argument (`times` is a `uint32`, `ttl` a `time.Duration`). -/
inductive ExpectationOption where
  | WithPriority (p : Int)
  | WithLimitedTimes (times : Nat)
  | WithUnlimitedTimes
  | WithTimeToLive (ttl : Int)
  deriving DecidableEq, Repr

/-- The closure an option constructor returns, applied to an expectation. -/
def ExpectationOption.apply : ExpectationOption → Expectation → Except Error Expectation
  | ExpectationOption.WithPriority p, e => Except.ok { e with Priority := p }
  | ExpectationOption.WithLimitedTimes times, e =>
    if times < 1 then Except.error Error.ErrBadRequestTimes
    else Except.ok { e with Times := some { RemainingTimes := times, Unlimited := false } }
  | ExpectationOption.WithUnlimitedTimes, e =>
    Except.ok { e with Times := some { RemainingTimes := 0, Unlimited := true } }
  | ExpectationOption.WithTimeToLive ttl, e =>
    if ttl ≤ 0 then Except.error Error.ErrTTLMustBeGreaterThanZero
    else Except.ok { e with TimeToLive := some { TTL := ttl } }

/-- The loop of `NewExpectation`:
`for _, opt := range opts { if err := opt(e); err != nil { return nil, err } }`. -/
def applyOptions : List ExpectationOption → Expectation → Except Error Expectation
  | [], e => Except.ok e
  | opt :: rest, e =>
    match opt.apply e with
    | Except.error err => Except.error err
    | Except.ok e' => applyOptions rest e'

/-- The function `NewExpectation`, with `uuid.New()` passed as `id` and
`time.Now()` as `now`. -/
def NewExpectation (id : Nat) (now : Int) (req : Request) (res : Response)
    (opts : List ExpectationOption) : Except Error Expectation :=
  applyOptions opts
    { ID := id
      Request := req
      Response := res
      Priority := 0
      Times := some { RemainingTimes := 1, Unlimited := false }
      TimeToLive := none
      CreatedAt := now }

/-- The error an option raises, in the words of the specification: limited usage
with a count below 1, or a TTL that is not positive. -/
def ExpectationOption.invalid : ExpectationOption → Option Error
  | ExpectationOption.WithLimitedTimes times =>
    if times < 1 then some Error.ErrBadRequestTimes else none
  | ExpectationOption.WithTimeToLive ttl =>
    if ttl ≤ 0 then some Error.ErrTTLMustBeGreaterThanZero else none
  | _ => none

/-- The usage an option asks for, when it is a limited or unlimited option. -/
def ExpectationOption.usage : ExpectationOption → Option Times
  | ExpectationOption.WithLimitedTimes times => some { RemainingTimes := times, Unlimited := false }
  | ExpectationOption.WithUnlimitedTimes => some { RemainingTimes := 0, Unlimited := true }
  | _ => none

/-- The priority an option asks for, when it is a priority option. -/
def ExpectationOption.priority : ExpectationOption → Option Int
  | ExpectationOption.WithPriority p => some p
  | _ => none

/-- The TTL an option asks for, when it is a TTL option. -/
def ExpectationOption.timeToLive : ExpectationOption → Option TimeToLive
  | ExpectationOption.WithTimeToLive ttl => some { TTL := ttl }
  | _ => none

/-- The struct `AmqpMockServerServiceServer`: the expectations service and the
subscriptions service, the latter an interface value held by its state `σ`. -/
structure AmqpMockServerServiceServer (σ : Type) where
  expectationsService : ExpectationsService
  subscriptionsService : σ

/-- The handler `ResetAll`: `s.expectationsService.Reset()` and then
`s.subscriptionsService.UnsubscribeAll()`, whose error is returned. The method
`UnsubscribeAll` of the interface is the argument `unsubscribeAll`. -/
def AmqpMockServerServiceServer.ResetAll {σ : Type} (unsubscribeAll : σ → σ × Option Error)
    (s : AmqpMockServerServiceServer σ) : AmqpMockServerServiceServer σ × Option Error :=
  let expectationsService := s.expectationsService.Reset
  let r := unsubscribeAll s.subscriptionsService
  ({ expectationsService := expectationsService, subscriptionsService := r.1 }, r.2)

/-- A server whose expectations service is `scenarioA_after` (one assertion
recorded) and whose subscriptions service has no state. -/
def serverAfterMatch : AmqpMockServerServiceServer Unit :=
  { expectationsService := scenarioA_after, subscriptionsService := () }

end Expectations

namespace Comparators

open Expectations

/-- The value `json.Unmarshal` stores into an `any`: nil, `bool`, `float64` (by
its numeric value), `string`, `[]any`, or `map[string]any` (by its entries, one
per key). -/
inductive JSONValue where
  | null
  | bool (b : Bool)
  | number (v : Rat)
  | string (s : String)
  | array (items : List JSONValue)
  | object (fields : List (String × JSONValue))

/-- Lookup of a key in a map (`v.MapIndex(key)`). -/
def MapIndex : List (String × JSONValue) → String → Option JSONValue
  | [], _ => none
  | (k, v) :: rest, key => if k = key then some v else MapIndex rest key

mutual
/-- The function `reflect.DeepEqual` on two values of the kinds `json.Unmarshal`
produces: values of different dynamic type differ; slices are compared by length
and element by element; maps by length and, for each key of the first, the
value found under that key in the second. -/
def DeepEqual : JSONValue → JSONValue → Bool
  | JSONValue.null, JSONValue.null => true
  | JSONValue.bool a, JSONValue.bool b => a == b
  | JSONValue.number a, JSONValue.number b => a == b
  | JSONValue.string a, JSONValue.string b => a == b
  | JSONValue.array xs, JSONValue.array ys => DeepEqualSlice xs ys
  | JSONValue.object m1, JSONValue.object m2 => m1.length == m2.length && DeepEqualMap m1 m2
  | _, _ => false
/-- Comparison of two slices by `reflect.DeepEqual`. -/
def DeepEqualSlice : List JSONValue → List JSONValue → Bool
  | [], [] => true
  | x :: xs, y :: ys => DeepEqual x y && DeepEqualSlice xs ys
  | _, _ => false
/-- Comparison, by `reflect.DeepEqual`, of the entries of the first map with the
second map. -/
def DeepEqualMap : List (String × JSONValue) → List (String × JSONValue) → Bool
  | [], _ => true
  | (k, v1) :: rest, m2 =>
    (match MapIndex m2 k with
     | some v2 => DeepEqual v1 v2
     | none => false) && DeepEqualMap rest m2
end

mutual
/-- Structural equality of two JSON values in the words of the specification:
same kind; numbers equal by value; arrays equal element by element in order;
objects with the same keys and structurally equal values under each key,
whatever the order of the keys. -/
def StructEq : JSONValue → JSONValue → Prop
  | JSONValue.null, JSONValue.null => True
  | JSONValue.bool a, JSONValue.bool b => a = b
  | JSONValue.number a, JSONValue.number b => a = b
  | JSONValue.string a, JSONValue.string b => a = b
  | JSONValue.array xs, JSONValue.array ys => StructEqArray xs ys
  | JSONValue.object m1, JSONValue.object m2 =>
    (∀ key, (MapIndex m1 key).isSome = (MapIndex m2 key).isSome) ∧ StructEqFields m1 m2
  | _, _ => False
/-- Two arrays have the same length and structurally equal items at each index. -/
def StructEqArray : List JSONValue → List JSONValue → Prop
  | [], [] => True
  | x :: xs, y :: ys => StructEq x y ∧ StructEqArray xs ys
  | _, _ => False
/-- Every field of the first list has a structurally equal value under its key
in the second object. -/
def StructEqFields : List (String × JSONValue) → List (String × JSONValue) → Prop
  | [], _ => True
  | (k, v1) :: rest, m2 =>
    (match MapIndex m2 k with
     | some v2 => StructEq v1 v2
     | none => False) ∧ StructEqFields rest m2
end

mutual
/-- A value as Go holds it: every map has one entry per key. -/
def JSONValue.WellFormed : JSONValue → Prop
  | JSONValue.array xs => WellFormedItems xs
  | JSONValue.object m => (m.map Prod.fst).Nodup ∧ WellFormedFields m
  | _ => True
/-- Every item of the slice is well formed. -/
def WellFormedItems : List JSONValue → Prop
  | [] => True
  | x :: xs => x.WellFormed ∧ WellFormedItems xs
/-- Every value of the map is well formed. -/
def WellFormedFields : List (String × JSONValue) → Prop
  | [] => True
  | (_, v) :: rest => v.WellFormed ∧ WellFormedFields rest
end

/-- The struct `jsondiff.Operation`, by its `Type` (`add`, `remove`, `replace`,
...), here `Type_`, and `Path`. -/
structure Operation where
  Type_ : String
  Path : String
  deriving DecidableEq, Repr

/-- The constant `jsondiff.OperationAdd`. -/
def OperationAdd : String := "add"

/-- The library functions the JSON comparator calls: `json.Valid`, the value
`json.Unmarshal` leaves in an `any` (nil when it fails), which is a Go value,
and `jsondiff.CompareJSON`. -/
structure JSONLib where
  Valid : Bytes → Bool
  Unmarshal : Bytes → JSONValue
  unmarshal_wellFormed : ∀ b, (Unmarshal b).WellFormed
  CompareJSON : Bytes → Bytes → Except Error (List Operation)

/-- The constant `MatchTypeExact`. -/
def MatchTypeExact : String := "EXACT"

/-- The constant `MatchTypePartial`. -/
def MatchTypePartial : String := "PARTIAL"

/-- The struct `JSONBody`; `MatchType` is a string type. -/
structure JSONBody where
  Body : Bytes
  MatchType : String
  deriving DecidableEq, Repr

/-- The function `NewJSONBody`. -/
def NewJSONBody (lib : JSONLib) (body : Bytes) (matchType : String) : Except Error JSONBody :=
  if !lib.Valid body then Except.error (Error.message "invalid json body")
  else Except.ok { Body := body, MatchType := matchType }

/-- The method `(*JSONBody).matchStrict`; the errors of `json.Unmarshal` are
dropped. -/
def JSONBody.matchStrict (lib : JSONLib) (b : JSONBody) (payload : Bytes) : Bool :=
  let actualReq := lib.Unmarshal payload
  let expectedReq := lib.Unmarshal b.Body
  DeepEqual expectedReq actualReq

/-- The method `(*JSONBody).matchSubset`. -/
def JSONBody.matchSubset (lib : JSONLib) (b : JSONBody) (payload : Bytes) : Bool :=
  match lib.CompareJSON b.Body payload with
  | Except.error _ => false
  | Except.ok result => result.all (fun change => decide (change.Type_ = OperationAdd))

/-- The method `(*JSONBody).Match`. -/
def JSONBody.Match (lib : JSONLib) (b : JSONBody) (payload : Bytes) : Bool :=
  if !lib.Valid payload then false
  else if b.MatchType = MatchTypeExact then b.matchStrict lib payload
  else if b.MatchType = MatchTypePartial then b.matchSubset lib payload
  else false

/-- A `JSONBody` as a value of the interface `BodyComparator`. -/
def JSONBody.toBodyComparator (lib : JSONLib) (b : JSONBody) : BodyComparator :=
  { Match := b.Match lib }

end Comparators

/-! ## The documents of the comparator tests -/

namespace Comparators

open Expectations

/-- The document of `TestJSONBody_Equal` with `a` equal to 1, as bytes. -/
def docA1 : Bytes :=
  [123, 34, 97, 34, 58, 32, 49, 44, 32, 34, 98, 34, 58, 32, 50, 44, 32, 34, 99, 34, 58, 32,
    123, 34, 100, 34, 58, 32, 51, 125, 125]

/-- The document of `TestJSONBody_Equal` with `a` equal to 2, as bytes. -/
def docA2 : Bytes :=
  [123, 34, 97, 34, 58, 32, 50, 44, 32, 34, 98, 34, 58, 32, 50, 44, 32, 34, 99, 34, 58, 32,
    123, 34, 100, 34, 58, 32, 51, 125, 125]

/-- The document `docA1` with its three keys written in the opposite order. -/
def docA1Reordered : Bytes :=
  [123, 34, 99, 34, 58, 32, 123, 34, 100, 34, 58, 32, 51, 125, 44, 32, 34, 98, 34, 58, 32, 50,
    44, 32, 34, 97, 34, 58, 32, 49, 125]

/-- The text `foo` of `TestJSONBody_Equal`, which is not a JSON document. -/
def docFoo : Bytes := [102, 111, 111]

/-- The value `json.Unmarshal` stores for `docA1`. -/
def valA1 : JSONValue :=
  JSONValue.object [("a", JSONValue.number 1), ("b", JSONValue.number 2),
    ("c", JSONValue.object [("d", JSONValue.number 3)])]

/-- The value `json.Unmarshal` stores for `docA2`. -/
def valA2 : JSONValue :=
  JSONValue.object [("a", JSONValue.number 2), ("b", JSONValue.number 2),
    ("c", JSONValue.object [("d", JSONValue.number 3)])]

/-- The value `json.Unmarshal` stores for `docA1Reordered`, its entries listed in the order of
the document. -/
def valA1Reordered : JSONValue :=
  JSONValue.object [("c", JSONValue.object [("d", JSONValue.number 3)]),
    ("b", JSONValue.number 2), ("a", JSONValue.number 1)]

/-- The library restricted to the documents above: `docA1`, `docA2` and `docA1Reordered` are the
valid documents, every other byte string is treated as `docFoo` is (not valid, nothing stored),
and the difference of two documents is not tabulated. -/
def testdataJSONLib : JSONLib :=
  { Valid := fun b => b == docA1 || b == docA2 || b == docA1Reordered
    Unmarshal := fun b =>
      if b = docA1 then valA1
      else if b = docA2 then valA2
      else if b = docA1Reordered then valA1Reordered
      else JSONValue.null
    unmarshal_wellFormed := by
      intro b
      simp only []
      split_ifs <;>
        simp [valA1, valA2, valA1Reordered, JSONValue.WellFormed, WellFormedFields]
    CompareJSON := fun _ _ => Except.error (Error.message "not tabulated") }

end Comparators

/-! ## The broker side: subscriptions, the consumer and its listeners -/

namespace Expectations

/-- An error value as the infrastructure packages see it: an error of the domain
packages, the sentinel `amqp.ErrClosed` of the broker library, a gRPC status error
(`status.Errorf(code, text)`), or an error wrapped by `fmt.Errorf(text + ": %w", cause)`. -/
inductive Err where
  | base (e : Error)
  | ErrClosed
  | status (code : String) (text : String)
  | wrap (text : String) (cause : Err)
  deriving DecidableEq, Repr

/-- The library function `errors.Is`: the error or one of the errors it wraps is the
target. -/
def Err.Is : Err → Err → Bool
  | Err.wrap text cause, target =>
    decide (Err.wrap text cause = target) || Err.Is cause target
  | e, target => decide (e = target)

/-- The call `errors.Is(err, target)` on an error that may be nil. -/
def errorsIs (err : Option Err) (target : Err) : Bool :=
  match err with
  | none => false
  | some e => e.Is target

end Expectations

namespace Subscriptions

/-- The struct `Subscription`; a UUID is a natural number. -/
structure Subscription where
  id : Nat
  queue : String
  deriving DecidableEq, Repr

/-- The function `NewSubscription`; the value of `uuid.New()` is the argument `id`. -/
def NewSubscription (id : Nat) (queue : String) : Subscription :=
  { id := id, queue := queue }

/-- The method `(*Subscription).ID`. -/
def Subscription.ID (s : Subscription) : Nat := s.id

/-- The method `(*Subscription).Queue`. -/
def Subscription.Queue (s : Subscription) : String := s.queue

end Subscriptions

namespace Amqp

open Expectations Subscriptions

/-- The calls of the broker library the consumer makes, for a type `χ` of channel
states: `Close` is `(*amqp.Channel).Close`, returning the channel after the call and
its error; `Start` is the pair of calls `con.Channel()` and `ch.Consume(queue, ...)`
of `startListener`, returning the channel or the error of the call that failed. -/
structure Broker (χ : Type) where
  Close : χ → χ × Option Err
  Start : String → Except Err χ

/-- The struct `amqpListener`: its subscription and its channel (the delivery stream
and the matcher are arguments of `handleMessage`). -/
structure amqpListener (χ : Type) where
  subscription : Subscription
  channel : χ

/-- The method `(*amqpListener).stop`: the listener after the call, with the channel
as the calls to `Close` left it, and the returned error. -/
def amqpListener.stop {χ : Type} (b : Broker χ) (c : amqpListener χ) :
    amqpListener χ × Option Err :=
  let r := b.Close c.channel
  let err := r.2
  if errorsIs err Err.ErrClosed then
    ({ c with channel := r.1 }, none)
  else
    let r2 := b.Close r.1
    ({ c with channel := r2.1 }, r2.2)

/-- The function `startListener`, without the goroutine it starts. -/
def startListener {χ : Type} (b : Broker χ) (sub : Subscription) :
    Except Err (amqpListener χ) :=
  match b.Start sub.Queue with
  | Except.error err => Except.error err
  | Except.ok ch => Except.ok { subscription := sub, channel := ch }

/-- The map `map[uuid.UUID]*amqpListener` as the list of its entries; the keys of a
map are distinct. -/
abbrev ListenerMap (χ : Type) := List (Nat × amqpListener χ)

/-- The map read `m[id]`. -/
def ListenerMap.lookup {χ : Type} (m : ListenerMap χ) (id : Nat) : Option (amqpListener χ) :=
  match m with
  | [] => none
  | (k, lst) :: rest => if k = id then some lst else ListenerMap.lookup rest id

/-- The map write `m[id] = lst`: the entry of `id` is replaced, or a new entry is
added. -/
def ListenerMap.store {χ : Type} (m : ListenerMap χ) (id : Nat) (lst : amqpListener χ) :
    ListenerMap χ :=
  match m with
  | [] => [(id, lst)]
  | (k, old) :: rest =>
    if k = id then (k, lst) :: rest else (k, old) :: ListenerMap.store rest id lst

/-- The built-in `delete(m, id)`. -/
def ListenerMap.delete {χ : Type} (m : ListenerMap χ) (id : Nat) : ListenerMap χ :=
  m.filter (fun entry => decide (entry.1 ≠ id))

/-- The order in which one `range` statement visits the entries of a map. The language
leaves it unspecified and the runtime varies it from one loop to the next: it is some
rearrangement of the entries. -/
structure RangeOrder (α : Type) where
  iter : List α → List α
  perm : ∀ l, (iter l).Perm l

/-- The order of the list of entries itself. -/
def RangeOrder.forward (α : Type) : RangeOrder α :=
  { iter := fun l => l, perm := fun l => List.Perm.refl l }

/-- The opposite order. -/
def RangeOrder.backward (α : Type) : RangeOrder α :=
  { iter := fun l => l.reverse, perm := fun l => List.reverse_perm l }

/-- The struct `Consumer`: the map of its listeners (the connection is in the
`Broker`, the matcher is an argument of `handleMessage`). -/
structure Consumer (χ : Type) where
  listeners : ListenerMap χ

/-- The function `NewConsumer`. -/
def NewConsumer (χ : Type) : Consumer χ := { listeners := [] }

/-- The invariant of the map of listeners: the keys are distinct and every listener is
stored under the id of its subscription (`c.listeners[sub.ID()] = lst`). -/
def Consumer.WellFormed {χ : Type} (c : Consumer χ) : Prop :=
  (c.listeners.map Prod.fst).Nodup ∧ ∀ entry ∈ c.listeners, entry.2.subscription.id = entry.1

instance {χ : Type} (c : Consumer χ) : Decidable c.WellFormed := by
  unfold Consumer.WellFormed
  infer_instance

/-- The method `(*Consumer).Subscribe`. -/
def Consumer.Subscribe {χ : Type} (b : Broker χ) (c : Consumer χ) (sub : Subscription) :
    Consumer χ × Option Err :=
  match startListener b sub with
  | Except.error err =>
    (c, some (Err.wrap ("starting amqp listener for queue " ++ sub.Queue) err))
  | Except.ok lst => ({ c with listeners := c.listeners.store sub.ID lst }, none)

/-- The method `(*Consumer).Unsubscribe`. When `stop` fails the listener stays in the
map, with its channel as `stop` left it. -/
def Consumer.Unsubscribe {χ : Type} (b : Broker χ) (c : Consumer χ) (id : Nat) :
    Consumer χ × Option Err :=
  match c.listeners.lookup id with
  | some lst =>
    let r := lst.stop b
    match r.2 with
    | some err =>
      ({ c with listeners := c.listeners.store id r.1 },
        some (Err.wrap ("stopping amqp listener for queue " ++ lst.subscription.Queue) err))
    | none => ({ c with listeners := c.listeners.delete id }, none)
  | none => (c, none)

/-- The loop of `(*Consumer).UnsubscribeFromQueue` over the entries still to visit,
on the map as the earlier iterations left it. -/
def unsubscribeFromQueueLoop {χ : Type} (b : Broker χ) (queue : String) :
    List (Nat × amqpListener χ) → ListenerMap χ → ListenerMap χ × Option Err
  | [], m => (m, none)
  | (id, lst) :: rest, m =>
    if lst.subscription.Queue = queue then
      let r := lst.stop b
      match r.2 with
      | some err =>
        (m.store id r.1,
          some (Err.wrap ("stopping amqp listener for queue " ++ lst.subscription.Queue) err))
      | none => unsubscribeFromQueueLoop b queue rest (m.delete id)
    else unsubscribeFromQueueLoop b queue rest m

/-- The method `(*Consumer).UnsubscribeFromQueue`. -/
def Consumer.UnsubscribeFromQueue {χ : Type} (b : Broker χ)
    (o : RangeOrder (Nat × amqpListener χ)) (c : Consumer χ) (queue : String) :
    Consumer χ × Option Err :=
  let r := unsubscribeFromQueueLoop b queue (o.iter c.listeners) c.listeners
  ({ c with listeners := r.1 }, r.2)

/-- The loop of `(*Consumer).UnsubscribeAll`. -/
def unsubscribeAllLoop {χ : Type} (b : Broker χ) :
    List (Nat × amqpListener χ) → ListenerMap χ → ListenerMap χ × Option Err
  | [], m => (m, none)
  | (id, lst) :: rest, m =>
    let r := lst.stop b
    match r.2 with
    | some err =>
      (m.store id r.1,
        some (Err.wrap ("stopping amqp listener for queue " ++ lst.subscription.Queue) err))
    | none => unsubscribeAllLoop b rest (m.delete id)

/-- The method `(*Consumer).UnsubscribeAll`. -/
def Consumer.UnsubscribeAll {χ : Type} (b : Broker χ)
    (o : RangeOrder (Nat × amqpListener χ)) (c : Consumer χ) : Consumer χ × Option Err :=
  let r := unsubscribeAllLoop b (o.iter c.listeners) c.listeners
  ({ c with listeners := r.1 }, r.2)

/-- The method `(*Consumer).GetQueueSubscriptions`. -/
def Consumer.GetQueueSubscriptions {χ : Type} (o : RangeOrder (Nat × amqpListener χ))
    (c : Consumer χ) (queue : String) : List Subscription :=
  ((o.iter c.listeners).filter (fun entry => decide (entry.2.subscription.Queue = queue))).map
    (fun entry => entry.2.subscription)

/-- The method `(*Consumer).GetAllSubscriptions`. -/
def Consumer.GetAllSubscriptions {χ : Type} (o : RangeOrder (Nat × amqpListener χ))
    (c : Consumer χ) : List Subscription :=
  (o.iter c.listeners).map (fun entry => entry.2.subscription)

/-- The struct `SubscriptionsService` of package `app`, over the consumer of package
`amqp`, the implementation of its `Consumer` interface that `app.Run` passes. -/
structure SubscriptionsService (χ : Type) where
  consumer : Consumer χ

/-- The second half of `(*SubscriptionsService).Subscribe`, from `NewSubscription` on. -/
def SubscriptionsService.subscribeNew {χ : Type} (b : Broker χ) (newID : Nat)
    (s : SubscriptionsService χ) (queue : String) :
    SubscriptionsService χ × Except Err Subscription :=
  let sub := NewSubscription newID queue
  let r := s.consumer.Subscribe b sub
  match r.2 with
  | some err => ({ consumer := r.1 }, Except.error err)
  | none => ({ consumer := r.1 }, Except.ok sub)

/-- The method `(*SubscriptionsService).Subscribe`; `newID` is the value `uuid.New()`
returns when it is called, `o` the order of the `range` in `GetQueueSubscriptions`. -/
def SubscriptionsService.Subscribe {χ : Type} (b : Broker χ)
    (o : RangeOrder (Nat × amqpListener χ)) (newID : Nat) (s : SubscriptionsService χ)
    (queue : String) (idempotent : Bool) :
    SubscriptionsService χ × Except Err Subscription :=
  if idempotent then
    match s.consumer.GetQueueSubscriptions o queue with
    | sub :: _ => (s, Except.ok sub)
    | [] => s.subscribeNew b newID queue
  else s.subscribeNew b newID queue

/-- The method `(*SubscriptionsService).UnsubscribeByID`. -/
def SubscriptionsService.UnsubscribeByID {χ : Type} (b : Broker χ)
    (s : SubscriptionsService χ) (id : Nat) : SubscriptionsService χ × Option Err :=
  let r := s.consumer.Unsubscribe b id
  ({ consumer := r.1 }, r.2)

/-- The method `(*SubscriptionsService).GetAllSubscriptions`. -/
def SubscriptionsService.GetAllSubscriptions {χ : Type}
    (o : RangeOrder (Nat × amqpListener χ)) (s : SubscriptionsService χ) : List Subscription :=
  s.consumer.GetAllSubscriptions o

/-- A channel of the library is open or closed. -/
inductive ChannelState where
  | isOpen
  | isClosed
  deriving DecidableEq, Repr

/-- A broker whose `Close` succeeds on an open channel and returns no error on a closed
one, as the tests of the consumer require of the library (`Unsubscribe` of a listener on
an open channel, where `stop` calls `Close` twice, must return no error); every `Start`
opens a channel. -/
def closeQuiet : Broker ChannelState :=
  { Close := fun _ => (ChannelState.isClosed, none)
    Start := fun _ => Except.ok ChannelState.isOpen }

/-- A listener on an open channel. -/
def openListener (id : Nat) (queue : String) : amqpListener ChannelState :=
  { subscription := { id := id, queue := queue }, channel := ChannelState.isOpen }

/-- A listener whose channel is already closed. -/
def closedListener (id : Nat) (queue : String) : amqpListener ChannelState :=
  { subscription := { id := id, queue := queue }, channel := ChannelState.isClosed }

/-- A consumer with the listeners 1 and 2 on queue `q` and the listener 3 on queue `r`. -/
def sampleConsumer : Consumer ChannelState :=
  { listeners := [(1, openListener 1 "q"), (2, openListener 2 "q"), (3, openListener 3 "r")] }

end Amqp

namespace Amqp

/-- The subscriptions service over the sample consumer. -/
def sampleService : SubscriptionsService ChannelState := { consumer := sampleConsumer }

end Amqp

/-! ## The listener: one delivery -/

namespace Amqp

open Expectations Subscriptions

/-- The fields of `amqp.Delivery` that `handleMessage` reads. -/
structure Delivery where
  Exchange : String
  RoutingKey : String
  ReplyTo : String
  CorrelationId : String
  Body : Bytes
  deriving DecidableEq, Repr

/-- The fields of `amqp.Publishing` that `handleMessage` sets. -/
structure Publishing where
  ContentType : String
  CorrelationId : String
  Body : Bytes
  deriving DecidableEq, Repr

/-- What a listener does to the outside while it handles one delivery, in order: the
calls it makes on the channel and on the delivery (`Nack` and `Reject` are the two
negative acknowledgements of the library), and the lines it logs as errors. -/
inductive Effect where
  | Publish (exchange key : String) (mandatory immediate : Bool) (msg : Publishing)
  | Ack (multiple : Bool)
  | Nack (multiple requeue : Bool)
  | Reject (requeue : Bool)
  | LogError (text : String)
  deriving DecidableEq, Repr

/-- The effect is a call on the channel or the delivery, not a log line. -/
def Effect.isBrokerCall : Effect → Bool
  | Effect.LogError _ => false
  | _ => true

/-- The interface `Matcher` over a state `μ`: the state after the call and the returned
pointer; `none` is a panic inside the call. -/
abbrev Matcher (μ : Type) := μ → Candidate → Option (μ × Option Response)

/-- The registry as a `Matcher`, as `app.Run` passes it to `NewConsumer`; `now` is the
value of `time.Now()` during the call. -/
def registryMatcher (now : Int) : Matcher ExpectationsService :=
  fun s candidate => s.Match candidate now

/-- The bytes of the reply sent when nothing matches, the JSON object with the one
field `errors` of value `no match found`. -/
def notFoundResponse : Bytes :=
  [123, 34, 101, 114, 114, 111, 114, 115, 34, 58, 34, 110, 111, 32, 109, 97, 116, 99, 104, 32,
    102, 111, 117, 110, 100, 34, 125]

/-- The body of the reply to a delivery for which `Match` returned `found`. -/
def replyBody (found : Option Response) : Bytes :=
  match found with
  | some r => r.Body
  | none => notFoundResponse

/-- The method `(*amqpListener).handleMessage`. The arguments `publish` and `ack` are
the errors that `channel.Publish` and `delivery.Ack` return; the result is the state of
the matcher after the call and the effects in order, `none` when the matcher panics. -/
def handleMessage {μ : Type} (matcher : Matcher μ)
    (publish : String → String → Bool → Bool → Publishing → Option Err)
    (ack : Bool → Option Err) (m : μ) (delivery : Delivery) : Option (μ × List Effect) :=
  match NewCandidate delivery.Exchange delivery.RoutingKey delivery.Body with
  | Except.error _ => some (m, [Effect.LogError "failed to create candidate"])
  | Except.ok candidate =>
    match matcher m candidate with
    | none => none
    | some (m', found) =>
      let response : Option Response :=
        match found with
        | some r => some r
        | none =>
          match NewResponse notFoundResponse with
          | Except.ok r => some r
          | Except.error _ => none
      match response with
      | none => none
      | some response =>
        let msg : Publishing :=
          { ContentType := "application/json", CorrelationId := delivery.CorrelationId,
            Body := response.Body }
        let published :=
          [Effect.Publish "" delivery.ReplyTo false false msg] ++
            (match publish "" delivery.ReplyTo false false msg with
             | some _ => [Effect.LogError "failed to publish response"]
             | none => [])
        let acked :=
          [Effect.Ack false] ++
            (match ack false with
             | some _ => [Effect.LogError "failed to acknowledge message"]
             | none => [])
        some (m', published ++ acked)

/-- A delivery published to the default exchange, whose name is empty, with the name of
the queue as routing key. -/
def defaultExchangeDelivery : Delivery :=
  { Exchange := "", RoutingKey := "q", ReplyTo := "amq.rabbitmq.reply-to", CorrelationId := "7",
    Body := [102, 111, 111] }

/-- A delivery for the candidate `sampleCandidate`. -/
def sampleDelivery : Delivery :=
  { Exchange := "X", RoutingKey := "rk", ReplyTo := "amq.rabbitmq.reply-to", CorrelationId := "7",
    Body := [102, 111, 111] }

end Amqp

/-! ## The control plane: the gRPC handlers -/

namespace Grpc

open Expectations Comparators

/-- The calls of libraries the handlers make: the JSON functions of the comparators,
`regexp.Compile` (the compiled expression by its method `Match`), `uuid.Parse`, and the
floating-point conversion `time.Duration(float64(seconds) * float64(time.Second))`. -/
structure Lib where
  json : JSONLib
  regexpCompile : String → Except Error (Bytes → Bool)
  uuidParse : String → Except Error Nat
  toDuration : Rat → Int

/-- Modelled from the spec: the oneof `times` of the message `Times` of the generated
package `api/v1`, which is not among the sources: `unlimited` or `remainingTimes`, or
neither. -/
inductive ProtoTimes where
  | unset
  | RemainingTimes (remainingTimes : Nat)
  | Unlimited (unlimited : Bool)
  deriving DecidableEq, Repr

/-- Modelled from the spec: the generated getter `(*Times).GetRemainingTimes`: the
field when the oneof holds `remainingTimes`, the zero value otherwise. -/
def ProtoTimes.GetRemainingTimes : ProtoTimes → Nat
  | ProtoTimes.RemainingTimes n => n
  | _ => 0

/-- Modelled from the spec: the enum `JSONBodyAssertion_MatchType` of `api/v1`. -/
inductive JSONBodyAssertion_MatchType where
  | MATCH_TYPE_UNSPECIFIED
  | MATCH_TYPE_EXACT
  | MATCH_TYPE_PARTIAL
  deriving DecidableEq, Repr

/-- Modelled from the spec: the oneof `body` of the message `Request` of `api/v1`: a
JSON body with its match type, a regex body, or neither. The JSON body, a
`structpb.Struct`, is held as what its `MarshalJSON` returns. -/
inductive ProtoBody where
  | JsonBody (matchType : JSONBodyAssertion_MatchType) (marshalled : Except Error Bytes)
  | RegexBody (regex : String)
  | unset

/-- Modelled from the spec: the message `Request` of `api/v1`. -/
structure ProtoRequest where
  Exchange : String
  RoutingKey : String
  Body : ProtoBody

/-- Modelled from the spec: the message `Response` of `api/v1`; the body, a
`structpb.Value`, is held as what its `MarshalJSON` returns. -/
structure ProtoResponse where
  Body : Except Error Bytes

/-- Modelled from the spec: the message `CreateExpectationRequest` of `api/v1`; a
pointer field is an `Option`. -/
structure CreateExpectationRequest where
  Request : Option ProtoRequest
  Response : Option ProtoResponse
  Times : Option ProtoTimes
  TimeToLiveSeconds : Option Rat

/-- The function `comparators.NewRegex`, as a value of the interface `BodyComparator`. -/
def NewRegex (lib : Lib) (regex : String) : Except Err BodyComparator :=
  match lib.regexpCompile regex with
  | Except.error err => Except.error (Err.wrap "failed to compile regex" (Err.base err))
  | Except.ok compiled => Except.ok { Match := compiled }

/-- The function `newComparator`; the getter `GetBody` of a nil request returns nil. The
text of the last error ends, in the source, with the Go type of the body. -/
def newComparator (lib : Lib) (req : Option ProtoRequest) : Except Err BodyComparator :=
  match req.map (fun r => r.Body) with
  | some (ProtoBody.JsonBody protoMatchType marshalled) =>
    let matchType :=
      match protoMatchType with
      | JSONBodyAssertion_MatchType.MATCH_TYPE_EXACT => MatchTypeExact
      | JSONBodyAssertion_MatchType.MATCH_TYPE_PARTIAL => MatchTypePartial
      | JSONBodyAssertion_MatchType.MATCH_TYPE_UNSPECIFIED => MatchTypeExact
    match marshalled with
    | Except.error err =>
      Except.error (Err.wrap "unable to read expectation request JSON body" (Err.base err))
    | Except.ok rawBody =>
      match NewJSONBody lib.json rawBody matchType with
      | Except.error err => Except.error (Err.base err)
      | Except.ok b => Except.ok (b.toBodyComparator lib.json)
  | some (ProtoBody.RegexBody regex) => NewRegex lib regex
  | _ => Except.error (Err.base (Error.message "unsupported request body type"))

/-- The function `newExpectationsRequest`. A nil request does not reach `NewRequest`:
`newComparator` fails on it. -/
def newExpectationsRequest (lib : Lib) (req : Option ProtoRequest) : Except Err Request :=
  match newComparator lib req with
  | Except.error err => Except.error (Err.wrap "failed to create body comparator" err)
  | Except.ok comparator =>
    match req with
    | none => Except.error (Err.base (Error.message "unsupported request body type"))
    | some r =>
      match NewRequest r.Exchange r.RoutingKey (some comparator) with
      | Except.error err =>
        Except.error (Err.wrap "failed to create expectation request" (Err.base err))
      | Except.ok request => Except.ok request

/-- The function `newExpectationsResponse`; `none` is the panic of `res.Body` on a nil
response. -/
def newExpectationsResponse (res : Option ProtoResponse) : Option (Except Err Response) :=
  match res with
  | none => none
  | some r =>
    match r.Body with
    | Except.error err =>
      some (Except.error
        (Err.wrap "unable to read expectation response JSON body" (Err.base err)))
    | Except.ok resBodyJSON =>
      match NewResponse resBodyJSON with
      | Except.error err =>
        some (Except.error (Err.wrap "failed to create expectation response" (Err.base err)))
      | Except.ok response => some (Except.ok response)

/-- The function `newExpectationOptions`. -/
def newExpectationOptions (lib : Lib) (req : CreateExpectationRequest) :
    List ExpectationOption :=
  let expOpts : List ExpectationOption := []
  let expOpts :=
    match req.Times with
    | some times =>
      if times.GetRemainingTimes > 0 then
        expOpts ++ [ExpectationOption.WithLimitedTimes times.GetRemainingTimes]
      else expOpts ++ [ExpectationOption.WithUnlimitedTimes]
    | none => expOpts
  match req.TimeToLiveSeconds with
  | some seconds => expOpts ++ [ExpectationOption.WithTimeToLive (lib.toDuration seconds)]
  | none => expOpts

/-- The handler `CreateExpectation`: the server after the call and the id of the new
expectation or the error; `none` is a panic. The values of `uuid.New()` and `time.Now()`
inside `NewExpectation` are `newID` and `now`. -/
def CreateExpectation {σ : Type} (lib : Lib) (newID : Nat) (now : Int)
    (s : AmqpMockServerServiceServer σ) (req : CreateExpectationRequest) :
    Option (AmqpMockServerServiceServer σ × Except Err Nat) :=
  match newExpectationsRequest lib req.Request with
  | Except.error err =>
    some (s, Except.error (Err.wrap "failed to create expectation request" err))
  | Except.ok request =>
    match newExpectationsResponse req.Response with
    | none => none
    | some (Except.error err) =>
      some (s, Except.error (Err.wrap "failed to create expectation response" err))
    | some (Except.ok response) =>
      match NewExpectation newID now request response (newExpectationOptions lib req) with
      | Except.error err =>
        some (s, Except.error (Err.wrap "failed to create expectation" (Err.base err)))
      | Except.ok exp =>
        some ({ s with expectationsService := s.expectationsService.Create exp },
          Except.ok exp.ID)

/-- The handler `GetExpectation`, which leaves the server as it is: the expectation
found or the error. -/
def GetExpectation {σ : Type} (lib : Lib) (s : AmqpMockServerServiceServer σ)
    (expectationId : String) : Except Err Expectation :=
  match lib.uuidParse expectationId with
  | Except.error err => Except.error (Err.wrap "invalid expectation id" (Err.base err))
  | Except.ok expUID =>
    match s.expectationsService.GetExpectation expUID with
    | none => Except.error (Err.base (Error.message "expectation not found"))
    | some exp => Except.ok exp

/-- Modelled from the spec: the message `GetAssertionsRequest` of `api/v1`. -/
structure ProtoGetAssertionsRequest where
  ExpectationId : Option String
  Status : Option String
  Include : List String

/-- The handler `GetAssertions`, which leaves the server as it is: the assertions or
the error. -/
def GetAssertions {σ : Type} (lib : Lib) (s : AmqpMockServerServiceServer σ)
    (req : ProtoGetAssertionsRequest) : Except Err (List Assertion) :=
  match req.ExpectationId with
  | some text =>
    match lib.uuidParse text with
    | Except.error err => Except.error (Err.wrap "invalid expectation id" (Err.base err))
    | Except.ok expUID =>
      Except.ok (s.expectationsService.GetAssertions
        { ExpectationID := some expUID, Status := req.Status, Include := req.Include })
  | none =>
    Except.ok (s.expectationsService.GetAssertions
      { ExpectationID := none, Status := req.Status, Include := req.Include })

/-- The library function `uuid.MustParse`: `uuid.Parse`, with a panic (`none`) in place
of the error. -/
def MustParse (lib : Lib) (text : String) : Option Nat :=
  match lib.uuidParse text with
  | Except.error _ => none
  | Except.ok id => some id

/-- The handler `DeleteSubscription`; the method `UnsubscribeByID` of the interface is
the argument `unsubscribeByID`. The argument of the call is evaluated first: when
`uuid.MustParse` panics the method is not called, and the result is `none`. -/
def DeleteSubscription {σ : Type} (lib : Lib) (unsubscribeByID : σ → Nat → σ × Option Err)
    (s : AmqpMockServerServiceServer σ) (subscriptionId : String) :
    Option (AmqpMockServerServiceServer σ × Except Err Unit) :=
  match MustParse lib subscriptionId with
  | none => none
  | some id =>
    let r := unsubscribeByID s.subscriptionsService id
    match r.2 with
    | some err =>
      some ({ s with subscriptionsService := r.1 },
        Except.error (Err.wrap "failed to unsubscribe" err))
    | none => some ({ s with subscriptionsService := r.1 }, Except.ok ())

/-- The interceptor `unaryServerPanicRecoveryInterceptor` of `lib/grpc`, installed on
every server by `NewServer`, around a handler called on the state `s`: the result of the
handler, or after a panic the status error `Internal`, `panic caught`. The handlers
above panic before they change anything, so the state after a recovered panic is `s`. -/
def unaryServerPanicRecoveryInterceptor {S α : Type} (s : S)
    (handler : Option (S × Except Err α)) : S × Except Err α :=
  match handler with
  | some r => r
  | none => (s, Except.error (Err.status "Internal" "panic caught"))

/-- The number a non-empty list of decimal digits denotes. -/
def decimal (digits : List Char) : Option Nat :=
  match digits with
  | [] => none
  | _ =>
    digits.foldl
      (fun acc c =>
        match acc with
        | none => none
        | some n => if 48 ≤ c.toNat ∧ c.toNat ≤ 57 then some (10 * n + (c.toNat - 48)) else none)
      (some 0)

/-- A stand-in for the libraries in examples: every regular expression compiles to the
expression that matches everything, an id is accepted when it is a decimal numeral, and
a number of seconds becomes that number of nanoseconds times ten to the ninth, rounded
down; the JSON functions are those of `testdataJSONLib`. -/
def sampleLib : Lib :=
  { json := testdataJSONLib
    regexpCompile := fun _ => Except.ok (fun _ => true)
    uuidParse := fun text =>
      match decimal text.toList with
      | some n => Except.ok n
      | none => Except.error (Error.message "invalid UUID")
    toDuration := fun seconds => Rat.floor (seconds * 1000000000) }

/-- A create request on exchange `X`, routing key `rk`, with the empty regular
expression, an empty JSON object as response body, and the given `times`. -/
def sampleCreateRequest (times : Option ProtoTimes) : CreateExpectationRequest :=
  { Request := some { Exchange := "X", RoutingKey := "rk", Body := ProtoBody.RegexBody "" }
    Response := some { Body := Except.ok [123, 125] }
    Times := times
    TimeToLiveSeconds := none }

/-- A server with the registry of `serverAfterMatch` over the sample subscriptions
service. -/
def sampleServer : AmqpMockServerServiceServer (Amqp.SubscriptionsService Amqp.ChannelState) :=
  { expectationsService := scenarioA_after, subscriptionsService := Amqp.sampleService }

end Grpc

/-! ## The library sort: `sort.Slice` sorts and permutes -/

namespace GoSort

variable {α : Type} [Inhabited α]

theorem length_swap (d : List α) (i j : Nat) : (swap d i j).length = d.length := by
  simp [swap]

theorem cell_swap (d : List α) {i j : Nat} (hi : i < d.length) (hj : j < d.length) (k : Nat) :
    cell (swap d i j) k = if k = j then cell d i else if k = i then cell d j else cell d k := by
  unfold swap cell
  simp only [List.getD_eq_getElem?_getD, List.getElem?_set, List.length_set]
  by_cases h1 : k = j
  · subst h1
    simp [hj]
  · by_cases h2 : k = i
    · subst h2
      simp [h1, hi, Ne.symm h1]
    · simp [h1, h2, Ne.symm h1, Ne.symm h2]

theorem cell_swap_perm (d : List α) {i j : Nat} (hi : i < d.length) (hj : j < d.length)
    (k : Nat) : cell (swap d i j) k = cell d (Equiv.swap i j k) := by
  rw [cell_swap d hi hj, Equiv.swap_apply_def]
  by_cases h1 : k = j
  · subst h1
    by_cases h2 : k = i
    · subst h2; simp
    · simp [h2]
  · by_cases h2 : k = i
    · subst h2; simp [h1]
    · simp [h1, h2]

theorem RangePerm.refl (a b : Nat) (d : List α) : RangePerm a b d d :=
  ⟨rfl, Equiv.refl Nat, fun _ _ => rfl, fun _ => rfl⟩

theorem RangePerm.trans {a b : Nat} {d d' d'' : List α} (h1 : RangePerm a b d d')
    (h2 : RangePerm a b d' d'') : RangePerm a b d d'' := by
  obtain ⟨l1, σ1, f1, c1⟩ := h1
  obtain ⟨l2, σ2, f2, c2⟩ := h2
  refine ⟨l2.trans l1, σ2.trans σ1, ?_, ?_⟩
  · intro k hk
    simp [Equiv.trans_apply, f2 k hk, f1 k hk]
  · intro k
    simp [Equiv.trans_apply, c2 k, c1 (σ2 k)]

theorem RangePerm.mono {a b a' b' : Nat} {d d' : List α} (h : RangePerm a b d d')
    (ha : a' ≤ a) (hb : b ≤ b') : RangePerm a' b' d d' := by
  obtain ⟨l, σ, f, c⟩ := h
  exact ⟨l, σ, fun k hk => f k (by omega), c⟩

theorem RangePerm.of_swap (d : List α) {a b i j : Nat} (hb : b ≤ d.length)
    (hi : a ≤ i ∧ i < b) (hj : a ≤ j ∧ j < b) : RangePerm a b d (swap d i j) := by
  refine ⟨length_swap d i j, Equiv.swap i j, ?_, ?_⟩
  · intro k hk
    exact Equiv.swap_apply_of_ne_of_ne (by omega) (by omega)
  · intro k
    exact cell_swap_perm d (by omega) (by omega) k

theorem RangePerm.length_eq {a b : Nat} {d d' : List α} (h : RangePerm a b d d') :
    d'.length = d.length := h.1

theorem RangePerm.frame {a b : Nat} {d d' : List α} (h : RangePerm a b d d') (k : Nat)
    (hk : k < a ∨ b ≤ k) : cell d' k = cell d k := by
  obtain ⟨_, σ, f, c⟩ := h
  rw [c k, f k hk]

theorem RangePerm.range_fwd {a b : Nat} {d d' : List α} (h : RangePerm a b d d') (k : Nat)
    (hk : a ≤ k ∧ k < b) : ∃ k', (a ≤ k' ∧ k' < b) ∧ cell d' k = cell d k' := by
  obtain ⟨_, σ, f, c⟩ := h
  refine ⟨σ k, ?_, c k⟩
  by_contra hn
  have h1 : σ (σ k) = σ k := f (σ k) (by omega)
  have h2 : σ k = k := σ.injective h1
  omega

theorem RangePerm.range_bwd {a b : Nat} {d d' : List α} (h : RangePerm a b d d') (k' : Nat)
    (hk : a ≤ k' ∧ k' < b) : ∃ k, (a ≤ k ∧ k < b) ∧ cell d' k = cell d k' := by
  obtain ⟨_, σ, f, c⟩ := h
  refine ⟨σ.symm k', ?_, by rw [c, Equiv.apply_symm_apply]⟩
  by_contra hn
  have h1 : σ (σ.symm k') = σ.symm k' := f (σ.symm k') (by omega)
  rw [Equiv.apply_symm_apply] at h1
  omega

/-- A property of all cells of the range is kept by a permutation of the range. -/
theorem RangePerm.forall_range {a b : Nat} {d d' : List α} (h : RangePerm a b d d')
    {a' b' : Nat} (ha : a' ≤ a) (hb : b ≤ b') (P : α → Prop)
    (hP : ∀ k, a' ≤ k → k < b' → P (cell d k)) : ∀ k, a' ≤ k → k < b' → P (cell d' k) := by
  intro k h1 h2
  by_cases hk : a ≤ k ∧ k < b
  · obtain ⟨k', hk', e⟩ := h.range_fwd k hk
    rw [e]
    exact hP k' (by omega) (by omega)
  · rw [h.frame k (by omega)]
    exact hP k h1 h2

theorem LowerBound.of_rangePerm {key : α → Int} {a b : Nat} {d d' : List α}
    (h : RangePerm a b d d') (hl : LowerBound key d a b) : LowerBound key d' a b := by
  intro ha
  rw [h.frame (a - 1) (by omega)]
  exact h.forall_range (Nat.le_refl a) (Nat.le_refl b) (fun x => key (cell d (a - 1)) ≤ key x)
    (hl ha)

end GoSort

namespace GoSort

variable {α : Type} [Inhabited α]

theorem insertionSort_inner_spec {less : α → α → Bool} {key : α → Int}
    (hk : KeyOrder less key) (a i : Nat) :
    ∀ (j : Nat) (d : List α), a ≤ j → j ≤ i → i < d.length →
      (∀ p q, a ≤ p → p ≤ q → q ≤ i → p ≠ j → q ≠ j → key (cell d p) ≤ key (cell d q)) →
      (∀ q, j < q → q ≤ i → key (cell d j) ≤ key (cell d q)) →
      RangePerm a (i + 1) d (insertionSort_inner less a j d) ∧
        SortedOn key (insertionSort_inner less a j d) a (i + 1) := by
  intro j
  induction j with
  | zero =>
    intro d ha hji hi H1 H2
    simp only [insertionSort_inner]
    refine ⟨RangePerm.refl _ _ _, ?_⟩
    intro p q hp hpq hq
    by_cases h0 : p = 0
    · by_cases h1 : q = 0
      · subst h0; subst h1; exact le_refl _
      · subst h0; exact H2 q (by omega) (by omega)
    · exact H1 p q hp hpq (by omega) h0 (by omega)
  | succ j ih =>
    intro d ha hji hi H1 H2
    simp only [insertionSort_inner]
    split
    · rename_i hc
      simp only [Bool.and_eq_true, decide_eq_true_eq] at hc
      obtain ⟨hja, hless⟩ := hc
      have hlt : key (cell d (j + 1)) < key (cell d j) := (hk _ _).1 hless
      have hcs := cell_swap d (show j + 1 < d.length by omega) (show j < d.length by omega)
      have hrp : RangePerm a (i + 1) d (swap d (j + 1) j) :=
        RangePerm.of_swap d (by omega) ⟨by omega, by omega⟩ ⟨by omega, by omega⟩
      have := ih (swap d (j + 1) j) (by omega) (by omega) (by rw [length_swap]; exact hi) ?_ ?_
      · exact ⟨hrp.trans this.1, this.2⟩
      · intro p q hp hpq hq hpj hqj
        rw [hcs p, hcs q]
        simp only [hpj, hqj, if_false]
        by_cases hp1 : p = j + 1
        · by_cases hq1 : q = j + 1
          · simp [hp1, hq1]
          · simp only [hp1, hq1, if_true, if_false]
            exact H1 j q (by omega) (by omega) hq (by omega) hq1
        · by_cases hq1 : q = j + 1
          · simp only [hp1, hq1, if_true, if_false]
            exact H1 p j hp (by omega) (by omega) hp1 (by omega)
          · simp only [hp1, hq1, if_false]
            exact H1 p q hp hpq hq hp1 hq1
      · intro q hjq hq
        rw [hcs j, hcs q]
        simp only [if_true]
        by_cases hq1 : q = j + 1
        · simp only [hq1, if_true]
          have : ¬ (j + 1 = j) := by omega
          simp only [this, if_false]
          omega
        · have : ¬ (q = j) := by omega
          simp only [hq1, this, if_false]
          exact H2 q (by omega) hq
    · rename_i hc
      refine ⟨RangePerm.refl _ _ _, ?_⟩
      simp only [Bool.and_eq_true, decide_eq_true_eq, not_and] at hc
      intro p q hp hpq hq
      by_cases hp1 : p = j + 1
      · by_cases hq1 : q = j + 1
        · rw [hp1, hq1]
        · rw [hp1]; exact H2 q (by omega) (by omega)
      · by_cases hq1 : q = j + 1
        · have hja : j + 1 > a := by omega
          have hnl := hc hja
          have h1 : ¬ key (cell d (j + 1)) < key (cell d j) := fun h => hnl ((hk _ _).2 h)
          have h2 := H1 p j hp (by omega) (by omega) hp1 (by omega)
          rw [hq1]; omega
        · exact H1 p q hp hpq (by omega) hp1 hq1

theorem insertionSort_outer_spec {less : α → α → Bool} {key : α → Int}
    (hk : KeyOrder less key) (a b : Nat) :
    ∀ (fuel i : Nat) (d : List α), a < i → b ≤ d.length → b - i ≤ fuel →
      SortedOn key d a i →
      RangePerm a b d (insertionSort_outer less a b fuel i d) ∧
        SortedOn key (insertionSort_outer less a b fuel i d) a b := by
  intro fuel
  induction fuel with
  | zero =>
    intro i d hai hb hf hs
    simp only [insertionSort_outer]
    exact ⟨RangePerm.refl _ _ _, fun p q hp hpq hq => hs p q hp hpq (by omega)⟩
  | succ fuel ih =>
    intro i d hai hb hf hs
    simp only [insertionSort_outer]
    split
    · rename_i hib
      have h1 := insertionSort_inner_spec hk a i i d (by omega) (le_refl _) (by omega)
        (fun p q hp hpq hq hpi hqi => hs p q hp hpq (by omega)) (fun q h1 h2 => by omega)
      have h2 := ih (i + 1) (insertionSort_inner less a i d) (by omega)
        (by rw [h1.1.length_eq]; exact hb) (by omega) h1.2
      exact ⟨(h1.1.mono (le_refl _) (by omega)).trans h2.1, h2.2⟩
    · exact ⟨RangePerm.refl _ _ _, fun p q hp hpq hq => hs p q hp hpq (by omega)⟩

theorem insertionSort_func_spec {less : α → α → Bool} {key : α → Int}
    (hk : KeyOrder less key) (d : List α) (a b : Nat) (hb : b ≤ d.length) :
    RangePerm a b d (insertionSort_func less d a b) ∧
      SortedOn key (insertionSort_func less d a b) a b := by
  unfold insertionSort_func
  exact insertionSort_outer_spec hk a b (b - a) (a + 1) d (by omega) hb (by omega)
    (fun p q hp hpq hq => by
      have : p = q := by omega
      rw [this])

end GoSort

namespace GoSort

variable {α : Type} [Inhabited α]

theorem scanUp_spec (p : α → Bool) (d : List α) (j : Nat) :
    ∀ (fuel i : Nat), j + 1 - i ≤ fuel →
      i ≤ scanUp p d j fuel i ∧
      (scanUp p d j fuel i ≤ j + 1 ∨ scanUp p d j fuel i = i) ∧
      (∀ k, i ≤ k → k < scanUp p d j fuel i → p (cell d k) = true) ∧
      (scanUp p d j fuel i ≤ j → p (cell d (scanUp p d j fuel i)) = false) := by
  intro fuel
  induction fuel with
  | zero =>
    intro i hf
    simp only [scanUp]
    exact ⟨le_refl _, Or.inr trivial, fun k h1 h2 => by omega, fun h => by omega⟩
  | succ fuel ih =>
    intro i hf
    simp only [scanUp]
    split
    · rename_i hc
      simp only [Bool.and_eq_true, decide_eq_true_eq] at hc
      obtain ⟨h1, h2, h3, h4⟩ := ih (i + 1) (by omega)
      refine ⟨by omega, ?_, ?_, h4⟩
      · rcases h2 with h2 | h2
        · exact Or.inl h2
        · left; omega
      · intro k hk1 hk2
        by_cases hki : k = i
        · rw [hki]; exact hc.2
        · exact h3 k (by omega) hk2
    · rename_i hc
      simp only [Bool.and_eq_true, decide_eq_true_eq, not_and, Bool.not_eq_true] at hc
      exact ⟨le_refl _, Or.inr rfl, fun k h1 h2 => by omega, fun h => hc h⟩

theorem scanDown_spec (p : α → Bool) (d : List α) (i : Nat) :
    ∀ (j : Nat),
      scanDown p d i j ≤ j ∧
      (∀ k, scanDown p d i j < k → k ≤ j → p (cell d k) = true ∧ i ≤ k) ∧
      (i ≤ scanDown p d i j → 0 < scanDown p d i j → p (cell d (scanDown p d i j)) = false) := by
  intro j
  induction j with
  | zero =>
    simp only [scanDown]
    exact ⟨le_refl _, fun k h1 h2 => by omega, fun _ h => by omega⟩
  | succ j ih =>
    simp only [scanDown]
    split
    · rename_i hc
      simp only [Bool.and_eq_true, decide_eq_true_eq] at hc
      obtain ⟨h1, h2, h3⟩ := ih
      refine ⟨by omega, ?_, h3⟩
      intro k hk1 hk2
      by_cases hkj : k = j + 1
      · rw [hkj]; exact ⟨hc.2, hc.1⟩
      · exact h2 k hk1 (by omega)
    · rename_i hc
      simp only [Bool.and_eq_true, decide_eq_true_eq, not_and, Bool.not_eq_true] at hc
      exact ⟨le_refl _, fun k h1 h2 => by omega, fun h _ => hc h⟩

theorem partition_loop_spec {less : α → α → Bool} {key : α → Int}
    (hk : KeyOrder less key) (a b : Nat) :
    ∀ (fuel : Nat) (d : List α) (i j : Nat), b ≤ d.length → a < i → a ≤ j → j < b →
      j + 1 - i ≤ fuel →
      (∀ k, a < k → k < i → key (cell d k) < key (cell d a)) →
      (∀ k, j < k → k < b → key (cell d a) ≤ key (cell d k)) →
      RangePerm (a + 1) b d (partition_loop less a fuel d i j).1 ∧
        a ≤ (partition_loop less a fuel d i j).2 ∧
        (partition_loop less a fuel d i j).2 < b ∧
        (∀ k, a < k → k ≤ (partition_loop less a fuel d i j).2 →
          key (cell (partition_loop less a fuel d i j).1 k) < key (cell d a)) ∧
        (∀ k, (partition_loop less a fuel d i j).2 < k → k < b →
          key (cell d a) ≤ key (cell (partition_loop less a fuel d i j).1 k)) := by
  intro fuel
  induction fuel with
  | zero =>
    intro d i j hb hai haj hjb hf L R
    simp only [partition_loop]
    exact ⟨RangePerm.refl _ _ _, haj, hjb, fun k h1 h2 => L k h1 (by omega), R⟩
  | succ fuel ih =>
    intro d i j hb hai haj hjb hf L R
    simp only [partition_loop]
    obtain ⟨u1, u2, u3, u4⟩ :=
      scanUp_spec (fun x => less x (cell d a)) d j (j + 1 - i) i (le_refl _)
    generalize scanUp (fun x => less x (cell d a)) d j (j + 1 - i) i = i' at u1 u2 u3 u4 ⊢
    obtain ⟨v1, v2, v3⟩ := scanDown_spec (fun x => !less x (cell d a)) d i' j
    generalize scanDown (fun x => !less x (cell d a)) d i' j = j' at v1 v2 v3 ⊢
    have L' : ∀ k, a < k → k < i' → key (cell d k) < key (cell d a) := by
      intro k h1 h2
      by_cases h : k < i
      · exact L k h1 h
      · exact (hk _ _).1 (u3 k (by omega) h2)
    have R' : ∀ k, j' < k → k < b → key (cell d a) ≤ key (cell d k) := by
      intro k h1 h2
      by_cases h : j < k
      · exact R k h h2
      · have := (v2 k h1 (by omega)).1
        simp only [Bool.not_eq_true', ← Bool.not_eq_true] at this
        have h3 : ¬ key (cell d k) < key (cell d a) := fun h => this ((hk _ _).2 h)
        omega
    have haj' : a ≤ j' := by
      by_cases h : j' = j
      · omega
      · have := (v2 (j' + 1) (by omega) (by omega)).2
        omega
    split
    · rename_i hc
      exact ⟨RangePerm.refl _ _ _, haj', by omega, fun k h1 h2 => L' k h1 (by omega), R'⟩
    · rename_i hc
      have hij : i' ≤ j' := by omega
      have hcs := cell_swap d (show i' < d.length by omega) (show j' < d.length by omega)
      have hrp : RangePerm (a + 1) b d (swap d i' j') :=
        RangePerm.of_swap d hb ⟨by omega, by omega⟩ ⟨by omega, by omega⟩
      have hi'f : less (cell d i') (cell d a) = false := u4 (by omega)
      have hj'f : (!less (cell d j') (cell d a)) = false := v3 hij (by omega)
      have hi'k : key (cell d a) ≤ key (cell d i') := by
        have h3 : ¬ key (cell d i') < key (cell d a) := fun h => by
          have := (hk _ _).2 h
          rw [hi'f] at this
          exact Bool.false_ne_true this
        omega
      have hj'k : key (cell d j') < key (cell d a) := by
        apply (hk _ _).1
        simpa using hj'f
      have ha : cell (swap d i' j') a = cell d a := hrp.frame a (by omega)
      have := ih (swap d i' j') (i' + 1) (j' - 1) (by rw [length_swap]; exact hb) (by omega)
        (by omega) (by omega) (by omega) ?_ ?_
      · rw [ha] at this
        exact ⟨hrp.trans this.1, this.2⟩
      · intro k h1 h2
        rw [ha, hcs k]
        by_cases e1 : k = j'
        · have : i' = j' := by omega
          simp only [e1, if_true, this]
          exact hj'k
        · by_cases e2 : k = i'
          · simp only [e1, e2, if_true, if_false]
            rw [e2] at e1
            simp only [e1, if_false]
            exact hj'k
          · simp only [e1, e2, if_false]
            exact L' k h1 (by omega)
      · intro k h1 h2
        rw [ha, hcs k]
        by_cases e1 : k = j'
        · simp only [e1, if_true]
          exact hi'k
        · by_cases e2 : k = i'
          · omega
          · simp only [e1, e2, if_false]
            exact R' k (by omega) h2

end GoSort

namespace GoSort

variable {α : Type} [Inhabited α]

theorem partition_func_eq (less : α → α → Bool) (d : List α) (a b pivot : Nat) :
    (partition_func less d a b pivot).1 =
        swap (partition_loop less a (b - a + 1) (swap d a pivot) (a + 1) (b - 1)).1
          (partition_loop less a (b - a + 1) (swap d a pivot) (a + 1) (b - 1)).2 a ∧
      (partition_func less d a b pivot).2.1 =
        (partition_loop less a (b - a + 1) (swap d a pivot) (a + 1) (b - 1)).2 := by
  simp only [partition_func, partition_loop]
  split <;> simp

theorem partition_func_spec {less : α → α → Bool} {key : α → Int}
    (hk : KeyOrder less key) (d : List α) (a b pivot : Nat) (hb : b ≤ d.length)
    (hp1 : a ≤ pivot) (hp2 : pivot < b) :
    RangePerm a b d (partition_func less d a b pivot).1 ∧
      a ≤ (partition_func less d a b pivot).2.1 ∧
      (partition_func less d a b pivot).2.1 < b ∧
      (∀ k, a ≤ k → k < (partition_func less d a b pivot).2.1 →
        key (cell (partition_func less d a b pivot).1 k) <
          key (cell (partition_func less d a b pivot).1 (partition_func less d a b pivot).2.1)) ∧
      (∀ k, (partition_func less d a b pivot).2.1 < k → k < b →
        key (cell (partition_func less d a b pivot).1 (partition_func less d a b pivot).2.1) ≤
          key (cell (partition_func less d a b pivot).1 k)) := by
  obtain ⟨e1, e2⟩ := partition_func_eq less d a b pivot
  rw [e1, e2]
  have hrp0 : RangePerm a b d (swap d a pivot) :=
    RangePerm.of_swap d hb ⟨le_refl _, by omega⟩ ⟨hp1, hp2⟩
  obtain ⟨h1, h2, h3, h4, h5⟩ := partition_loop_spec hk a b (b - a + 1) (swap d a pivot)
    (a + 1) (b - 1) (by rw [length_swap]; exact hb) (by omega) (by omega) (by omega) (by omega)
    (fun k x y => by omega) (fun k x y => by omega)
  generalize partition_loop less a (b - a + 1) (swap d a pivot) (a + 1) (b - 1) = r at h1 h2 h3 h4 h5 ⊢
  have hlen : r.1.length = d.length := by rw [h1.length_eq, length_swap]
  have ha : cell r.1 a = cell (swap d a pivot) a := h1.frame a (by omega)
  have hcs := cell_swap r.1 (show r.2 < r.1.length by omega) (show a < r.1.length by omega)
  have hrp2 : RangePerm a b r.1 (swap r.1 r.2 a) :=
    RangePerm.of_swap r.1 (by omega) ⟨h2, h3⟩ ⟨le_refl _, by omega⟩
  refine ⟨hrp0.trans ((h1.mono (by omega) (le_refl _)).trans hrp2), h2, h3, ?_, ?_⟩
  · intro k hk1 hk2
    rw [hcs k, hcs r.2]
    have hne : ¬ (k = r.2) := by omega
    by_cases hka : k = a
    · subst hka
      simp only [if_true, hne, if_false]
      by_cases hr : r.2 = k
      · omega
      · simp only [hr, if_false]
        rw [ha]
        exact h4 r.2 (by omega) (le_refl _)
    · by_cases hr : r.2 = a
      · omega
      · simp only [hne, hka, hr, if_false, if_true]
        rw [ha]
        exact h4 k (by omega) (by omega)
  · intro k hk1 hk2
    rw [hcs k, hcs r.2]
    have hne : ¬ (k = a) := by omega
    by_cases hr : r.2 = a
    · simp only [hr, if_true, hne, if_false]
      rw [ha]
      exact h5 k (by omega) hk2
    · have hne2 : ¬ (k = r.2) := by omega
      simp only [hr, hne, hne2, if_false, if_true]
      rw [ha]
      exact h5 k hk1 hk2

theorem partitionEqual_loop_spec {less : α → α → Bool} {key : α → Int}
    (hk : KeyOrder less key) (a b : Nat) :
    ∀ (fuel : Nat) (d : List α) (i j : Nat), b ≤ d.length → a < i → i ≤ b → a ≤ j → j < b →
      j + 1 - i ≤ fuel →
      (∀ k, a < k → k < i → key (cell d k) ≤ key (cell d a)) →
      (∀ k, j < k → k < b → key (cell d a) < key (cell d k)) →
      RangePerm (a + 1) b d (partitionEqual_loop less a fuel d i j).1 ∧
        a < (partitionEqual_loop less a fuel d i j).2 ∧
        (partitionEqual_loop less a fuel d i j).2 ≤ b ∧
        (∀ k, a < k → k < (partitionEqual_loop less a fuel d i j).2 →
          key (cell (partitionEqual_loop less a fuel d i j).1 k) ≤ key (cell d a)) ∧
        (∀ k, (partitionEqual_loop less a fuel d i j).2 ≤ k → k < b →
          key (cell d a) < key (cell (partitionEqual_loop less a fuel d i j).1 k)) := by
  intro fuel
  induction fuel with
  | zero =>
    intro d i j hb hai hib haj hjb hf L R
    simp only [partitionEqual_loop]
    exact ⟨RangePerm.refl _ _ _, hai, hib, L, fun k h1 h2 => R k (by omega) h2⟩
  | succ fuel ih =>
    intro d i j hb hai hib haj hjb hf L R
    simp only [partitionEqual_loop]
    obtain ⟨u1, u2, u3, u4⟩ :=
      scanUp_spec (fun x => !less (cell d a) x) d j (j + 1 - i) i (le_refl _)
    generalize scanUp (fun x => !less (cell d a) x) d j (j + 1 - i) i = i' at u1 u2 u3 u4 ⊢
    obtain ⟨v1, v2, v3⟩ := scanDown_spec (fun x => less (cell d a) x) d i' j
    generalize scanDown (fun x => less (cell d a) x) d i' j = j' at v1 v2 v3 ⊢
    have L' : ∀ k, a < k → k < i' → key (cell d k) ≤ key (cell d a) := by
      intro k h1 h2
      by_cases h : k < i
      · exact L k h1 h
      · have := u3 k (by omega) h2
        simp only [Bool.not_eq_true', ← Bool.not_eq_true] at this
        have h3 : ¬ key (cell d a) < key (cell d k) := fun h => this ((hk _ _).2 h)
        omega
    have R' : ∀ k, j' < k → k < b → key (cell d a) < key (cell d k) := by
      intro k h1 h2
      by_cases h : j < k
      · exact R k h h2
      · exact (hk _ _).1 (v2 k h1 (by omega)).1
    have haj' : a ≤ j' := by
      by_cases h : j' = j
      · omega
      · have := (v2 (j' + 1) (by omega) (by omega)).2
        omega
    split
    · rename_i hc
      exact ⟨RangePerm.refl _ _ _, by omega, by omega, L', fun k h1 h2 => R' k (by omega) h2⟩
    · rename_i hc
      have hij : i' ≤ j' := by omega
      have hcs := cell_swap d (show i' < d.length by omega) (show j' < d.length by omega)
      have hrp : RangePerm (a + 1) b d (swap d i' j') :=
        RangePerm.of_swap d hb ⟨by omega, by omega⟩ ⟨by omega, by omega⟩
      have hi'f : (!less (cell d a) (cell d i')) = false := u4 (by omega)
      have hj'f : less (cell d a) (cell d j') = false := v3 hij (by omega)
      have hj'k : key (cell d j') ≤ key (cell d a) := by
        have h3 : ¬ key (cell d a) < key (cell d j') := fun h => by
          have := (hk _ _).2 h
          rw [hj'f] at this
          exact Bool.false_ne_true this
        omega
      have hi'k : key (cell d a) < key (cell d i') := by
        apply (hk _ _).1
        simpa using hi'f
      have ha : cell (swap d i' j') a = cell d a := hrp.frame a (by omega)
      have := ih (swap d i' j') (i' + 1) (j' - 1) (by rw [length_swap]; exact hb) (by omega)
        (by omega) (by omega) (by omega) (by omega) ?_ ?_
      · rw [ha] at this
        exact ⟨hrp.trans this.1, this.2⟩
      · intro k h1 h2
        rw [ha, hcs k]
        by_cases e1 : k = j'
        · have : i' = j' := by omega
          rw [this] at hi'k
          omega
        · by_cases e2 : k = i'
          · simp only [e1, e2, if_true, if_false]
            rw [e2] at e1
            simp only [e1, if_false]
            exact hj'k
          · simp only [e1, e2, if_false]
            exact L' k h1 (by omega)
      · intro k h1 h2
        rw [ha, hcs k]
        by_cases e1 : k = j'
        · simp only [e1, if_true]
          exact hi'k
        · by_cases e2 : k = i'
          · omega
          · simp only [e1, e2, if_false]
            exact R' k (by omega) h2

theorem partitionEqual_func_spec {less : α → α → Bool} {key : α → Int}
    (hk : KeyOrder less key) (d : List α) (a b pivot : Nat) (hb : b ≤ d.length)
    (hp1 : a ≤ pivot) (hp2 : pivot < b) :
    RangePerm a b d (partitionEqual_func less d a b pivot).1 ∧
      a < (partitionEqual_func less d a b pivot).2 ∧
      (partitionEqual_func less d a b pivot).2 ≤ b ∧
      (∀ k, a ≤ k → k < (partitionEqual_func less d a b pivot).2 →
        key (cell (partitionEqual_func less d a b pivot).1 k) ≤ key (cell d pivot)) ∧
      (∀ k, (partitionEqual_func less d a b pivot).2 ≤ k → k < b →
        key (cell d pivot) < key (cell (partitionEqual_func less d a b pivot).1 k)) := by
  simp only [partitionEqual_func]
  have hrp0 : RangePerm a b d (swap d a pivot) :=
    RangePerm.of_swap d hb ⟨le_refl _, by omega⟩ ⟨hp1, hp2⟩
  have hpv : cell (swap d a pivot) a = cell d pivot := by
    rw [cell_swap d (by omega) (by omega)]
    by_cases h : a = pivot
    · simp [h]
    · simp [h]
  obtain ⟨h1, h2, h3, h4, h5⟩ := partitionEqual_loop_spec hk a b (b - a) (swap d a pivot)
    (a + 1) (b - 1) (by rw [length_swap]; exact hb) (by omega) (by omega) (by omega) (by omega)
    (by omega) (fun k x y => by omega) (fun k x y => by omega)
  rw [hpv] at h4 h5
  refine ⟨hrp0.trans (h1.mono (by omega) (le_refl _)), h2, h3, ?_, h5⟩
  intro k hk1 hk2
  by_cases hka : k = a
  · rw [hka, h1.frame a (by omega), hpv]
  · exact h4 k (by omega) hk2

end GoSort

namespace GoSort

variable {α : Type} [Inhabited α]

theorem order2_func_mem (less : α → α → Bool) (d : List α) (a b s : Nat) :
    ((order2_func less d a b s).1 = a ∧ (order2_func less d a b s).2.1 = b) ∨
      ((order2_func less d a b s).1 = b ∧ (order2_func less d a b s).2.1 = a) := by
  unfold order2_func
  split
  · exact Or.inr ⟨rfl, rfl⟩
  · exact Or.inl ⟨rfl, rfl⟩

theorem median_func_mem (less : α → α → Bool) (d : List α) (a b c s : Nat) :
    (median_func less d a b c s).1 = a ∨ (median_func less d a b c s).1 = b ∨
      (median_func less d a b c s).1 = c := by
  simp only [median_func]
  rcases order2_func_mem less d a b s with ⟨h1, h2⟩ | ⟨h1, h2⟩ <;>
  rw [h1, h2] <;>
  generalize (order2_func less d a b s).2.2 = s1 <;>
  [rcases order2_func_mem less d b c s1 with ⟨h3, h4⟩ | ⟨h3, h4⟩;
   rcases order2_func_mem less d a c s1 with ⟨h3, h4⟩ | ⟨h3, h4⟩] <;>
  rw [h3] <;>
  [generalize (order2_func less d b c s1).2.2 = s2;
   generalize (order2_func less d b c s1).2.2 = s2;
   generalize (order2_func less d a c s1).2.2 = s2;
   generalize (order2_func less d a c s1).2.2 = s2] <;>
  [rcases order2_func_mem less d a b s2 with ⟨h5, h6⟩ | ⟨h5, h6⟩;
   rcases order2_func_mem less d a c s2 with ⟨h5, h6⟩ | ⟨h5, h6⟩;
   rcases order2_func_mem less d b a s2 with ⟨h5, h6⟩ | ⟨h5, h6⟩;
   rcases order2_func_mem less d b c s2 with ⟨h5, h6⟩ | ⟨h5, h6⟩] <;>
  rw [h6] <;> simp

end GoSort

namespace GoSort

variable {α : Type} [Inhabited α]

theorem median_func_range (less : α → α → Bool) (d : List α) (a b c s lo hi : Nat)
    (ha : lo ≤ a ∧ a < hi) (hb : lo ≤ b ∧ b < hi) (hc : lo ≤ c ∧ c < hi) :
    lo ≤ (median_func less d a b c s).1 ∧ (median_func less d a b c s).1 < hi := by
  rcases median_func_mem less d a b c s with h | h | h <;> rw [h] <;> assumption

theorem choosePivot_func_bounds (less : α → α → Bool) (d : List α) (a b : Nat) (hab : a < b) :
    a ≤ (choosePivot_func less d a b).1 ∧ (choosePivot_func less d a b).1 < b := by
  have key : ∀ r : Nat × Nat, (a ≤ r.1 ∧ r.1 < b) →
      (a ≤ (if r.2 = 0 then (r.1, sortedHint.increasingHint)
        else if r.2 = 12 then (r.1, sortedHint.decreasingHint)
        else (r.1, sortedHint.unknownHint)).1 ∧
       (if r.2 = 0 then (r.1, sortedHint.increasingHint)
        else if r.2 = 12 then (r.1, sortedHint.decreasingHint)
        else (r.1, sortedHint.unknownHint)).1 < b) := by
    intro r hr
    split
    · exact hr
    · split <;> exact hr
  simp only [choosePivot_func]
  apply key
  split
  · rename_i h8
    split
    · rename_i h50
      simp only [medianAdjacent_func]
      apply median_func_range <;> apply median_func_range <;> omega
    · apply median_func_range <;> omega
  · simp only []
    omega

theorem reverseRange_loop_spec (a b : Nat) :
    ∀ (fuel i j : Nat) (d : List α), b ≤ d.length → a ≤ i → j < b →
      RangePerm a b d (reverseRange_loop fuel i j d) := by
  intro fuel
  induction fuel with
  | zero => intro i j d _ _ _; exact RangePerm.refl _ _ _
  | succ fuel ih =>
    intro i j d hb hi hj
    simp only [reverseRange_loop]
    split
    · have h1 : RangePerm a b d (swap d i j) :=
        RangePerm.of_swap d hb ⟨hi, by omega⟩ ⟨by omega, hj⟩
      exact h1.trans (ih (i + 1) (j - 1) (swap d i j) (by rw [length_swap]; exact hb)
        (by omega) (by omega))
    · exact RangePerm.refl _ _ _

theorem reverseRange_func_spec (d : List α) (a b : Nat) (hb : b ≤ d.length) (hab : a < b) :
    RangePerm a b d (reverseRange_func d a b) :=
  reverseRange_loop_spec a b (b - a) a (b - 1) d hb (le_refl _) (by omega)

theorem bitsLenAux_bounds : ∀ (fuel n : Nat), n ≤ fuel →
    n < 2 ^ bitsLenAux fuel n ∧ (0 < n → 2 ^ bitsLenAux fuel n ≤ 2 * n) := by
  intro fuel
  induction fuel with
  | zero =>
    intro n hn
    have : n = 0 := by omega
    subst this
    simp [bitsLenAux]
  | succ fuel ih =>
    intro n hn
    simp only [bitsLenAux]
    split
    · rename_i h0
      subst h0
      simp
    · rename_i h0
      obtain ⟨h1, h2⟩ := ih (n / 2) (by omega)
      rw [Nat.pow_succ]
      constructor
      · omega
      · intro _
        by_cases h : 0 < n / 2
        · have := h2 h
          omega
        · have hn2 : n / 2 = 0 := by omega
          have hb0 : bitsLenAux fuel (n / 2) = 0 := by
            rw [hn2]
            cases fuel <;> simp [bitsLenAux]
          rw [hb0]
          omega

theorem nextPowerOfTwo_bounds (n : Nat) (hn : 0 < n) :
    n < nextPowerOfTwo n ∧ nextPowerOfTwo n ≤ 2 * n := by
  unfold nextPowerOfTwo bitsLen
  exact ⟨(bitsLenAux_bounds n n (le_refl _)).1, (bitsLenAux_bounds n n (le_refl _)).2 hn⟩

theorem breakPatterns_step_spec (a b : Nat) (idx i : Nat) (s : List α × Nat)
    (hb : b ≤ s.1.length) (hab : a < b) (h1 : a ≤ idx - 1 + i) (h2 : idx - 1 + i < b) :
    RangePerm a b s.1 (breakPatterns_step a (b - a) idx (nextPowerOfTwo (b - a)) i s).1 := by
  simp only [breakPatterns_step]
  obtain ⟨p1, p2⟩ := nextPowerOfTwo_bounds (b - a) (by omega)
  have hlt : Nat.land (xorshiftNext s.2) (nextPowerOfTwo (b - a) - 1) < nextPowerOfTwo (b - a) := by
    have : nextPowerOfTwo (b - a) - 1 < 2 ^ bitsLen (b - a) := by
      unfold nextPowerOfTwo at p1 ⊢
      omega
    exact Nat.and_lt_two_pow _ this
  generalize Nat.land (xorshiftNext s.2) (nextPowerOfTwo (b - a) - 1) = x at hlt
  apply RangePerm.of_swap _ hb ⟨h1, h2⟩
  split <;> omega

theorem breakPatterns_func_spec (d : List α) (a b : Nat) (hb : b ≤ d.length) :
    RangePerm a b d (breakPatterns_func d a b) := by
  simp only [breakPatterns_func]
  split
  · rename_i h8
    have hab : a < b := by omega
    have s0 := breakPatterns_step_spec a b (a + (b - a) / 4 * 2 - 1) 0 (d, b - a) hb hab
      (by omega) (by omega)
    generalize breakPatterns_step a (b - a) (a + (b - a) / 4 * 2 - 1) (nextPowerOfTwo (b - a)) 0
      (d, b - a) = r0 at s0 ⊢
    have s1 := breakPatterns_step_spec a b (a + (b - a) / 4 * 2 - 1) 1 r0
      (by rw [s0.length_eq]; exact hb) hab (by omega) (by omega)
    generalize breakPatterns_step a (b - a) (a + (b - a) / 4 * 2 - 1) (nextPowerOfTwo (b - a)) 1
      r0 = r1 at s1 ⊢
    have s2 := breakPatterns_step_spec a b (a + (b - a) / 4 * 2 - 1) 2 r1
      (by rw [s1.length_eq, s0.length_eq]; exact hb) hab (by omega) (by omega)
    exact s0.trans (s1.trans s2)
  · exact RangePerm.refl _ _ _

end GoSort

namespace GoSort

variable {α : Type} [Inhabited α]

theorem sortedRun_spec {less : α → α → Bool} {key : α → Int}
    (hk : KeyOrder less key) (d : List α) (b : Nat) :
    ∀ (fuel i : Nat), b - i ≤ fuel →
      i ≤ sortedRun less d b fuel i ∧
      (sortedRun less d b fuel i ≤ b ∨ sortedRun less d b fuel i = i) ∧
      (∀ k, i ≤ k → k < sortedRun less d b fuel i →
        key (cell d (k - 1)) ≤ key (cell d k)) := by
  intro fuel
  induction fuel with
  | zero =>
    intro i hf
    simp only [sortedRun]
    exact ⟨le_refl _, Or.inr trivial, fun k h1 h2 => by omega⟩
  | succ fuel ih =>
    intro i hf
    simp only [sortedRun]
    split
    · rename_i hc
      simp only [Bool.and_eq_true, decide_eq_true_eq, Bool.not_eq_true'] at hc
      obtain ⟨h1, h2, h3⟩ := ih (i + 1) (by omega)
      refine ⟨by omega, ?_, ?_⟩
      · rcases h2 with h2 | h2
        · exact Or.inl h2
        · left; omega
      · intro k hk1 hk2
        by_cases hki : k = i
        · rw [hki]
          have h4 : ¬ key (cell d i) < key (cell d (i - 1)) := fun h => by
            have := (hk _ _).2 h
            rw [hc.2] at this
            exact Bool.false_ne_true this
          omega
        · exact h3 k (by omega) hk2
    · exact ⟨le_refl _, Or.inr rfl, fun k h1 h2 => by omega⟩

theorem SortedOn.extend {key : α → Int} {d : List α} {a i r : Nat} (hs : SortedOn key d a i)
    (_hai : a < i) (hadj : ∀ k, i ≤ k → k < r → key (cell d (k - 1)) ≤ key (cell d k)) :
    SortedOn key d a r := by
  have main : ∀ q p, a ≤ p → p ≤ q → q < r → key (cell d p) ≤ key (cell d q) := by
    intro q
    induction q with
    | zero =>
      intro p _ hpq _
      have : p = 0 := by omega
      rw [this]
    | succ q ih =>
      intro p hp hpq hq
      by_cases h1 : q + 1 < i
      · exact hs p (q + 1) hp hpq h1
      · by_cases h2 : p = q + 1
        · rw [h2]
        · have h3 := ih p hp (by omega) (by omega)
          have h4 := hadj (q + 1) (by omega) hq
          simp only [Nat.add_sub_cancel] at h4
          omega
  intro p q hp hpq hq
  exact main q p hp hpq hq

theorem shiftLeft_eq_inner {less : α → α → Bool} {key : α → Int}
    (hk : KeyOrder less key) (a : Nat) :
    ∀ (j : Nat) (d : List α), a ≤ j → j < d.length →
      (0 < a → ∀ k, a ≤ k → k ≤ j → key (cell d (a - 1)) ≤ key (cell d k)) →
      shiftLeft less j d = insertionSort_inner less a j d := by
  intro j
  induction j with
  | zero => intro d _ _ _; rfl
  | succ j ih =>
    intro d haj hj hlb
    simp only [shiftLeft, insertionSort_inner]
    by_cases hl : less (cell d (j + 1)) (cell d j) = true
    · have hlt := (hk _ _).1 hl
      have hja : a < j + 1 := by
        by_contra hn
        have hae : a = j + 1 := by omega
        have := hlb (by omega) (j + 1) (by omega) (le_refl _)
        rw [hae] at this
        simp only [Nat.add_sub_cancel] at this
        omega
      have hcs := cell_swap d (show j + 1 < d.length by omega) (show j < d.length by omega)
      have := ih (swap d (j + 1) j) (by omega) (by rw [length_swap]; omega) (by
        intro ha k hk1 hk2
        rw [hcs (a - 1), hcs k]
        have e1 : ¬ (a - 1 = j) := by omega
        have e2 : ¬ (a - 1 = j + 1) := by omega
        simp only [e1, e2, if_false]
        by_cases e3 : k = j
        · simp only [e3, if_true]
          exact hlb ha (j + 1) (by omega) (le_refl _)
        · have e4 : ¬ (k = j + 1) := by omega
          simp only [e3, e4, if_false]
          exact hlb ha k hk1 (by omega))
      simp [hl, hja, this]
    · simp [hl]

theorem shiftRight_spec (less : α → α → Bool) (lo b : Nat) :
    ∀ (fuel j : Nat) (d : List α), lo < j → b ≤ d.length →
      RangePerm lo b d (shiftRight less b fuel j d) := by
  intro fuel
  induction fuel with
  | zero => intro j d _ _; exact RangePerm.refl _ _ _
  | succ fuel ih =>
    intro j d hj hb
    simp only [shiftRight]
    split
    · split
      · exact RangePerm.refl _ _ _
      · have h1 : RangePerm lo b d (swap d j (j - 1)) :=
          RangePerm.of_swap d hb ⟨by omega, by omega⟩ ⟨by omega, by omega⟩
        exact h1.trans (ih (j + 1) (swap d j (j - 1)) (by omega) (by rw [length_swap]; exact hb))
    · exact RangePerm.refl _ _ _

theorem partialInsertionSort_loop_spec {less : α → α → Bool} {key : α → Int}
    (hk : KeyOrder less key) (a b : Nat) :
    ∀ (steps i : Nat) (d : List α), a < i → i ≤ b → b ≤ d.length →
      SortedOn key d a i → LowerBound key d a b →
      RangePerm a b d (partialInsertionSort_loop less a b steps i d).1 ∧
        ((partialInsertionSort_loop less a b steps i d).2 = true →
          SortedOn key (partialInsertionSort_loop less a b steps i d).1 a b) := by
  intro steps
  induction steps with
  | zero =>
    intro i d _ _ _ _ _
    simp only [partialInsertionSort_loop]
    exact ⟨RangePerm.refl _ _ _, fun h => by simp at h⟩
  | succ steps ih =>
    intro i d hai hib hb hs hlb
    simp only [partialInsertionSort_loop]
    obtain ⟨r1, r2, r3⟩ := sortedRun_spec hk d b (b - i) i (le_refl _)
    generalize sortedRun less d b (b - i) i = i' at r1 r2 r3 ⊢
    have hs' : SortedOn key d a i' := hs.extend hai r3
    have hi'b : i' ≤ b := by omega
    split
    · rename_i he
      refine ⟨RangePerm.refl _ _ _, fun _ => ?_⟩
      rw [← he]; exact hs'
    · rename_i hne
      split
      · exact ⟨RangePerm.refl _ _ _, fun h => by simp at h⟩
      · -- the shifting round
        have hcs := cell_swap d (show i' < d.length by omega) (show i' - 1 < d.length by omega)
        have hrp1 : RangePerm a b d (swap d i' (i' - 1)) :=
          RangePerm.of_swap d hb ⟨by omega, by omega⟩ ⟨by omega, by omega⟩
        generalize hd1 : swap d i' (i' - 1) = d1 at hrp1 ⊢
        have hcs1 : ∀ k, cell d1 k = if k = i' - 1 then cell d i' else if k = i' then cell d (i' - 1)
            else cell d k := by
          intro k; rw [← hd1]; exact hcs k
        have hlb1 : LowerBound key d1 a b := LowerBound.of_rangePerm hrp1 hlb
        have hlen1 : d1.length = d.length := hrp1.length_eq
        -- shift the smaller one to the left
        have hleft : RangePerm a b d1 (if i' - a ≥ 2 then shiftLeft less (i' - 1) d1 else d1) ∧
            SortedOn key (if i' - a ≥ 2 then shiftLeft less (i' - 1) d1 else d1) a i' := by
          split
          · rename_i h2
            rw [shiftLeft_eq_inner hk a (i' - 1) d1 (by omega) (by omega)
              (fun ha k hk1 hk2 => hlb1 ha k hk1 (by omega))]
            have := insertionSort_inner_spec hk a (i' - 1) (i' - 1) d1 (by omega) (le_refl _)
              (by omega)
              (fun p q hp hpq hq hpj hqj => by
                rw [hcs1 p, hcs1 q]
                have e1 : ¬ (p = i') := by omega
                have e2 : ¬ (q = i') := by omega
                simp only [hpj, hqj, e1, e2, if_false]
                exact hs' p q hp hpq (by omega))
              (fun q h1 h2 => by omega)
            have e : i' - 1 + 1 = i' := by omega
            rw [e] at this
            exact ⟨this.1.mono (le_refl _) hi'b, this.2⟩
          · rename_i h2
            refine ⟨RangePerm.refl _ _ _, ?_⟩
            intro p q hp hpq hq
            have : p = q := by omega
            rw [this]
        generalize (if i' - a ≥ 2 then shiftLeft less (i' - 1) d1 else d1) = d2 at hleft ⊢
        obtain ⟨hrp2, hs2⟩ := hleft
        have hlen2 : d2.length = d.length := by rw [hrp2.length_eq, hlen1]
        have hright : RangePerm i' b d2
            (if b - i' ≥ 2 then shiftRight less b (b - (i' + 1)) (i' + 1) d2 else d2) := by
          split
          · exact shiftRight_spec less i' b _ _ d2 (by omega) (by omega)
          · exact RangePerm.refl _ _ _
        generalize (if b - i' ≥ 2 then shiftRight less b (b - (i' + 1)) (i' + 1) d2 else d2) = d3
          at hright ⊢
        have hrp3 : RangePerm a b d d3 :=
          hrp1.trans (hrp2.trans (hright.mono (by omega) (le_refl _)))
        have hs3 : SortedOn key d3 a i' := by
          intro p q hp hpq hq
          rw [hright.frame p (by omega), hright.frame q (by omega)]
          exact hs2 p q hp hpq hq
        have := ih i' d3 (by omega) hi'b (by rw [hrp3.length_eq]; exact hb) hs3
          (LowerBound.of_rangePerm hrp3 hlb)
        exact ⟨hrp3.trans this.1, this.2⟩

theorem partialInsertionSort_func_spec {less : α → α → Bool} {key : α → Int}
    (hk : KeyOrder less key) (d : List α) (a b : Nat) (hab : a < b) (hb : b ≤ d.length)
    (hlb : LowerBound key d a b) :
    RangePerm a b d (partialInsertionSort_func less d a b).1 ∧
      ((partialInsertionSort_func less d a b).2 = true →
        SortedOn key (partialInsertionSort_func less d a b).1 a b) := by
  unfold partialInsertionSort_func
  exact partialInsertionSort_loop_spec hk a b 5 (a + 1) d (by omega) (by omega) hb
    (fun p q hp hpq hq => by
      have : p = q := by omega
      rw [this]) hlb

end GoSort

namespace GoSort

variable {α : Type} [Inhabited α]

theorem siftDown_func_spec {less : α → α → Bool} {key : α → Int}
    (hk : KeyOrder less key) (hi first lo : Nat) :
    ∀ (fuel root : Nat) (d : List α), hi - root ≤ fuel → lo ≤ root → first + hi ≤ d.length →
      (∀ c, c < hi → 0 < c → lo ≤ (c - 1) / 2 → (c - 1) / 2 ≠ root →
        key (cell d (first + c)) ≤ key (cell d (first + (c - 1) / 2))) →
      (0 < root → lo ≤ (root - 1) / 2 → ∀ c, c < hi → 0 < c → (c - 1) / 2 = root →
        key (cell d (first + c)) ≤ key (cell d (first + (root - 1) / 2))) →
      RangePerm (first + root) (first + hi) d (siftDown_func less hi first fuel root d) ∧
        HeapOn key (siftDown_func less hi first fuel root d) first lo hi := by
  intro fuel
  induction fuel with
  | zero =>
    intro root d hf hlo hlen P1 P2
    simp only [siftDown_func]
    refine ⟨RangePerm.refl _ _ _, ?_⟩
    intro c hc h0 hp
    exact P1 c hc h0 hp (by omega)
  | succ fuel ih =>
    intro root d hf hlo hlen P1 P2
    simp only [siftDown_func]
    split
    · rename_i hch
      refine ⟨RangePerm.refl _ _ _, ?_⟩
      intro c hc h0 hp
      exact P1 c hc h0 hp (by omega)
    · rename_i hch
      -- the larger child
      have hsel : ∃ ch, (if 2 * root + 1 + 1 < hi &&
            less (cell d (first + (2 * root + 1))) (cell d (first + (2 * root + 1) + 1))
          then 2 * root + 1 + 1 else 2 * root + 1) = ch ∧
          (ch = 2 * root + 1 ∨ ch = 2 * root + 2) ∧ ch < hi ∧
          (∀ c, c < hi → 0 < c → (c - 1) / 2 = root →
            key (cell d (first + c)) ≤ key (cell d (first + ch))) := by
        split
        · rename_i hc2
          simp only [Bool.and_eq_true, decide_eq_true_eq] at hc2
          have hlt := (hk _ _).1 hc2.2
          refine ⟨_, rfl, Or.inr rfl, hc2.1, ?_⟩
          intro c hc h0 hpc
          have : c = 2 * root + 1 ∨ c = 2 * root + 1 + 1 := by omega
          rcases this with e | e
          · rw [e]
            have e2 : first + (2 * root + 1) + 1 = first + (2 * root + 1 + 1) := by omega
            rw [e2] at hlt
            omega
          · rw [e]
        · rename_i hc2
          simp only [Bool.and_eq_true, decide_eq_true_eq, not_and, Bool.not_eq_true] at hc2
          refine ⟨_, rfl, Or.inl rfl, by omega, ?_⟩
          intro c hc h0 hpc
          have : c = 2 * root + 1 ∨ c = 2 * root + 1 + 1 := by omega
          rcases this with e | e
          · rw [e]
          · rw [e]
            have hf2 := hc2 (by omega)
            have h4 : ¬ key (cell d (first + (2 * root + 1))) <
                key (cell d (first + (2 * root + 1) + 1)) := fun h => by
              have := (hk _ _).2 h
              rw [hf2] at this
              exact Bool.false_ne_true this
            have e2 : first + (2 * root + 1) + 1 = first + (2 * root + 1 + 1) := by omega
            rw [e2] at h4
            omega
      obtain ⟨ch, hche, hch2, hchhi, hchmax⟩ := hsel
      simp only [] at hche ⊢
      rw [hche]
      split
      · rename_i hnl
        simp only [Bool.not_eq_true', ← Bool.not_eq_true] at hnl
        have h4 : ¬ key (cell d (first + root)) < key (cell d (first + ch)) :=
          fun h => hnl ((hk _ _).2 h)
        refine ⟨RangePerm.refl _ _ _, ?_⟩
        intro c hc h0 hp
        by_cases hpr : (c - 1) / 2 = root
        · have := hchmax c hc h0 hpr
          rw [hpr]; omega
        · exact P1 c hc h0 hp hpr
      · rename_i hl
        simp only [Bool.not_eq_true', Bool.not_eq_false] at hl
        have hlt := (hk _ _).1 hl
        have hcs := cell_swap d (show first + root < d.length by omega)
          (show first + ch < d.length by omega)
        have hrp : RangePerm (first + root) (first + hi) d (swap d (first + root) (first + ch)) :=
          RangePerm.of_swap d hlen ⟨by omega, by omega⟩ ⟨by omega, by omega⟩
        generalize hd1 : swap d (first + root) (first + ch) = d1 at hrp
        have hroot : cell d1 (first + root) = cell d (first + ch) := by
          rw [← hd1, hcs]
          have e : ¬ (first + root = first + ch) := by omega
          simp [e]
        have hchv : cell d1 (first + ch) = cell d (first + root) := by
          rw [← hd1, hcs]; simp
        have hoth : ∀ k, k ≠ root → k ≠ ch → cell d1 (first + k) = cell d (first + k) := by
          intro k k1 k2
          rw [← hd1, hcs]
          have e1 : ¬ (first + k = first + ch) := by omega
          have e2 : ¬ (first + k = first + root) := by omega
          simp [e1, e2]
        have := ih ch d1 (by omega) (by omega)
          (by rw [hrp.length_eq]; exact hlen) ?_ ?_
        · exact ⟨hrp.trans (this.1.mono (by omega) (le_refl _)), this.2⟩
        · intro c hc h0 hp hpne
          by_cases hpr : (c - 1) / 2 = root
          · rw [hpr, hroot]
            by_cases hcc : c = ch
            · rw [hcc, hchv]; omega
            · rw [hoth c (by omega) hcc]
              exact hchmax c hc h0 hpr
          · rw [hoth ((c - 1) / 2) hpr hpne]
            by_cases hcc : c = ch
            · omega
            · by_cases hcr : c = root
              · rw [hcr, hroot]
                have := P2 (by omega) (by omega) ch hchhi (by omega) (by omega)
                rw [hcr] at hp
                exact this
              · rw [hoth c hcr hcc]
                exact P1 c hc h0 hp hpr
        · intro h0 hlo2 c hc hc0 hpc
          have e4 : (ch - 1) / 2 = root := by omega
          rw [e4, hroot, hoth c (by omega) (by omega)]
          have := P1 c hc hc0 (by omega) (by omega)
          rw [hpc] at this
          exact this

theorem heapSort_build_spec {less : α → α → Bool} {key : α → Int}
    (hk : KeyOrder less key) (hi first : Nat) :
    ∀ (n : Nat) (d : List α), first + hi ≤ d.length → HeapOn key d first n hi →
      RangePerm first (first + hi) d (heapSort_build less hi first n d) ∧
        HeapOn key (heapSort_build less hi first n d) first 0 hi := by
  intro n
  induction n with
  | zero =>
    intro d _ h
    exact ⟨RangePerm.refl _ _ _, h⟩
  | succ i ih =>
    intro d hlen h
    simp only [heapSort_build]
    have h1 := siftDown_func_spec hk hi first i hi i d (by omega) (le_refl _) hlen
      (fun c hc h0 hp hne => h c hc h0 (by omega)) (fun h0 hlo => by omega)
    have h2 := ih (siftDown_func less hi first hi i d) (by rw [h1.1.length_eq]; exact hlen) h1.2
    exact ⟨(h1.1.mono (by omega) (le_refl _)).trans h2.1, h2.2⟩

theorem HeapOn.root_max {key : α → Int} {d : List α} {first n : Nat}
    (h : HeapOn key d first 0 n) :
    ∀ k, k < n → key (cell d (first + k)) ≤ key (cell d (first + 0)) := by
  intro k
  induction k using Nat.strong_induction_on with
  | _ k ih =>
    intro hkn
    by_cases h0 : k = 0
    · rw [h0]
    · have h1 := h k hkn (by omega) (Nat.zero_le _)
      have h2 := ih ((k - 1) / 2) (by omega) (by omega)
      omega

theorem heapSort_pop_spec {less : α → α → Bool} {key : α → Int}
    (hk : KeyOrder less key) (first hi : Nat) :
    ∀ (n : Nat) (d : List α), n ≤ hi → first + hi ≤ d.length → HeapOn key d first 0 n →
      SortedOn key d (first + n) (first + hi) →
      (∀ k m, k < n → n ≤ m → m < hi → key (cell d (first + k)) ≤ key (cell d (first + m))) →
      RangePerm first (first + hi) d (heapSort_pop less first n d) ∧
        SortedOn key (heapSort_pop less first n d) first (first + hi) := by
  intro n
  induction n with
  | zero =>
    intro d _ _ _ hs _
    exact ⟨RangePerm.refl _ _ _, hs⟩
  | succ i ih =>
    intro d hn hlen hheap hs hbd
    simp only [heapSort_pop]
    have hmax := hheap.root_max
    simp only [Nat.add_zero] at hmax
    have hcs := cell_swap d (show first < d.length by omega) (show first + i < d.length by omega)
    have hrp1 : RangePerm first (first + hi) d (swap d first (first + i)) :=
      RangePerm.of_swap d hlen ⟨le_refl _, by omega⟩ ⟨by omega, by omega⟩
    generalize hd1 : swap d first (first + i) = d1 at hrp1 ⊢
    have hcs1 : ∀ k, cell d1 k = if k = first + i then cell d first else if k = first
        then cell d (first + i) else cell d k := by
      intro k; rw [← hd1]; exact hcs k
    have hlen1 : d1.length = d.length := hrp1.length_eq
    have h1 := siftDown_func_spec hk i first 0 i 0 d1 (by omega) (le_refl _) (by omega)
      (fun c hc h0 hp hne => by
        rw [hcs1 (first + c), hcs1 (first + (c - 1) / 2)]
        have e1 : ¬ (first + c = first + i) := by omega
        have e2 : ¬ (first + c = first) := by omega
        have e3 : ¬ (first + (c - 1) / 2 = first + i) := by omega
        have e4 : ¬ (first + (c - 1) / 2 = first) := by omega
        simp only [e1, e2, e3, e4, if_false]
        exact hheap c (by omega) h0 hp)
      (fun h0 => by omega)
    simp only [Nat.add_zero] at h1
    generalize siftDown_func less i first i 0 d1 = d2 at h1 ⊢
    obtain ⟨hrp2, hheap2⟩ := h1
    have hlen2 : d2.length = d.length := by rw [hrp2.length_eq, hlen1]
    have hfr : ∀ k, first + i ≤ k → cell d2 k = cell d1 k := fun k hk' =>
      hrp2.frame k (by omega)
    have hlow : ∀ k, k < i → key (cell d2 (first + k)) ≤ key (cell d first) := by
      intro k hk'
      obtain ⟨k', hk1, e⟩ := hrp2.range_fwd (first + k) ⟨by omega, by omega⟩
      rw [e, hcs1 k']
      have e1 : ¬ (k' = first + i) := by omega
      simp only [e1, if_false]
      split
      · have := hmax i (by omega)
        exact this
      · have := hmax (k' - first) (by omega)
        have e2 : first + (k' - first) = k' := by omega
        rw [e2] at this
        exact this
    have := ih d2 (by omega) (by omega) hheap2 ?_ ?_
    · exact ⟨hrp1.trans ((hrp2.mono (le_refl _) (by omega)).trans this.1), this.2⟩
    · intro p q hp hpq hq
      rw [hfr p hp, hfr q (by omega), hcs1 p, hcs1 q]
      by_cases e1 : p = first + i
      · by_cases e2 : q = first + i
        · simp [e1, e2]
        · have e3 : ¬ (q = first) := by omega
          simp only [e1, e2, e3, if_true, if_false]
          have := hbd 0 (q - first) (by omega) (by omega) (by omega)
          have e4 : first + (q - first) = q := by omega
          rw [e4] at this
          simpa using this
      · have e2 : ¬ (q = first + i) := by omega
        have e3 : ¬ (p = first) := by omega
        have e4 : ¬ (q = first) := by omega
        simp only [e1, e2, e3, e4, if_false]
        exact hs p q (by omega) hpq hq
    · intro k m hk' hm1 hm2
      rw [hfr (first + m) (by omega), hcs1 (first + m)]
      have hl := hlow k hk'
      by_cases e1 : m = i
      · have e2 : first + m = first + i := by omega
        simp only [e2, if_true]
        exact hl
      · have e2 : ¬ (first + m = first + i) := by omega
        have e3 : ¬ (first + m = first) := by omega
        simp only [e2, e3, if_false]
        have := hbd 0 m (by omega) (by omega) hm2
        simp only [Nat.add_zero] at this
        omega

theorem heapSort_func_spec {less : α → α → Bool} {key : α → Int}
    (hk : KeyOrder less key) (d : List α) (a b : Nat) (hab : a ≤ b) (hb : b ≤ d.length) :
    RangePerm a b d (heapSort_func less d a b) ∧
      SortedOn key (heapSort_func less d a b) a b := by
  simp only [heapSort_func]
  have e : a + (b - a) = b := by omega
  have h1 := heapSort_build_spec hk (b - a) a ((b - a - 1) / 2 + 1) d (by omega)
    (fun c hc h0 hp => by omega)
  generalize heapSort_build less (b - a) a ((b - a - 1) / 2 + 1) d = d1 at h1 ⊢
  have h2 := heapSort_pop_spec hk a (b - a) (b - a) d1 (le_refl _)
    (by rw [h1.1.length_eq]; omega) h1.2 (fun p q hp hpq hq => by omega)
    (fun k m hk' hm1 hm2 => by omega)
  rw [e] at h1 h2
  exact ⟨h1.1.trans h2.1, h2.2⟩

end GoSort

namespace GoSort

variable {α : Type} [Inhabited α]

theorem PartitionedAt.left {key : α → Int} {d d' : List α} {a mid b : Nat}
    (h : PartitionedAt key d a mid b) (hrp : RangePerm a mid d d') :
    PartitionedAt key d' a mid b := by
  constructor
  · rw [hrp.frame mid (by omega)]
    exact hrp.forall_range (le_refl _) (le_refl _) (fun x => key x ≤ key (cell d mid)) h.1
  · intro k h1 h2
    rw [hrp.frame mid (by omega), hrp.frame k (by omega)]
    exact h.2 k h1 h2

theorem PartitionedAt.right {key : α → Int} {d d' : List α} {a mid b : Nat}
    (h : PartitionedAt key d a mid b) (hrp : RangePerm (mid + 1) b d d') :
    PartitionedAt key d' a mid b := by
  constructor
  · intro k h1 h2
    rw [hrp.frame mid (by omega), hrp.frame k (by omega)]
    exact h.1 k h1 h2
  · rw [hrp.frame mid (by omega)]
    intro k h1 h2
    exact hrp.forall_range (le_refl _) (le_refl _) (fun x => key (cell d mid) ≤ key x)
      (fun k h3 h4 => h.2 k (by omega) h4) k (by omega) h2

theorem PartitionedAt.sorted {key : α → Int} {d : List α} {a mid b : Nat}
    (h : PartitionedAt key d a mid b) (hl : SortedOn key d a mid)
    (hr : SortedOn key d (mid + 1) b) : SortedOn key d a b := by
  intro p q hp hpq hq
  by_cases h1 : q < mid
  · exact hl p q hp hpq h1
  · by_cases h2 : mid < p
    · exact hr p q (by omega) hpq hq
    · have hpm : key (cell d p) ≤ key (cell d mid) := by
        by_cases e : p = mid
        · rw [e]
        · exact h.1 p hp (by omega)
      have hmq : key (cell d mid) ≤ key (cell d q) := by
        by_cases e : q = mid
        · rw [e]
        · exact h.2 q (by omega) hq
      omega

theorem SortedOn.of_frame {key : α → Int} {d d' : List α} {a b : Nat}
    (hs : SortedOn key d a b) (hf : ∀ k, a ≤ k → k < b → cell d' k = cell d k) :
    SortedOn key d' a b := by
  intro p q hp hpq hq
  rw [hf p hp (by omega), hf q (by omega) hq]
  exact hs p q hp hpq hq

theorem pdqsort_loop_spec {less : α → α → Bool} {key : α → Int} (hk : KeyOrder less key) :
    ∀ (fuel : Nat) (d : List α) (a b limit : Nat) (wasBalanced wasPartitioned : Bool),
      b - a < fuel → b ≤ d.length → LowerBound key d a b →
      RangePerm a b d (pdqsort_loop less fuel d a b limit wasBalanced wasPartitioned) ∧
        SortedOn key (pdqsort_loop less fuel d a b limit wasBalanced wasPartitioned) a b := by
  intro fuel
  induction fuel with
  | zero => intro d a b limit wb wp hf; omega
  | succ fuel ih =>
    intro d a b limit wb wp hf hb hlb
    generalize hres : pdqsort_loop less (fuel + 1) d a b limit wb wp = res
    rw [pdqsort_loop] at hres
    by_cases h12 : b - a ≤ 12
    · rw [if_pos h12] at hres
      subst hres
      exact insertionSort_func_spec hk d a b hb
    rw [if_neg h12] at hres
    by_cases hl0 : limit = 0
    · rw [if_pos hl0] at hres
      subst hres
      exact heapSort_func_spec hk d a b (by omega) hb
    rw [if_neg hl0] at hres
    dsimp only at hres
    have hab : a < b := by omega
    -- breakPatterns
    have hd1 : RangePerm a b d (if (!wb) = true then breakPatterns_func d a b else d) := by
      split
      · exact breakPatterns_func_spec d a b hb
      · exact RangePerm.refl _ _ _
    generalize (if (!wb) = true then breakPatterns_func d a b else d) = d1 at hd1 hres
    generalize (if (!wb) = true then limit - 1 else limit) = limit1 at hres
    have hb1 : b ≤ d1.length := by rw [hd1.length_eq]; exact hb
    -- choosePivot
    have hph := choosePivot_func_bounds less d1 a b hab
    generalize choosePivot_func less d1 a b = ph at hph hres
    have hd2 : RangePerm a b d1 (if decide (ph.2 = sortedHint.decreasingHint) = true
        then reverseRange_func d1 a b else d1) := by
      split
      · exact reverseRange_func_spec d1 a b hb1 hab
      · exact RangePerm.refl _ _ _
    generalize (if decide (ph.2 = sortedHint.decreasingHint) = true
        then reverseRange_func d1 a b else d1) = d2 at hd2 hres
    have hpv : a ≤ (if decide (ph.2 = sortedHint.decreasingHint) = true
        then b - 1 - (ph.1 - a) else ph.1) ∧
        (if decide (ph.2 = sortedHint.decreasingHint) = true
        then b - 1 - (ph.1 - a) else ph.1) < b := by
      split <;> omega
    generalize (if decide (ph.2 = sortedHint.decreasingHint) = true
        then b - 1 - (ph.1 - a) else ph.1) = pivot at hpv hres
    generalize (if decide (ph.2 = sortedHint.decreasingHint) = true
        then sortedHint.increasingHint else ph.2) = hint at hres
    have hb2 : b ≤ d2.length := by rw [hd2.length_eq]; exact hb1
    have hlb2 : LowerBound key d2 a b := LowerBound.of_rangePerm (hd1.trans hd2) hlb
    -- partialInsertionSort
    have hpis : RangePerm a b d2
        (if (wb && wp && decide (hint = sortedHint.increasingHint)) = true then
          partialInsertionSort_func less d2 a b else (d2, false)).1 ∧
        ((if (wb && wp && decide (hint = sortedHint.increasingHint)) = true then
          partialInsertionSort_func less d2 a b else (d2, false)).2 = true →
          SortedOn key (if (wb && wp && decide (hint = sortedHint.increasingHint)) = true then
            partialInsertionSort_func less d2 a b else (d2, false)).1 a b) := by
      split
      · exact partialInsertionSort_func_spec hk d2 a b hab hb2 hlb2
      · exact ⟨RangePerm.refl _ _ _, fun h => by simp at h⟩
    generalize (if (wb && wp && decide (hint = sortedHint.increasingHint)) = true then
          partialInsertionSort_func less d2 a b else (d2, false)) = pis at hpis hres
    obtain ⟨hd3, hdone⟩ := hpis
    have h03 : RangePerm a b d pis.1 := hd1.trans (hd2.trans hd3)
    have hb3 : b ≤ pis.1.length := by rw [h03.length_eq]; exact hb
    have hlb3 : LowerBound key pis.1 a b := LowerBound.of_rangePerm h03 hlb
    by_cases hfin : pis.2 = true
    · rw [if_pos hfin] at hres
      subst hres
      exact ⟨h03, hdone hfin⟩
    rw [if_neg hfin] at hres
    by_cases heq : (decide (a > 0) && !less (cell pis.1 (a - 1)) (cell pis.1 pivot)) = true
    · -- many duplicates: partitionEqual
      rw [if_pos heq] at hres
      simp only [Bool.and_eq_true, decide_eq_true_eq, Bool.not_eq_true'] at heq
      obtain ⟨ha0, hnl⟩ := heq
      have hpk : key (cell pis.1 pivot) ≤ key (cell pis.1 (a - 1)) := by
        have h4 : ¬ key (cell pis.1 (a - 1)) < key (cell pis.1 pivot) := fun h => by
          have := (hk _ _).2 h
          rw [hnl] at this
          exact Bool.false_ne_true this
        omega
      obtain ⟨e1, e2, e3, e4, e5⟩ := partitionEqual_func_spec hk pis.1 a b pivot hb3 hpv.1 hpv.2
      generalize partitionEqual_func less pis.1 a b pivot = pe at e1 e2 e3 e4 e5 hres
      have hbe : b ≤ pe.1.length := by rw [e1.length_eq]; exact hb3
      have hge : ∀ k, a ≤ k → k < b → key (cell pis.1 pivot) ≤ key (cell pe.1 k) :=
        e1.forall_range (le_refl _) (le_refl _) (fun x => key (cell pis.1 pivot) ≤ key x)
          (fun k h1 h2 => by
            have := hlb3 ha0 k h1 h2
            omega)
      have hlbe : LowerBound key pe.1 pe.2 b := by
        intro _ k h1 h2
        have := e4 (pe.2 - 1) (by omega) (by omega)
        have := e5 k h1 h2
        omega
      obtain ⟨r1, r2⟩ := ih pe.1 pe.2 b limit1 wb wp (by omega) hbe hlbe
      rw [hres] at r1 r2
      refine ⟨h03.trans (e1.trans (r1.mono (by omega) (le_refl _))), ?_⟩
      intro p q hp hpq hq
      by_cases hqm : q < pe.2
      · rw [r1.frame p (by omega), r1.frame q (by omega)]
        have := e4 p hp (by omega)
        have := hge q (by omega) hq
        have := e4 q (by omega) hqm
        have := hge p hp (by omega)
        omega
      · by_cases hpm : pe.2 ≤ p
        · exact r2 p q hpm hpq hq
        · rw [r1.frame p (by omega)]
          have h1 := e4 p hp (by omega)
          have h2 := r1.forall_range (le_refl _) (le_refl _)
            (fun x => key (cell pis.1 pivot) < key x) e5 q (by omega) hq
          simp only at h2
          omega
    · -- partition
      rw [if_neg heq] at hres
      obtain ⟨e1, e2, e3, e4, e5⟩ := partition_func_spec hk pis.1 a b pivot hb3 hpv.1 hpv.2
      generalize partition_func less pis.1 a b pivot = pt at e1 e2 e3 e4 e5 hres
      have hbt : b ≤ pt.1.length := by rw [e1.length_eq]; exact hb3
      have h0t : RangePerm a b d pt.1 := h03.trans e1
      have hlbt : LowerBound key pt.1 a b := LowerBound.of_rangePerm h0t hlb
      have hpart : PartitionedAt key pt.1 a pt.2.1 b :=
        ⟨fun k h1 h2 => le_of_lt (e4 k h1 h2), e5⟩
      have hlbL : ∀ d', RangePerm (pt.2.1 + 1) b pt.1 d' → LowerBound key d' a pt.2.1 := by
        intro d' hr ha0 k h1 h2
        rw [hr.frame (a - 1) (by omega), hr.frame k (by omega)]
        exact hlbt ha0 k h1 (by omega)
      have hlbR : ∀ d', PartitionedAt key d' a pt.2.1 b → LowerBound key d' (pt.2.1 + 1) b := by
        intro d' hp' _ k h1 h2
        simp only [Nat.add_sub_cancel]
        exact hp'.2 k (by omega) h2
      by_cases hlr : pt.2.1 - a < b - pt.2.1
      · rw [if_pos hlr] at hres
        obtain ⟨l1, l2⟩ := ih pt.1 a pt.2.1 limit1 true true (by omega) (by omega)
          (hlbL pt.1 (RangePerm.refl _ _ _))
        generalize pdqsort_loop less fuel pt.1 a pt.2.1 limit1 true true = dl at l1 l2 hres
        have hpl : PartitionedAt key dl a pt.2.1 b := hpart.left l1
        obtain ⟨r1, r2⟩ := ih dl (pt.2.1 + 1) b limit1
          (decide (pt.2.1 - a ≥ (b - a) / 8)) pt.2.2 (by omega)
          (by rw [l1.length_eq]; exact hbt) (hlbR dl hpl)
        rw [hres] at r1 r2
        refine ⟨h0t.trans ((l1.mono (le_refl _) (by omega)).trans (r1.mono (by omega) (le_refl _))),
          ?_⟩
        exact (hpl.right r1).sorted (l2.of_frame (fun k h1 h2 => r1.frame k (by omega))) r2
      · rw [if_neg hlr] at hres
        obtain ⟨r1, r2⟩ := ih pt.1 (pt.2.1 + 1) b limit1 true true (by omega) hbt
          (hlbR pt.1 hpart)
        generalize pdqsort_loop less fuel pt.1 (pt.2.1 + 1) b limit1 true true = dr at r1 r2 hres
        have hpr : PartitionedAt key dr a pt.2.1 b := hpart.right r1
        obtain ⟨l1, l2⟩ := ih dr a pt.2.1 limit1
          (decide (b - pt.2.1 ≥ (b - a) / 8)) pt.2.2 (by omega)
          (by rw [r1.length_eq]; omega) (hlbL dr r1)
        rw [hres] at l1 l2
        refine ⟨h0t.trans ((r1.mono (by omega) (le_refl _)).trans (l1.mono (le_refl _) (by omega))),
          ?_⟩
        exact (hpr.left l1).sorted l2 (r2.of_frame (fun k h1 h2 => l1.frame k (by omega)))

theorem pdqsort_func_spec {less : α → α → Bool} {key : α → Int} (hk : KeyOrder less key)
    (d : List α) (a b limit : Nat) (hb : b ≤ d.length) (hlb : LowerBound key d a b) :
    RangePerm a b d (pdqsort_func less d a b limit) ∧
      SortedOn key (pdqsort_func less d a b limit) a b :=
  pdqsort_loop_spec hk (b - a + 1) d a b limit true true (by omega) hb hlb

theorem Slice_spec {less : α → α → Bool} {key : α → Int} (hk : KeyOrder less key)
    (x : List α) :
    RangePerm 0 x.length x (Slice less x) ∧ SortedOn key (Slice less x) 0 x.length :=
  pdqsort_func_spec hk x 0 x.length (bitsLen x.length) (le_refl _) (fun h => by omega)

end GoSort

/-! ## The expectation registry -/

namespace Expectations

theorem byPriority_keyOrder :
    GoSort.KeyOrder byPriority (fun r : Ref => - r.2.Priority) := by
  intro x y
  simp only [byPriority, decide_eq_true_eq]
  omega

theorem cell_eq_of_getElem? {α : Type} [Inhabited α] {d : List α} {k : Nat} {x : α}
    (h : d[k]? = some x) : GoSort.cell d k = x := by
  simp [GoSort.cell, h]

theorem getElem?_eq_cell {α : Type} [Inhabited α] {d : List α} {k : Nat}
    (h : k < d.length) : d[k]? = some (GoSort.cell d k) := by
  simp [GoSort.cell, List.getElem?_eq_getElem h]

/-- The first cell of the sorted matches is one of the matches and no match has a
higher priority. -/
theorem Slice_head_spec (m : Ref) (ms : List Ref) :
    GoSort.cell (GoSort.Slice byPriority (m :: ms)) 0 ∈ m :: ms ∧
      ∀ r ∈ m :: ms, r.2.Priority ≤ (GoSort.cell (GoSort.Slice byPriority (m :: ms)) 0).2.Priority := by
  obtain ⟨hrp, hs⟩ := GoSort.Slice_spec byPriority_keyOrder (m :: ms)
  generalize GoSort.Slice byPriority (m :: ms) = sorted at hrp hs
  have hn : 0 < (m :: ms).length := by simp
  constructor
  · obtain ⟨k', hk', e⟩ := hrp.range_fwd 0 ⟨le_refl _, hn⟩
    rw [e]
    have := getElem?_eq_cell hk'.2
    exact List.getElem?_mem this
  · intro r hr
    obtain ⟨k', hk', e⟩ := List.getElem_of_mem hr
    have hc : GoSort.cell (m :: ms) k' = r := cell_eq_of_getElem? (by
      rw [List.getElem?_eq_getElem hk', e])
    obtain ⟨k, hk2, e2⟩ := hrp.range_bwd k' ⟨Nat.zero_le _, hk'⟩
    have := hs 0 k (le_refl _) (Nat.zero_le _) hk2.2
    rw [e2, hc] at this
    simp only at this
    omega

theorem Use_Response (e : Expectation) : e.Use.Response = e.Response := by
  unfold Expectation.Use
  split
  · rfl
  · split <;> rfl

theorem Use_ID (e : Expectation) : e.Use.ID = e.ID := by
  unfold Expectation.Use
  split
  · rfl
  · split <;> rfl

theorem Use_Request (e : Expectation) : e.Use.Request = e.Request := by
  unfold Expectation.Use
  split
  · rfl
  · split <;> rfl

theorem Use_Priority (e : Expectation) : e.Use.Priority = e.Priority := by
  unfold Expectation.Use
  split
  · rfl
  · split <;> rfl

theorem Use_CreatedAt (e : Expectation) : e.Use.CreatedAt = e.CreatedAt := by
  unfold Expectation.Use
  split
  · rfl
  · split <;> rfl

theorem Use_TimeToLive (e : Expectation) : e.Use.TimeToLive = e.TimeToLive := by
  unfold Expectation.Use
  split
  · rfl
  · split <;> rfl

theorem Use_Times (e : Expectation) :
    e.Use.Times =
      match e.Times with
      | none => none
      | some t =>
        if t.Unlimited = true then some t
        else some { RemainingTimes := (t.RemainingTimes + 2 ^ 32 - 1) % 2 ^ 32,
                    Unlimited := t.Unlimited } := by
  unfold Expectation.Use
  cases h : e.Times with
  | none => simp [h]
  | some t =>
    cases hu : t.Unlimited <;> simp [h, hu]

theorem Copy_eq (e : Expectation) : e.Copy = e := by
  cases e with
  | mk ID Request Response Times TimeToLive Priority CreatedAt =>
    cases Times <;> cases TimeToLive <;> rfl

theorem Use_wellFormed (e : Expectation) (h : e.wellFormed = true) : e.Use.wellFormed = true := by
  unfold Expectation.wellFormed at h ⊢
  rw [Use_Request, Use_Times]
  simp only [Bool.and_eq_true] at h ⊢
  refine ⟨h.1, ?_⟩
  cases ht : e.Times with
  | none => simp
  | some t =>
    rw [ht] at h
    cases hu : t.Unlimited
    · simp only [hu, Bool.false_eq_true, if_false, decide_eq_true_eq]
      omega
    · simpa [hu] using h.2

theorem Matches_of_wellFormed (e : Expectation) (cnd : Candidate) (now : Int)
    (h : e.wellFormed = true) : ∃ b, e.Matches cnd now = some b := by
  unfold Expectation.wellFormed at h
  simp only [Bool.and_eq_true] at h
  obtain ⟨c, hc⟩ := Option.isSome_iff_exists.1 h.1
  unfold Expectation.Matches Request.Matches
  rw [hc]
  split
  · split
    · split <;> exact ⟨_, rfl⟩
    · exact ⟨_, rfl⟩
  · exact ⟨_, rfl⟩

theorem collectMatches_spec (cnd : Candidate) (now : Int) :
    ∀ (exps : List Expectation) (i : Nat), (∀ e ∈ exps, e.wellFormed = true) →
      ∃ ms, collectMatches cnd now i exps = some ms ∧
        (∀ r ∈ ms, ∃ j, r.1 = i + j ∧ exps[j]? = some r.2 ∧ r.2.Matches cnd now = some true) ∧
        (∀ j e, exps[j]? = some e → e.Matches cnd now = some true → (i + j, e) ∈ ms) := by
  intro exps
  induction exps with
  | nil =>
    intro i _
    exact ⟨[], rfl, fun r hr => by simp at hr, fun j e h => by simp at h⟩
  | cons x rest ih =>
    intro i hwf
    obtain ⟨b, hb⟩ := Matches_of_wellFormed x cnd now (hwf x (List.mem_cons_self _ _))
    obtain ⟨ms, h1, h2, h3⟩ := ih (i + 1) (fun e he => hwf e (List.mem_cons_of_mem _ he))
    simp only [collectMatches, hb, h1]
    refine ⟨_, rfl, ?_, ?_⟩
    · intro r hr
      have hcase : (b = true ∧ r = (i, x)) ∨ r ∈ ms := by
        cases b
        · right; simpa using hr
        · simp only [if_true, List.mem_cons] at hr
          rcases hr with hr | hr
          · exact Or.inl ⟨rfl, hr⟩
          · exact Or.inr hr
      rcases hcase with ⟨hbt, hr⟩ | hr
      · subst hr
        exact ⟨0, rfl, by simp, by rw [hb, hbt]⟩
      · obtain ⟨j, e1, e2, e3⟩ := h2 r hr
        exact ⟨j + 1, by omega, by simpa using e2, e3⟩
    · intro j e hj hm
      cases j with
      | zero =>
        simp only [List.getElem?_cons_zero, Option.some.injEq] at hj
        subst hj
        rw [hb] at hm
        simp only [Option.some.injEq] at hm
        subst hm
        simp
      | succ j =>
        simp only [List.getElem?_cons_succ] at hj
        have := h3 j e hj hm
        have e' : i + (j + 1) = i + 1 + j := by omega
        rw [e']
        cases b
        · simpa using this
        · simp only [if_true, List.mem_cons]
          exact Or.inr this

/-- What one `Match` call does on a well-formed registry: either nothing stored
matches, an unmatched assertion is appended and nil is returned, or a stored
expectation of highest priority among the matching ones is used in place, a
matched assertion holding its copy is appended and its response is returned. -/
theorem Match_spec (s : ExpectationsService) (cnd : Candidate) (now : Int)
    (hwf : s.WellFormed) :
    ((∀ e ∈ s.expectations, e.Matches cnd now ≠ some true) ∧
      s.Match cnd now =
        some ({ s with assertions := s.assertions.Add (NewUnmatchedAssertion cnd now) }, none)) ∨
    (∃ i e, s.expectations[i]? = some e ∧ e.Matches cnd now = some true ∧
      (∀ e' ∈ s.expectations, e'.Matches cnd now = some true → e'.Priority ≤ e.Priority) ∧
      s.Match cnd now =
        some ({ expectations := s.expectations.set i e.Use
                assertions := s.assertions.Add (NewMatchedAssertion cnd e.Use now) },
              some e.Response)) := by
  obtain ⟨ms, h1, h2, h3⟩ := collectMatches_spec cnd now s.expectations 0 hwf
  unfold ExpectationsService.Match
  rw [h1]
  cases ms with
  | nil =>
    left
    refine ⟨?_, rfl⟩
    intro e he hm
    obtain ⟨j, hj, e'⟩ := List.getElem_of_mem he
    have := h3 j e (by rw [List.getElem?_eq_getElem hj, e']) hm
    simp at this
  | cons m ms =>
    right
    obtain ⟨hmem, hmax⟩ := Slice_head_spec m ms
    simp only []
    generalize GoSort.cell (GoSort.Slice byPriority (m :: ms)) 0 = chosen at hmem hmax ⊢
    obtain ⟨j, e1, e2, e3⟩ := h2 chosen hmem
    simp only [Nat.zero_add] at e1
    refine ⟨chosen.1, chosen.2, by rw [e1]; exact e2, e3, ?_, ?_⟩
    · intro e' he' hm'
      obtain ⟨j', hj', ee⟩ := List.getElem_of_mem he'
      have := h3 j' e' (by rw [List.getElem?_eq_getElem hj', ee]) hm'
      exact hmax _ this
    · simp only [Use_Response]

end Expectations

namespace Expectations

theorem Matches_eq_some_true_iff (e : Expectation) (cnd : Candidate) (now : Int) :
    e.Matches cnd now = some true ↔
      e.IsActive now = true ∧ e.Request.Matches cnd = some true := by
  unfold Expectation.Matches
  cases h : e.IsActive now <;> simp

theorem Match_wellFormed (s s' : ExpectationsService) (cnd : Candidate) (now : Int)
    (r : Option Response) (hwf : s.WellFormed) (h : s.Match cnd now = some (s', r)) :
    s'.WellFormed := by
  rcases Match_spec s cnd now hwf with ⟨_, h1⟩ | ⟨i, e, h1, _, _, h4⟩
  · rw [h1] at h
    simp only [Option.some.injEq, Prod.mk.injEq] at h
    rw [← h.1]
    exact hwf
  · rw [h4] at h
    simp only [Option.some.injEq, Prod.mk.injEq] at h
    rw [← h.1]
    intro x hx
    rcases List.mem_or_eq_of_mem_set hx with hx | hx
    · exact hwf x hx
    · rw [hx]
      exact Use_wellFormed e (hwf e (List.getElem?_mem h1))

theorem isActive_characterisation (e : Expectation) (now : Int) :
    e.IsActive now = true ↔
      (∀ t, e.Times = some t → t.Unlimited = true ∨ 0 < t.RemainingTimes) ∧
        (∀ t, e.TimeToLive = some t → now ≤ e.CreatedAt + t.TTL) := by
  unfold Expectation.IsActive
  cases ht : e.Times with
  | none =>
    cases hl : e.TimeToLive with
    | none => simp
    | some l => simp
  | some t =>
    cases hu : t.Unlimited
    · cases hl : e.TimeToLive with
      | none => simp [hu]; omega
      | some l => simp [hu]; omega
    · cases hl : e.TimeToLive with
      | none => simp [hu]
      | some l => simp [hu]

/-- C1: on every well-formed registry, for every candidate and instant, `Match`
returns; it returns nil exactly when no stored expectation is active and matches
the candidate, and otherwise it returns the response of a stored expectation
that is active, matches the candidate and has a priority at least that of every
active matching stored expectation. -/
theorem Match_returns_highest_priority (s : ExpectationsService) (cnd : Candidate) (now : Int)
    (hwf : s.WellFormed) :
    ∃ s' r, s.Match cnd now = some (s', r) ∧
      (r = none ↔ ∀ e ∈ s.expectations,
        ¬ (e.IsActive now = true ∧ e.Request.Matches cnd = some true)) ∧
      (∀ resp, r = some resp → ∃ e ∈ s.expectations,
        e.IsActive now = true ∧ e.Request.Matches cnd = some true ∧ resp = e.Response ∧
        ∀ e' ∈ s.expectations, e'.IsActive now = true → e'.Request.Matches cnd = some true →
          e'.Priority ≤ e.Priority) := by
  rcases Match_spec s cnd now hwf with ⟨h0, h1⟩ | ⟨i, e, h1, h2, h3, h4⟩
  · refine ⟨_, none, h1, ?_, ?_⟩
    · simp only [true_iff]
      intro e he hm
      exact h0 e he ((Matches_eq_some_true_iff e cnd now).2 hm)
    · intro resp hr
      simp at hr
  · refine ⟨_, some e.Response, h4, ?_, ?_⟩
    · simp only [false_iff, reduceCtorEq]
      intro hall
      exact hall e (List.getElem?_mem h1) ((Matches_eq_some_true_iff e cnd now).1 h2)
    · intro resp hr
      simp only [Option.some.injEq] at hr
      have hm := (Matches_eq_some_true_iff e cnd now).1 h2
      refine ⟨e, List.getElem?_mem h1, hm.1, hm.2, hr.symm, ?_⟩
      intro e' he' ha hm'
      exact h3 e' he' ((Matches_eq_some_true_iff e' cnd now).2 ⟨ha, hm'⟩)

/-- Witness for C1: the registry of scenario A is well formed and the theorem
applies to it. -/
theorem Match_returns_highest_priority_witness :
    scenarioA.WellFormed ∧
      ∃ s' r, scenarioA.Match sampleCandidate 0 = some (s', r) ∧
        (r = none ↔ ∀ e ∈ scenarioA.expectations,
          ¬ (e.IsActive 0 = true ∧ e.Request.Matches sampleCandidate = some true)) ∧
        (∀ resp, r = some resp → ∃ e ∈ scenarioA.expectations,
          e.IsActive 0 = true ∧ e.Request.Matches sampleCandidate = some true ∧
          resp = e.Response ∧
          ∀ e' ∈ scenarioA.expectations, e'.IsActive 0 = true →
            e'.Request.Matches sampleCandidate = some true → e'.Priority ≤ e.Priority) :=
  ⟨by decide, Match_returns_highest_priority scenarioA sampleCandidate 0 (by decide)⟩

/-- C2: thirteen expectations on one route are stored, the first with priority
0 and the twelve after it with priority 1; every one is active and matches the
candidate, so the earliest of highest priority is the one created second
(response byte 1). `Match` returns the response of the one created seventh
(response byte 6). -/
theorem Match_tie_picks_later_expectation :
    (createAll tieExpectations).WellFormed ∧
      (∀ e ∈ (createAll tieExpectations).expectations,
        e.Matches sampleCandidate 0 = some true ∧ e.Priority ≤ 1) ∧
      ((createAll tieExpectations).expectations[1]?).map (fun e => (e.Priority, e.Response)) =
        some (1, { Body := [1] }) ∧
      ((createAll tieExpectations).expectations[6]?).map (fun e => (e.Priority, e.Response)) =
        some (1, { Body := [6] }) ∧
      ((createAll tieExpectations).Match sampleCandidate 0).map (fun r => r.2) =
        some (some { Body := [6] }) := by
  decide

end Expectations

namespace Expectations

theorem MatchAll_appends (calls : List (Candidate × Int)) :
    ∀ (s : ExpectationsService), s.WellFormed →
      ∃ s' added, s.MatchAll calls = some s' ∧
        s'.assertions.list = s.assertions.list ++ added ∧ added.length = calls.length := by
  induction calls with
  | nil =>
    intro s _
    exact ⟨s, [], rfl, by simp, rfl⟩
  | cons c rest ih =>
    intro s hwf
    obtain ⟨cnd, now⟩ := c
    have hone : ∃ s1 r a, s.Match cnd now = some (s1, r) ∧
        s1.assertions.list = s.assertions.list ++ [a] := by
      rcases Match_spec s cnd now hwf with ⟨_, h1⟩ | ⟨i, e, _, _, _, h4⟩
      · exact ⟨_, _, _, h1, rfl⟩
      · exact ⟨_, _, _, h4, rfl⟩
    obtain ⟨s1, r, a, h1, h2⟩ := hone
    obtain ⟨s', added, h3, h4, h5⟩ := ih s1 (Match_wellFormed s s1 cnd now r hwf h1)
    refine ⟨s', a :: added, ?_, ?_, ?_⟩
    · simp only [ExpectationsService.MatchAll, h1]
      exact h3
    · rw [h4, h2]
      simp
    · simp [h5]

/-- C3: on a well-formed registry every `Match` call returns and leaves the
assertion log equal to the earlier log followed by exactly one new assertion,
whether or not a match was found; a run of `m` calls returns and leaves it equal
to the earlier log followed by exactly `m` new assertions. -/
theorem Match_appends_one_assertion (s : ExpectationsService) (hwf : s.WellFormed)
    (calls : List (Candidate × Int)) :
    (∀ cnd now, ∃ s' r a, s.Match cnd now = some (s', r) ∧
      s'.assertions.list = s.assertions.list ++ [a]) ∧
    (∃ s' added, s.MatchAll calls = some s' ∧
      s'.assertions.list = s.assertions.list ++ added ∧ added.length = calls.length) := by
  refine ⟨?_, MatchAll_appends calls s hwf⟩
  intro cnd now
  rcases Match_spec s cnd now hwf with ⟨_, h1⟩ | ⟨i, e, _, _, _, h4⟩
  · exact ⟨_, _, _, h1, rfl⟩
  · exact ⟨_, _, _, h4, rfl⟩

/-- Witness for C3: scenario A and a run of two calls. -/
theorem Match_appends_one_assertion_witness :
    scenarioA.WellFormed ∧
      (∀ cnd now, ∃ s' r a, scenarioA.Match cnd now = some (s', r) ∧
        s'.assertions.list = scenarioA.assertions.list ++ [a]) ∧
      (∃ s' added, scenarioA.MatchAll [(sampleCandidate, 0), (sampleCandidate, 5)] = some s' ∧
        s'.assertions.list = scenarioA.assertions.list ++ added ∧
        added.length = [(sampleCandidate, (0 : Int)), (sampleCandidate, 5)].length) :=
  ⟨by decide,
    Match_appends_one_assertion scenarioA (by decide) [(sampleCandidate, 0), (sampleCandidate, 5)]⟩

theorem IsActive_limited_pos (e : Expectation) (now : Int) (t : Times) (h : e.IsActive now = true)
    (ht : e.Times = some t) (hu : t.Unlimited = false) : 0 < t.RemainingTimes := by
  have := ((isActive_characterisation e now).1 h).1 t ht
  rcases this with h1 | h1
  · rw [hu] at h1
    exact absurd h1 (by simp)
  · exact h1

/-- C5: when `Match` on a well-formed registry returns a non-nil response, the
response is that of an expectation stored at some position at the moment of the
call, and after the call the expectation at that position has a remaining count
exactly one less when it is limited (the count was positive) and the same usage
when it is unlimited. -/
theorem Match_uses_stored_expectation (s s' : ExpectationsService) (cnd : Candidate)
    (now : Int) (resp : Response) (hwf : s.WellFormed)
    (h : s.Match cnd now = some (s', some resp)) :
    ∃ (i : Nat) (e e' : Expectation), s.expectations[i]? = some e ∧ resp = e.Response ∧
      s'.expectations[i]? = some e' ∧
      (∀ t, e.Times = some t → t.Unlimited = false →
        0 < t.RemainingTimes ∧
          e'.Times = some { RemainingTimes := t.RemainingTimes - 1, Unlimited := false }) ∧
      ((∀ t, e.Times = some t → t.Unlimited = true) → e'.Times = e.Times) := by
  rcases Match_spec s cnd now hwf with ⟨_, h1⟩ | ⟨i, e, h1, h2, _, h4⟩
  · rw [h1] at h
    simp at h
  · rw [h4] at h
    simp only [Option.some.injEq, Prod.mk.injEq] at h
    obtain ⟨hs, hr⟩ := h
    have hi : i < s.expectations.length := by
      by_contra hn
      rw [List.getElem?_eq_none (by omega)] at h1
      simp at h1
    refine ⟨i, e, e.Use, h1, hr.symm, ?_, ?_, ?_⟩
    · rw [← hs]
      simp [List.getElem?_set, hi]
    · intro t ht hu
      have hact := ((Matches_eq_some_true_iff e cnd now).1 h2).1
      have hpos := IsActive_limited_pos e now t hact ht hu
      have hlt : t.RemainingTimes < 2 ^ 32 := by
        have := hwf e (List.getElem?_mem h1)
        unfold Expectation.wellFormed at this
        rw [ht] at this
        simp only [Bool.and_eq_true, decide_eq_true_eq] at this
        exact this.2
      refine ⟨hpos, ?_⟩
      rw [Use_Times, ht]
      simp only [hu, Bool.false_eq_true, if_false, Option.some.injEq, Times.mk.injEq, and_true]
      omega
    · intro hu
      rw [Use_Times]
      cases ht : e.Times with
      | none => rfl
      | some t => simp [hu t ht]

/-- Witness for C5: in scenario A the call returns the response `b2` and leaves
the registry `scenarioA_after`. -/
theorem Match_uses_stored_expectation_witness :
    scenarioA.WellFormed ∧
      scenarioA.Match sampleCandidate 0 = some (scenarioA_after, some { Body := [98, 50] }) ∧
      ∃ (i : Nat) (e e' : Expectation), scenarioA.expectations[i]? = some e ∧ ({ Body := [98, 50] } : Response) = e.Response ∧
        scenarioA_after.expectations[i]? = some e' ∧
        (∀ t, e.Times = some t → t.Unlimited = false →
          0 < t.RemainingTimes ∧
            e'.Times = some { RemainingTimes := t.RemainingTimes - 1, Unlimited := false }) ∧
        ((∀ t, e.Times = some t → t.Unlimited = true) → e'.Times = e.Times) :=
  ⟨by decide, rfl,
    Match_uses_stored_expectation scenarioA scenarioA_after sampleCandidate 0 { Body := [98, 50] }
      (by decide) rfl⟩

end Expectations

namespace Expectations

theorem TimesHeap_copy_spec (heap : TimesHeap) (p : Nat) (hp : p < heap.length) :
    (TimesHeap.Copy heap (some p)).2 = some heap.length ∧
      (TimesHeap.Copy heap (some p)).1[heap.length]? = heap[p]? ∧
      (TimesHeap.Use (TimesHeap.Copy heap (some p)).1 (some p))[heap.length]? =
        (TimesHeap.Copy heap (some p)).1[heap.length]? := by
  have hget : heap[p]? = some heap[p] := List.getElem?_eq_getElem hp
  have hcopy : TimesHeap.Copy heap (some p) = (heap ++ [heap[p]], some heap.length) := by
    simp only [TimesHeap.Copy, hget]
  rw [hcopy]
  refine ⟨rfl, ?_, ?_⟩
  · simp [hget]
  · simp only [TimesHeap.Use]
    have h1 : (heap ++ [heap[p]])[p]? = some heap[p] := by
      rw [List.getElem?_append_left hp, hget]
    rw [h1]
    simp only []
    split
    · rw [List.getElem?_set]
      have : ¬ (p = heap.length) := by omega
      simp [this]
    · rfl

/-- C6: when `Match` on a well-formed registry returns a non-nil response, the
appended assertion holds the copy, taken after `Use`, of the chosen expectation:
same id, request, response, priority, creation time and TTL, and the remaining
count left by `Use`. `Copy` of any expectation equals the original. On the
memory of `Times` objects, `Copy` allocates a new object, and a later `Use`
through the live pointer leaves the object of the copy as it was. -/
theorem matched_assertion_holds_copy (s s' : ExpectationsService) (cnd : Candidate)
    (now : Int) (resp : Response) (hwf : s.WellFormed)
    (h : s.Match cnd now = some (s', some resp)) (x : Expectation)
    (heap : TimesHeap) (p : Nat) (hp : p < heap.length) :
    (∃ (i : Nat) (e : Expectation) (a : Assertion),
      s.expectations[i]? = some e ∧ resp = e.Response ∧
      s'.expectations[i]? = some e.Use ∧
      s'.assertions.list = s.assertions.list ++ [a] ∧
      a.Expectation = some e.Use.Copy ∧
      e.Use.Copy.ID = e.ID ∧ e.Use.Copy.Request = e.Request ∧
      e.Use.Copy.Response = e.Response ∧ e.Use.Copy.Priority = e.Priority ∧
      e.Use.Copy.CreatedAt = e.CreatedAt ∧ e.Use.Copy.TimeToLive = e.TimeToLive ∧
      e.Use.Copy.Times = e.Use.Times) ∧
    x.Copy = x ∧
    ((TimesHeap.Copy heap (some p)).2 = some heap.length ∧
      (TimesHeap.Copy heap (some p)).1[heap.length]? = heap[p]? ∧
      (TimesHeap.Use (TimesHeap.Copy heap (some p)).1 (some p))[heap.length]? =
        (TimesHeap.Copy heap (some p)).1[heap.length]?) := by
  refine ⟨?_, Copy_eq x, TimesHeap_copy_spec heap p hp⟩
  rcases Match_spec s cnd now hwf with ⟨_, h1⟩ | ⟨i, e, h1, h2, _, h4⟩
  · rw [h1] at h
    simp at h
  · rw [h4] at h
    simp only [Option.some.injEq, Prod.mk.injEq] at h
    obtain ⟨hs, hr⟩ := h
    have hi : i < s.expectations.length := by
      by_contra hn
      rw [List.getElem?_eq_none (by omega)] at h1
      simp at h1
    refine ⟨i, e, NewMatchedAssertion cnd e.Use now, h1, hr.symm, ?_, ?_, rfl, ?_⟩
    · rw [← hs]
      simp [List.getElem?_set, hi]
    · rw [← hs]
      rfl
    · rw [Copy_eq]
      exact ⟨Use_ID e, Use_Request e, Use_Response e, Use_Priority e, Use_CreatedAt e,
        Use_TimeToLive e, rfl⟩

/-- Witness for C6: scenario A, and a memory holding one `Times` object. -/
theorem matched_assertion_holds_copy_witness :
    scenarioA.WellFormed ∧
      scenarioA.Match sampleCandidate 0 = some (scenarioA_after, some { Body := [98, 50] }) ∧
      0 < ([{ RemainingTimes := 2, Unlimited := false }] : TimesHeap).length ∧
      ((∃ (i : Nat) (e : Expectation) (a : Assertion),
        scenarioA.expectations[i]? = some e ∧ ({ Body := [98, 50] } : Response) = e.Response ∧
        scenarioA_after.expectations[i]? = some e.Use ∧
        scenarioA_after.assertions.list = scenarioA.assertions.list ++ [a] ∧
        a.Expectation = some e.Use.Copy ∧
        e.Use.Copy.ID = e.ID ∧ e.Use.Copy.Request = e.Request ∧
        e.Use.Copy.Response = e.Response ∧ e.Use.Copy.Priority = e.Priority ∧
        e.Use.Copy.CreatedAt = e.CreatedAt ∧ e.Use.Copy.TimeToLive = e.TimeToLive ∧
        e.Use.Copy.Times = e.Use.Times) ∧
      (sampleExpectation 7 [] 3).Copy = sampleExpectation 7 [] 3 ∧
      ((TimesHeap.Copy [{ RemainingTimes := 2, Unlimited := false }] (some 0)).2 =
          some ([{ RemainingTimes := 2, Unlimited := false }] : TimesHeap).length ∧
        (TimesHeap.Copy [{ RemainingTimes := 2, Unlimited := false }] (some 0)).1[
            ([{ RemainingTimes := 2, Unlimited := false }] : TimesHeap).length]? =
          ([{ RemainingTimes := 2, Unlimited := false }] : TimesHeap)[0]? ∧
        (TimesHeap.Use (TimesHeap.Copy [{ RemainingTimes := 2, Unlimited := false }] (some 0)).1
            (some 0))[([{ RemainingTimes := 2, Unlimited := false }] : TimesHeap).length]? =
          (TimesHeap.Copy [{ RemainingTimes := 2, Unlimited := false }] (some 0)).1[
            ([{ RemainingTimes := 2, Unlimited := false }] : TimesHeap).length]?)) :=
  ⟨by decide, rfl, by decide,
    matched_assertion_holds_copy scenarioA scenarioA_after sampleCandidate 0 { Body := [98, 50] }
      (by decide) rfl (sampleExpectation 7 [] 3) [{ RemainingTimes := 2, Unlimited := false }] 0
      (by decide)⟩

/-- C7: on a well-formed registry every `Match` call returns and appends one
assertion, which holds the candidate and carries an expectation if and only if
the call returned a non-nil response; when no stored expectation is active and
matches, the assertion carries no expectation and the call returns nil. -/
theorem Match_assertion_iff_response (s : ExpectationsService) (cnd : Candidate) (now : Int)
    (hwf : s.WellFormed) :
    ∃ (s' : ExpectationsService) (r : Option Response) (a : Assertion),
      s.Match cnd now = some (s', r) ∧
      s'.assertions.list = s.assertions.list ++ [a] ∧
      (a.Expectation.isSome = true ↔ r.isSome = true) ∧
      a.Candidate = cnd ∧
      ((∀ e ∈ s.expectations, ¬ (e.IsActive now = true ∧ e.Request.Matches cnd = some true)) →
        a.Expectation = none ∧ r = none) := by
  rcases Match_spec s cnd now hwf with ⟨_, h1⟩ | ⟨i, e, h1, h2, _, h4⟩
  · exact ⟨_, none, NewUnmatchedAssertion cnd now, h1, rfl, by simp [NewUnmatchedAssertion], rfl,
      fun _ => ⟨rfl, rfl⟩⟩
  · refine ⟨_, some e.Response, NewMatchedAssertion cnd e.Use now, h4, rfl,
      by simp [NewMatchedAssertion], rfl, ?_⟩
    intro hall
    exact absurd ((Matches_eq_some_true_iff e cnd now).1 h2) (hall e (List.getElem?_mem h1))

/-- Witness for C7: scenario A. -/
theorem Match_assertion_iff_response_witness :
    scenarioA.WellFormed ∧
      ∃ (s' : ExpectationsService) (r : Option Response) (a : Assertion),
        scenarioA.Match sampleCandidate 0 = some (s', r) ∧
        s'.assertions.list = scenarioA.assertions.list ++ [a] ∧
        (a.Expectation.isSome = true ↔ r.isSome = true) ∧
        a.Candidate = sampleCandidate ∧
        ((∀ e ∈ scenarioA.expectations,
            ¬ (e.IsActive 0 = true ∧ e.Request.Matches sampleCandidate = some true)) →
          a.Expectation = none ∧ r = none) :=
  ⟨by decide, Match_assertion_iff_response scenarioA sampleCandidate 0 (by decide)⟩

/-- C8: `IsActive` at the instant `now` is true if and only if the usage counter,
when there is one, is unlimited or has a positive remaining count, and the TTL,
when there is one, has `now ≤ createdAt + ttl`. So an expectation with a TTL
matches a candidate only while `now ≤ createdAt + ttl`; after that instant it is
inactive, matches no candidate and is listed by `GetExpectations` under the
status `expired`. -/
theorem IsActive_iff (e : Expectation) (now : Int) :
    (e.IsActive now = true ↔
      (∀ t, e.Times = some t → t.Unlimited = true ∨ 0 < t.RemainingTimes) ∧
        (∀ t, e.TimeToLive = some t → now ≤ e.CreatedAt + t.TTL)) ∧
    (∀ (t : TimeToLive) (cnd : Candidate), e.TimeToLive = some t →
      e.Matches cnd now = some true → now ≤ e.CreatedAt + t.TTL) ∧
    (∀ (t : TimeToLive) (s : ExpectationsService), e.TimeToLive = some t →
      e.CreatedAt + t.TTL < now → e ∈ s.expectations →
      e.IsActive now = false ∧ (∀ cnd, e.Matches cnd now = some false) ∧
        e.Copy ∈ s.GetExpectations { Status := some "expired" } now ∧
        e.Copy ∉ s.GetExpectations { Status := some "active" } now) := by
  refine ⟨isActive_characterisation e now, ?_, ?_⟩
  · intro t cnd ht hm
    exact ((isActive_characterisation e now).1 ((Matches_eq_some_true_iff e cnd now).1 hm).1).2 t ht
  · intro t s ht hlt hmem
    have hina : e.IsActive now = false := by
      cases h : e.IsActive now
      · rfl
      · have := ((isActive_characterisation e now).1 h).2 t ht
        omega
    refine ⟨hina, ?_, ?_, ?_⟩
    · intro cnd
      simp [Expectation.Matches, hina]
    · simp only [ExpectationsService.GetExpectations, List.mem_map, List.mem_filter]
      exact ⟨e, ⟨hmem, by simp [hina]⟩, rfl⟩
    · simp only [ExpectationsService.GetExpectations, List.mem_map, List.mem_filter, not_exists,
        not_and]
      intro x hx
      rw [Copy_eq, Copy_eq]
      intro hxe
      rw [hxe] at hx
      simp [hina] at hx

/-- C9: `Expectation.Matches` is true if and only if the expectation is active,
its request exchange and routing key equal the candidate's and its body
comparator accepts the candidate body; with a comparator present it always
returns, and returns the conjunction of the four tests. -/
theorem Matches_iff (e : Expectation) (cnd : Candidate) (now : Int) :
    (e.Matches cnd now = some true ↔
      e.IsActive now = true ∧ e.Request.Exchange = cnd.Exchange ∧
        e.Request.RoutingKey = cnd.RoutingKey ∧
        ∃ c, e.Request.BodyComparator = some c ∧ c.Match cnd.Body = true) ∧
    (∀ c, e.Request.BodyComparator = some c →
      e.Matches cnd now =
        some (e.IsActive now && decide (e.Request.Exchange = cnd.Exchange) &&
          decide (e.Request.RoutingKey = cnd.RoutingKey) && c.Match cnd.Body)) := by
  constructor
  · rw [Matches_eq_some_true_iff]
    unfold Request.Matches
    by_cases hx : e.Request.Exchange = cnd.Exchange
    · by_cases hr : e.Request.RoutingKey = cnd.RoutingKey
      · cases hc : e.Request.BodyComparator with
        | none => simp [hx, hr]
        | some c => simp [hx, hr]
      · simp [hx, hr]
    · simp [hx]
  · intro c hc
    unfold Expectation.Matches Request.Matches
    rw [hc]
    cases e.IsActive now
    · simp
    · by_cases hx : e.Request.Exchange = cnd.Exchange
      · by_cases hr : e.Request.RoutingKey = cnd.RoutingKey
        · simp [hx, hr]
        · simp [hx, hr]
      · simp [hx]

/-- C10: `Use` on a limited expectation with a positive remaining count `r`
(a `uint32`) leaves `r - 1`, and on an unlimited expectation changes nothing;
but on a limited expectation with remaining count 0 it leaves `2 ^ 32 - 1`, not
0: the expectation built with the default usage and used twice has
4294967295 uses left and is active again. -/
theorem Use_wraps_at_zero :
    (∀ (e : Expectation) (t : Times), e.Times = some t → t.Unlimited = false →
      0 < t.RemainingTimes → t.RemainingTimes < 2 ^ 32 →
      e.Use.Times = some { RemainingTimes := t.RemainingTimes - 1, Unlimited := false }) ∧
    (∀ (e : Expectation) (t : Times), e.Times = some t → t.Unlimited = true → e.Use = e) ∧
    (sampleExpectation 1 [] 0).Use.Times = some { RemainingTimes := 0, Unlimited := false } ∧
    (sampleExpectation 1 [] 0).Use.IsActive 0 = false ∧
    (sampleExpectation 1 [] 0).Use.Use.Times =
      some { RemainingTimes := 4294967295, Unlimited := false } ∧
    (sampleExpectation 1 [] 0).Use.Use.IsActive 0 = true := by
  refine ⟨?_, ?_, by decide, by decide, by decide, by decide⟩
  · intro e t ht hu hpos hlt
    rw [Use_Times, ht]
    simp only [hu, Bool.false_eq_true, if_false, Option.some.injEq, Times.mk.injEq, and_true]
    omega
  · intro e t ht hu
    unfold Expectation.Use
    rw [ht]
    simp [hu]

end Expectations

namespace Expectations

theorem timesChosen_add (s : ExpectationsService) (exps : List Expectation) (a : Assertion)
    (id : Nat) :
    ExpectationsService.timesChosen
        { expectations := exps, assertions := s.assertions.Add a } id =
      s.timesChosen id +
        (match a.Expectation with
         | none => 0
         | some x => if x.ID = id then 1 else 0) := by
  simp only [ExpectationsService.timesChosen, Assertions.GetForExpectationByID, Assertions.Add,
    List.filter_append, List.length_append]
  congr 1
  cases h : a.Expectation with
  | none => simp [List.filter, h]
  | some x =>
    by_cases hx : x.ID = id
    · simp [List.filter, h, hx]
    · simp [List.filter, h, hx]

theorem timesChosen_same_assertions (s : ExpectationsService) (exps : List Expectation)
    (id : Nat) :
    ExpectationsService.timesChosen { expectations := exps, assertions := s.assertions } id =
      s.timesChosen id := rfl

theorem BudgetInv_step (B id : Nat) (s : ExpectationsService) (op : Op)
    (hinv : BudgetInv B id s) (hop : op.admissible id = true) :
    ∃ s', s.step op = some s' ∧ BudgetInv B id s' := by
  obtain ⟨hwf, hcnt, hst⟩ := hinv
  cases op with
  | create x =>
    simp only [Op.admissible, Bool.and_eq_true, decide_eq_true_eq] at hop
    refine ⟨s.Create x, rfl, ?_, ?_, ?_⟩
    · intro y hy
      simp only [ExpectationsService.Create, List.mem_append, List.mem_singleton] at hy
      rcases hy with hy | hy
      · exact hwf y hy
      · rw [hy]; exact hop.2
    · exact hcnt
    · have hget : ∀ (i : Nat) (y : Expectation), (s.Create x).expectations[i]? = some y →
          y.ID = id → s.expectations[i]? = some y := by
        intro i y hy hid
        simp only [ExpectationsService.Create] at hy
        by_cases hi : i < s.expectations.length
        · rw [List.getElem?_append_left hi] at hy
          exact hy
        · rw [List.getElem?_append_right (by omega)] at hy
          have : y = x := by
            cases hk : i - s.expectations.length with
            | zero => rw [hk] at hy; simpa using hy.symm
            | succ k => rw [hk] at hy; simp at hy
          rw [this] at hid
          exact absurd hid hop.1
      intro i y hy hid
      obtain ⟨h1, h2⟩ := hst i y (hget i y hy hid) hid
      exact ⟨h1, fun j z hz hzid => h2 j z (hget j z hz hzid) hzid⟩
  | reset =>
    refine ⟨s.Reset, rfl, ?_, hcnt, ?_⟩
    · intro y hy
      simp [ExpectationsService.Reset] at hy
    · intro i y hy
      simp [ExpectationsService.Reset] at hy
  | getExpectations req now => exact ⟨s, rfl, hwf, hcnt, hst⟩
  | getExpectation i => exact ⟨s, rfl, hwf, hcnt, hst⟩
  | getAssertions req => exact ⟨s, rfl, hwf, hcnt, hst⟩
  | matchCandidate cnd now =>
    rcases Match_spec s cnd now hwf with ⟨_, h1⟩ | ⟨i0, e0, h1, h2, _, h4⟩
    · refine ⟨_, (by simp only [ExpectationsService.step, h1]; rfl), ?_, ?_, ?_⟩
      · exact hwf
      · rw [timesChosen_add]
        simpa [NewUnmatchedAssertion] using hcnt
      · intro i y hy hid
        rw [timesChosen_add]
        simp only [NewUnmatchedAssertion, Nat.add_zero]
        exact hst i y hy hid
    · have hwf' := Match_wellFormed s _ cnd now _ hwf h4
      have hi0 : i0 < s.expectations.length := by
        by_contra hn
        rw [List.getElem?_eq_none (by omega)] at h1
        simp at h1
      have hact := ((Matches_eq_some_true_iff e0 cnd now).1 h2).1
      have hcnt' : ExpectationsService.timesChosen
          { expectations := s.expectations.set i0 e0.Use
            assertions := s.assertions.Add (NewMatchedAssertion cnd e0.Use now) } id =
          s.timesChosen id + (if e0.ID = id then 1 else 0) := by
        rw [timesChosen_add]
        simp [NewMatchedAssertion, Copy_eq, Use_ID]
      refine ⟨_, (by simp only [ExpectationsService.step, h4]), hwf', ?_, ?_⟩
      · rw [hcnt']
        by_cases hid : e0.ID = id
        · obtain ⟨⟨r, hr, hb⟩, _⟩ := hst i0 e0 h1 hid
          have := IsActive_limited_pos e0 now _ hact hr rfl
          simp only [hid, if_true]
          simp only at this
          omega
        · simp only [hid, if_false]
          omega
      · intro i y hy hyid
        simp only [List.getElem?_set, hi0] at hy
        rw [hcnt']
        have huniq : ∀ (j : Nat) (z : Expectation),
            (s.expectations.set i0 e0.Use)[j]? = some z → z.ID = id →
            ∃ z0, s.expectations[j]? = some z0 ∧ z0.ID = id := by
          intro j z hz hzid
          simp only [List.getElem?_set, hi0] at hz
          by_cases hj : i0 = j
          · simp only [hj, if_true] at hz
            have hj' : j < s.expectations.length := by omega
            simp only [hj', if_true, Option.some.injEq] at hz
            refine ⟨e0, by rw [← hj]; exact h1, ?_⟩
            rw [← hz, Use_ID] at hzid
            exact hzid
          · simp only [hj, if_false] at hz
            exact ⟨z, hz, hzid⟩
        by_cases hi : i0 = i
        · subst hi
          simp only [if_true, hi0, Option.some.injEq] at hy
          have hid : e0.ID = id := by rw [← hy, Use_ID] at hyid; exact hyid
          obtain ⟨⟨r, hr, hb⟩, hu⟩ := hst i0 e0 h1 hid
          have hpos := IsActive_limited_pos e0 now _ hact hr rfl
          have hlt : r < 2 ^ 32 := by
            have := hwf e0 (List.getElem?_mem h1)
            unfold Expectation.wellFormed at this
            rw [hr] at this
            simp only [Bool.and_eq_true, decide_eq_true_eq] at this
            exact this.2
          simp only at hpos
          refine ⟨⟨r - 1, ?_, ?_⟩, ?_⟩
          · rw [← hy, Use_Times, hr]
            simp only [Bool.false_eq_true, if_false, Option.some.injEq, Times.mk.injEq, and_true]
            omega
          · simp only [hid, if_true]
            omega
          · intro j z hz hzid
            obtain ⟨z0, hz0, hz0id⟩ := huniq j z hz hzid
            exact hu j z0 hz0 hz0id
        · simp only [hi, if_false] at hy
          obtain ⟨⟨r, hr, hb⟩, hu⟩ := hst i y hy hyid
          have hne : ¬ e0.ID = id := by
            intro hid
            have := hu i0 e0 h1 hid
            omega
          refine ⟨⟨r, hr, ?_⟩, ?_⟩
          · simp only [hne, if_false]
            omega
          · intro j z hz hzid
            obtain ⟨z0, hz0, hz0id⟩ := huniq j z hz hzid
            exact hu j z0 hz0 hz0id

theorem BudgetInv_run (B id : Nat) (ops : List Op) :
    ∀ (s : ExpectationsService), BudgetInv B id s → (∀ op ∈ ops, op.admissible id = true) →
      ∃ s', s.run ops = some s' ∧ BudgetInv B id s' := by
  induction ops with
  | nil => intro s h _; exact ⟨s, rfl, h⟩
  | cons op rest ih =>
    intro s h hops
    obtain ⟨s1, h1, h2⟩ := BudgetInv_step B id s op h (hops op (List.mem_cons_self _ _))
    obtain ⟨s', h3, h4⟩ := ih s1 h2 (fun o ho => hops o (List.mem_cons_of_mem _ ho))
    exact ⟨s', by simp only [ExpectationsService.run, h1]; exact h3, h4⟩

end Expectations

namespace Expectations

theorem Match_single_unlimited (u : Expectation) (tu : Times) (cnd : Candidate) (now : Int)
    (a : Assertions) (hu : u.Times = some tu) (hunl : tu.Unlimited = true)
    (hm : u.Matches cnd now = some true) :
    ExpectationsService.Match { expectations := [u], assertions := a } cnd now =
      some ({ expectations := [u], assertions := a.Add (NewMatchedAssertion cnd u now) },
        some u.Response) := by
  have huse : u.Use = u := by
    unfold Expectation.Use
    rw [hu]
    simp [hunl]
  have hsl : GoSort.Slice byPriority [((0 : Nat), u)] = [(0, u)] := rfl
  simp only [ExpectationsService.Match, collectMatches, hm, if_true, hsl]
  simp [GoSort.cell, huse]

theorem run_unlimited (u : Expectation) (tu : Times) (cnd : Candidate)
    (hu : u.Times = some tu) (hunl : tu.Unlimited = true) (nows : List Int) :
    ∀ (a : Assertions), (∀ now ∈ nows, u.Matches cnd now = some true) →
      ∃ s', ExpectationsService.run { expectations := [u], assertions := a }
          (nows.map (fun now => Op.matchCandidate cnd now)) = some s' ∧
        s'.expectations = [u] ∧
        s'.timesChosen u.ID =
          ExpectationsService.timesChosen { expectations := [u], assertions := a } u.ID +
            nows.length := by
  induction nows with
  | nil => intro a _; exact ⟨_, rfl, rfl, rfl⟩
  | cons now rest ih =>
    intro a hm
    have h1 := Match_single_unlimited u tu cnd now a hu hunl (hm now (List.mem_cons_self _ _))
    obtain ⟨s', h2, h3, h4⟩ := ih (a.Add (NewMatchedAssertion cnd u now))
      (fun n hn => hm n (List.mem_cons_of_mem _ hn))
    refine ⟨s', ?_, h3, ?_⟩
    · simp only [List.map_cons, ExpectationsService.run, ExpectationsService.step, h1]
      exact h2
    · rw [h4]
      have := timesChosen_add { expectations := [u], assertions := a } [u]
        (NewMatchedAssertion cnd u now) u.ID
      simp only [NewMatchedAssertion, Copy_eq, if_true] at this
      simp only [NewMatchedAssertion, Copy_eq]
      rw [this]
      simp only [List.length_cons]
      omega

/-- C4: an expectation `e` created with limited usage `n` on a well-formed
registry that holds no expectation with its id is chosen by `Match` at most `n`
times, whatever operations follow (`Create` of well-formed expectations with
other ids, `Match`, `Reset`, the getters): the run returns and the number of
matched assertions for the id of `e` has grown by at most `n`. An expectation
with unlimited usage is chosen by every one of any number of `Match` calls made
at instants at which it matches (so within its TTL). -/
theorem limited_chosen_at_most_n (s0 : ExpectationsService) (e : Expectation) (n : Nat)
    (ops : List Op) (hwf : s0.WellFormed) (he : e.wellFormed = true)
    (ht : e.Times = some { RemainingTimes := n, Unlimited := false })
    (hfresh : ∀ x ∈ s0.expectations, x.ID ≠ e.ID)
    (hops : ∀ op ∈ ops, op.admissible e.ID = true)
    (u : Expectation) (tu : Times) (cnd : Candidate) (nows : List Int)
    (hu : u.Times = some tu) (hunl : tu.Unlimited = true)
    (hm : ∀ now ∈ nows, u.Matches cnd now = some true) :
    (∃ s', (s0.Create e).run ops = some s' ∧
      s'.timesChosen e.ID ≤ s0.timesChosen e.ID + n) ∧
    (∃ s', (NewExpectationsService.Create u).run
        (nows.map (fun now => Op.matchCandidate cnd now)) = some s' ∧
      s'.timesChosen u.ID = nows.length) := by
  constructor
  · have hinv : BudgetInv (s0.timesChosen e.ID + n) e.ID (s0.Create e) := by
      have hget : ∀ (i : Nat) (y : Expectation), (s0.Create e).expectations[i]? = some y →
          y.ID = e.ID → i = s0.expectations.length ∧ y = e := by
        intro i y hy hid
        simp only [ExpectationsService.Create] at hy
        by_cases hi : i < s0.expectations.length
        · rw [List.getElem?_append_left hi] at hy
          exact absurd hid (hfresh y (List.getElem?_mem hy))
        · rw [List.getElem?_append_right (by omega)] at hy
          cases hk : i - s0.expectations.length with
          | zero =>
            rw [hk] at hy
            exact ⟨by omega, by simpa using hy.symm⟩
          | succ k => rw [hk] at hy; simp at hy
      refine ⟨?_, ?_, ?_⟩
      · intro y hy
        simp only [ExpectationsService.Create, List.mem_append, List.mem_singleton] at hy
        rcases hy with hy | hy
        · exact hwf y hy
        · rw [hy]; exact he
      · show s0.timesChosen e.ID ≤ s0.timesChosen e.ID + n
        omega
      · intro i y hy hid
        obtain ⟨h1, h2⟩ := hget i y hy hid
        refine ⟨⟨n, by rw [h2]; exact ht, le_refl _⟩, ?_⟩
        intro j z hz hzid
        have := (hget j z hz hzid).1
        omega
    obtain ⟨s', h1, h2⟩ := BudgetInv_run _ e.ID ops (s0.Create e) hinv hops
    exact ⟨s', h1, h2.2.1⟩
  · obtain ⟨s', h1, _, h3⟩ := run_unlimited u tu cnd hu hunl nows { list := [] } hm
    refine ⟨s', h1, ?_⟩
    rw [h3]
    simp [ExpectationsService.timesChosen, Assertions.GetForExpectationByID]

/-- Witness for C4: a limited expectation (one use) followed by two matches, a
reset, another create and a listing; an unlimited expectation matched at three
instants. -/
theorem limited_chosen_at_most_n_witness :
    NewExpectationsService.WellFormed ∧
      (sampleExpectation 1 [98] 0).wellFormed = true ∧
      (sampleExpectation 1 [98] 0).Times = some { RemainingTimes := 1, Unlimited := false } ∧
      (∀ x ∈ NewExpectationsService.expectations, x.ID ≠ (sampleExpectation 1 [98] 0).ID) ∧
      (∀ op ∈ [Op.matchCandidate sampleCandidate 0, Op.matchCandidate sampleCandidate 1, Op.reset,
          Op.create (sampleExpectation 2 [99] 5), Op.getExpectations { Status := none } 2,
          Op.matchCandidate sampleCandidate 3],
        op.admissible (sampleExpectation 1 [98] 0).ID = true) ∧
      (unlimitedExpectation 9 [100]).Times = some { RemainingTimes := 0, Unlimited := true } ∧
      (∀ now ∈ [(0 : Int), 1, 2],
        (unlimitedExpectation 9 [100]).Matches sampleCandidate now = some true) ∧
      (∃ s', (NewExpectationsService.Create (sampleExpectation 1 [98] 0)).run
          [Op.matchCandidate sampleCandidate 0, Op.matchCandidate sampleCandidate 1, Op.reset,
            Op.create (sampleExpectation 2 [99] 5), Op.getExpectations { Status := none } 2,
            Op.matchCandidate sampleCandidate 3] = some s' ∧
        s'.timesChosen (sampleExpectation 1 [98] 0).ID ≤
          NewExpectationsService.timesChosen (sampleExpectation 1 [98] 0).ID + 1) ∧
      (∃ s', (NewExpectationsService.Create (unlimitedExpectation 9 [100])).run
          ([(0 : Int), 1, 2].map (fun now => Op.matchCandidate sampleCandidate now)) = some s' ∧
        s'.timesChosen (unlimitedExpectation 9 [100]).ID = [(0 : Int), 1, 2].length) :=
  ⟨by decide, by decide, rfl, by decide, by decide, rfl, by decide,
    limited_chosen_at_most_n NewExpectationsService (sampleExpectation 1 [98] 0) 1
      [Op.matchCandidate sampleCandidate 0, Op.matchCandidate sampleCandidate 1, Op.reset,
        Op.create (sampleExpectation 2 [99] 5), Op.getExpectations { Status := none } 2,
        Op.matchCandidate sampleCandidate 3]
      (by decide) (by decide) rfl (by decide) (by decide)
      (unlimitedExpectation 9 [100]) { RemainingTimes := 0, Unlimited := true } sampleCandidate
      [0, 1, 2] rfl rfl (by decide)⟩

end Expectations

/-! ## Reset, listing and the assertion log -/

namespace Expectations

/-- C11: `Reset` leaves no stored expectation, so `GetExpectations` without a
filter returns the empty list at every instant, and it leaves the assertion log
as it was, so every `GetAssertions` request is answered as before. -/
theorem Reset_drops_expectations_keeps_assertions (s : ExpectationsService) (now : Int) :
    s.Reset.expectations = [] ∧
      s.Reset.GetExpectations { Status := none } now = [] ∧
      s.Reset.assertions.list = s.assertions.list ∧
      ∀ req, s.Reset.GetAssertions req = s.GetAssertions req := by
  refine ⟨rfl, rfl, rfl, fun req => rfl⟩

/-- C12: `ResetAll` calls `Reset` of the expectations service, which keeps the
assertion log: for every server and every `UnsubscribeAll` the log after
`ResetAll` is the log before it. On the server `serverAfterMatch`, whose log
holds one matched assertion, `GetAssertions` without a filter still returns that
assertion after `ResetAll`, not the empty list. -/
theorem ResetAll_keeps_assertions :
    (∀ (σ : Type) (unsubscribeAll : σ → σ × Option Error) (s : AmqpMockServerServiceServer σ),
      (s.ResetAll unsubscribeAll).1.expectationsService.assertions.list =
        s.expectationsService.assertions.list) ∧
    (((serverAfterMatch.ResetAll (fun u => (u, none))).1.expectationsService.GetAssertions
        { ExpectationID := none, Status := none, Include := [] }).map
          (fun a => (a.Candidate, a.Expectation.map (fun e => e.ID)))) =
      [(sampleCandidate, some 2)] ∧
    (serverAfterMatch.ResetAll (fun u => (u, none))).1.expectationsService.expectations = [] := by
  refine ⟨fun σ f s => rfl, by decide, rfl⟩

theorem GetExpectations_active (s : ExpectationsService) (now : Int) :
    s.GetExpectations { Status := some "active" } now =
      (s.expectations.filter (fun e => e.IsActive now)).map Expectation.Copy := by
  simp [ExpectationsService.GetExpectations]

theorem GetExpectations_expired (s : ExpectationsService) (now : Int) :
    s.GetExpectations { Status := some "expired" } now =
      (s.expectations.filter (fun e => !e.IsActive now)).map Expectation.Copy := by
  simp [ExpectationsService.GetExpectations]

theorem map_Copy (l : List Expectation) : l.map Expectation.Copy = l := by
  induction l with
  | nil => rfl
  | cons x xs ih => simp [Copy_eq, ih]

/-- C13: at one instant the listing with status `active` is the stored
expectations that are active and the listing with status `expired` those that
are not, each in insertion order (a sublist of the unfiltered listing). The two
listings together are a rearrangement of the unfiltered listing, so every stored
expectation is in exactly one of them; no expectation is in both, and with
unique ids no id is in both. -/
theorem GetExpectations_partition (s : ExpectationsService) (now : Int) :
    s.GetExpectations { Status := some "active" } now =
        (s.expectations.filter (fun e => e.IsActive now)).map Expectation.Copy ∧
      s.GetExpectations { Status := some "expired" } now =
        (s.expectations.filter (fun e => !e.IsActive now)).map Expectation.Copy ∧
      (s.GetExpectations { Status := some "active" } now).Sublist
        (s.GetExpectations { Status := none } now) ∧
      (s.GetExpectations { Status := some "expired" } now).Sublist
        (s.GetExpectations { Status := none } now) ∧
      (s.GetExpectations { Status := some "active" } now ++
          s.GetExpectations { Status := some "expired" } now).Perm
        (s.GetExpectations { Status := none } now) ∧
      (∀ e ∈ s.expectations,
        (e.Copy ∈ s.GetExpectations { Status := some "active" } now ∧
          e.Copy ∉ s.GetExpectations { Status := some "expired" } now) ∨
        (e.Copy ∉ s.GetExpectations { Status := some "active" } now ∧
          e.Copy ∈ s.GetExpectations { Status := some "expired" } now)) ∧
      (∀ a ∈ s.GetExpectations { Status := some "active" } now,
        ∀ b ∈ s.GetExpectations { Status := some "expired" } now, a ≠ b) ∧
      ((s.expectations.map (fun e => e.ID)).Nodup →
        ∀ a ∈ s.GetExpectations { Status := some "active" } now,
          ∀ b ∈ s.GetExpectations { Status := some "expired" } now, a.ID ≠ b.ID) := by
  have hnone : s.GetExpectations { Status := none } now = s.expectations := by
    simp [ExpectationsService.GetExpectations, map_Copy]
  rw [GetExpectations_active, GetExpectations_expired, hnone, map_Copy, map_Copy]
  refine ⟨rfl, rfl, List.filter_sublist _, List.filter_sublist _, ?_, ?_, ?_, ?_⟩
  · exact List.filter_append_perm _ _
  · intro e he
    rw [Copy_eq]
    cases h : e.IsActive now
    · right
      simp [List.mem_filter, he, h]
    · left
      simp [List.mem_filter, he, h]
  · intro a ha b hb hab
    simp only [List.mem_filter] at ha hb
    rw [hab] at ha
    simp [ha.2] at hb
  · intro hnd a ha b hb hab
    simp only [List.mem_filter] at ha hb
    have : a = b := by
      have hinj := List.inj_on_of_nodup_map hnd
      exact hinj ha.1 hb.1 hab
    rw [this] at ha
    simp [ha.2] at hb

/-- C14: `Create` puts the expectation at the end of the stored list and leaves
the stored ones and the assertion log as they were; `GetExpectations` without a
status returns the copy of every stored expectation in insertion order; so after
`Create e` the unfiltered listing is the earlier listing followed by the copy of
`e`. -/
theorem Create_appends (s : ExpectationsService) (e : Expectation) (now : Int) :
    (s.Create e).expectations = s.expectations ++ [e] ∧
      (∀ i, i < s.expectations.length → (s.Create e).expectations[i]? = s.expectations[i]?) ∧
      (s.Create e).assertions.list = s.assertions.list ∧
      s.GetExpectations { Status := none } now = s.expectations.map Expectation.Copy ∧
      (s.Create e).GetExpectations { Status := none } now =
        s.GetExpectations { Status := none } now ++ [e.Copy] := by
  refine ⟨rfl, ?_, rfl, rfl, ?_⟩
  · intro i hi
    simp [ExpectationsService.Create, List.getElem?_append_left hi]
  · simp [ExpectationsService.GetExpectations, ExpectationsService.Create]

/-- C15: `GetAssertions` with an expectation id returns the assertions of the log
that carry an expectation with that id, whatever the status field; without an
id, with status `matched` it returns those that carry an expectation, with
status `unmatched` those that carry none, and otherwise the whole log. Every
result is a sublist of the log (chronological order), and the matched and the
unmatched results together are a rearrangement of the log with nothing in
common. -/
theorem GetAssertions_filter (s : ExpectationsService) (id : Nat) (status : Option String)
    (incl : List String) :
    s.GetAssertions { ExpectationID := some id, Status := status, Include := incl } =
        s.assertions.list.filter (fun a =>
          match a.Expectation with
          | none => false
          | some exp => decide (exp.ID = id)) ∧
      s.GetAssertions { ExpectationID := none, Status := some "matched", Include := incl } =
        s.assertions.list.filter (fun a => a.Expectation.isSome) ∧
      s.GetAssertions { ExpectationID := none, Status := some "unmatched", Include := incl } =
        s.assertions.list.filter (fun a => a.Expectation.isNone) ∧
      (status ≠ some "matched" → status ≠ some "unmatched" →
        s.GetAssertions { ExpectationID := none, Status := status, Include := incl } =
          s.assertions.list) ∧
      (∀ req, (s.GetAssertions req).Sublist s.assertions.list) ∧
      (s.GetAssertions { ExpectationID := none, Status := some "matched", Include := incl } ++
          s.GetAssertions { ExpectationID := none, Status := some "unmatched", Include := incl }).Perm
        s.assertions.list ∧
      (∀ a ∈ s.GetAssertions { ExpectationID := none, Status := some "matched", Include := incl },
        a.Expectation.isSome = true ∧
        ∀ b ∈ s.GetAssertions
            { ExpectationID := none, Status := some "unmatched", Include := incl },
          b.Expectation = none) := by
  have hm : s.GetAssertions { ExpectationID := none, Status := some "matched", Include := incl } =
      s.assertions.list.filter (fun a => a.Expectation.isSome) := by
    simp [ExpectationsService.GetAssertions, Assertions.GetMatched]
  have hu : s.GetAssertions { ExpectationID := none, Status := some "unmatched", Include := incl } =
      s.assertions.list.filter (fun a => a.Expectation.isNone) := by
    simp [ExpectationsService.GetAssertions, Assertions.GetUnmatched]
  refine ⟨rfl, hm, hu, ?_, ?_, ?_, ?_⟩
  · intro h1 h2
    cases status with
    | none => rfl
    | some st =>
      have e1 : ¬ st = "matched" := fun h => h1 (by rw [h])
      have e2 : ¬ st = "unmatched" := fun h => h2 (by rw [h])
      simp [ExpectationsService.GetAssertions, e1, e2, Assertions.GetAll]
  · intro req
    unfold ExpectationsService.GetAssertions
    cases req.ExpectationID with
    | some i => exact List.filter_sublist _
    | none =>
      cases req.Status with
      | none => exact List.Sublist.refl _
      | some st =>
        simp only []
        split
        · exact List.filter_sublist _
        · split
          · exact List.filter_sublist _
          · exact List.Sublist.refl _
  · rw [hm, hu]
    have := List.filter_append_perm (fun a : Assertion => a.Expectation.isSome) s.assertions.list
    have e : (fun a : Assertion => a.Expectation.isNone) =
        (fun a : Assertion => !a.Expectation.isSome) := by
      funext a
      cases a.Expectation <;> rfl
    rw [e]
    exact this
  · rw [hm, hu]
    intro a ha
    simp only [List.mem_filter] at ha
    refine ⟨ha.2, ?_⟩
    intro b hb
    simp only [List.mem_filter] at hb
    exact Option.isNone_iff_eq_none.1 hb.2

end Expectations

/-! ## Constructors and options -/

namespace Expectations

theorem apply_of_valid (o : ExpectationOption) (e : Expectation) (h : o.invalid = none) :
    ∃ e', o.apply e = Except.ok e' ∧
      e'.Times = (match o.usage with | some t => some t | none => e.Times) ∧
      e'.Priority = (match o.priority with | some p => p | none => e.Priority) ∧
      e'.TimeToLive = (match o.timeToLive with | some t => some t | none => e.TimeToLive) ∧
      e'.ID = e.ID ∧ e'.Request = e.Request ∧ e'.Response = e.Response ∧
      e'.CreatedAt = e.CreatedAt := by
  cases o with
  | WithPriority p => exact ⟨_, rfl, rfl, rfl, rfl, rfl, rfl, rfl, rfl⟩
  | WithLimitedTimes n =>
    simp only [ExpectationOption.invalid] at h
    have hn : ¬ n < 1 := by
      intro hlt
      simp [hlt] at h
    simp only [ExpectationOption.apply, hn, if_false]
    exact ⟨_, rfl, rfl, rfl, rfl, rfl, rfl, rfl, rfl⟩
  | WithUnlimitedTimes => exact ⟨_, rfl, rfl, rfl, rfl, rfl, rfl, rfl, rfl⟩
  | WithTimeToLive d =>
    simp only [ExpectationOption.invalid] at h
    have hd : ¬ d ≤ 0 := by
      intro hle
      simp [hle] at h
    simp only [ExpectationOption.apply, hd, if_false]
    exact ⟨_, rfl, rfl, rfl, rfl, rfl, rfl, rfl, rfl⟩

theorem apply_of_invalid (o : ExpectationOption) (e : Expectation) (err : Error)
    (h : o.invalid = some err) : o.apply e = Except.error err := by
  cases o with
  | WithPriority p => simp [ExpectationOption.invalid] at h
  | WithLimitedTimes n =>
    simp only [ExpectationOption.invalid] at h
    by_cases hn : n < 1
    · simp only [hn, if_true, Option.some.injEq] at h
      simp [ExpectationOption.apply, hn, h]
    · simp [hn] at h
  | WithUnlimitedTimes => simp [ExpectationOption.invalid] at h
  | WithTimeToLive d =>
    simp only [ExpectationOption.invalid] at h
    by_cases hd : d ≤ 0
    · simp only [hd, if_true, Option.some.injEq] at h
      simp [ExpectationOption.apply, hd, h]
    · simp [hd] at h

theorem applyOptions_error_iff (opts : List ExpectationOption) :
    ∀ (e : Expectation) (err : Error),
      applyOptions opts e = Except.error err ↔
        (opts.filterMap ExpectationOption.invalid).head? = some err := by
  induction opts with
  | nil =>
    intro e err
    simp [applyOptions]
  | cons o rest ih =>
    intro e err
    cases hinv : o.invalid with
    | none =>
      obtain ⟨e', he', _⟩ := apply_of_valid o e hinv
      simp only [applyOptions, he', List.filterMap_cons, hinv]
      exact ih e' err
    | some err0 =>
      have := apply_of_invalid o e err0 hinv
      simp only [applyOptions, this, List.filterMap_cons, hinv, List.head?_cons,
        Option.some.injEq, Except.error.injEq]

theorem applyOptions_ok (opts : List ExpectationOption) :
    ∀ (e : Expectation), (∀ o ∈ opts, o.invalid = none) →
      ∃ e', applyOptions opts e = Except.ok e' ∧
        e'.Times = (match (opts.filterMap ExpectationOption.usage).getLast? with
          | some t => some t
          | none => e.Times) ∧
        e'.Priority = (match (opts.filterMap ExpectationOption.priority).getLast? with
          | some p => p
          | none => e.Priority) ∧
        e'.TimeToLive = (match (opts.filterMap ExpectationOption.timeToLive).getLast? with
          | some t => some t
          | none => e.TimeToLive) ∧
        e'.ID = e.ID ∧ e'.Request = e.Request ∧ e'.Response = e.Response ∧
        e'.CreatedAt = e.CreatedAt := by
  induction opts with
  | nil =>
    intro e _
    exact ⟨e, rfl, rfl, rfl, rfl, rfl, rfl, rfl, rfl⟩
  | cons o rest ih =>
    intro e hv
    obtain ⟨e1, h1, t1, p1, l1, i1, q1, r1, c1⟩ :=
      apply_of_valid o e (hv o (List.mem_cons_self _ _))
    obtain ⟨e2, h2, t2, p2, l2, i2, q2, r2, c2⟩ :=
      ih e1 (fun x hx => hv x (List.mem_cons_of_mem _ hx))
    refine ⟨e2, by simp only [applyOptions, h1]; exact h2, ?_, ?_, ?_, by rw [i2, i1],
      by rw [q2, q1], by rw [r2, r1], by rw [c2, c1]⟩
    · rw [t2, t1, List.filterMap_cons]
      cases hu : o.usage with
      | none => rfl
      | some t =>
        simp only [List.getLast?_cons]
        cases (List.filterMap ExpectationOption.usage rest).getLast? <;> rfl
    · rw [p2, p1, List.filterMap_cons]
      cases hu : o.priority with
      | none => rfl
      | some t =>
        simp only [List.getLast?_cons]
        cases (List.filterMap ExpectationOption.priority rest).getLast? <;> rfl
    · rw [l2, l1, List.filterMap_cons]
      cases hu : o.timeToLive with
      | none => rfl
      | some t =>
        simp only [List.getLast?_cons]
        cases (List.filterMap ExpectationOption.timeToLive rest).getLast? <;> rfl

/-- C16: `NewExpectation` returns the error `err` if and only if `err` is the
error of the first option of the list that is a limited-usage option with a
count below 1 (`ErrBadRequestTimes`) or a TTL option with a duration that is not
positive (`ErrTTLMustBeGreaterThanZero`); it returns an expectation if and only
if the list holds no such option. -/
theorem NewExpectation_error_iff (id : Nat) (now : Int) (req : Request) (res : Response)
    (opts : List ExpectationOption) :
    (∀ err, NewExpectation id now req res opts = Except.error err ↔
      (opts.filterMap ExpectationOption.invalid).head? = some err) ∧
    ((∃ e, NewExpectation id now req res opts = Except.ok e) ↔
      ∀ o ∈ opts, o.invalid = none) ∧
    ((∃ err, NewExpectation id now req res opts = Except.error err) ↔
      ∃ o ∈ opts, (∃ n, o = ExpectationOption.WithLimitedTimes n ∧ n < 1) ∨
        (∃ d, o = ExpectationOption.WithTimeToLive d ∧ d ≤ 0)) ∧
    (∀ o err, o.invalid = some err ↔
      (∃ n, o = ExpectationOption.WithLimitedTimes n ∧ n < 1 ∧ err = Error.ErrBadRequestTimes) ∨
        (∃ d, o = ExpectationOption.WithTimeToLive d ∧ d ≤ 0 ∧
          err = Error.ErrTTLMustBeGreaterThanZero)) := by
  have hinv : ∀ (o : ExpectationOption) (err : Error), o.invalid = some err ↔
      (∃ n, o = ExpectationOption.WithLimitedTimes n ∧ n < 1 ∧ err = Error.ErrBadRequestTimes) ∨
        (∃ d, o = ExpectationOption.WithTimeToLive d ∧ d ≤ 0 ∧
          err = Error.ErrTTLMustBeGreaterThanZero) := by
    intro o err
    cases o with
    | WithPriority p => simp [ExpectationOption.invalid]
    | WithLimitedTimes n =>
      by_cases hn : n < 1
      · simp [ExpectationOption.invalid, hn, eq_comm]
        intro _
        omega
      · simp [ExpectationOption.invalid, hn]
        intro h0
        omega
    | WithUnlimitedTimes => simp [ExpectationOption.invalid]
    | WithTimeToLive d =>
      by_cases hd : d ≤ 0
      · simp [ExpectationOption.invalid, hd, eq_comm]
      · simp [ExpectationOption.invalid, hd]
  have herr := fun err => applyOptions_error_iff opts
    { ID := id, Request := req, Response := res, Priority := 0,
      Times := some { RemainingTimes := 1, Unlimited := false }, TimeToLive := none,
      CreatedAt := now } err
  have hhead : ∀ err, (opts.filterMap ExpectationOption.invalid).head? = some err →
      ∃ o ∈ opts, o.invalid = some err := by
    intro err h
    have hm : err ∈ opts.filterMap ExpectationOption.invalid := List.mem_of_mem_head? h
    obtain ⟨o, ho, hoe⟩ := List.mem_filterMap.1 hm
    exact ⟨o, ho, hoe⟩
  have hsome : (∃ o ∈ opts, ∃ err, o.invalid = some err) →
      ∃ err, (opts.filterMap ExpectationOption.invalid).head? = some err := by
    rintro ⟨o, ho, err, hoe⟩
    have hm : err ∈ opts.filterMap ExpectationOption.invalid :=
      List.mem_filterMap.2 ⟨o, ho, hoe⟩
    cases hl : opts.filterMap ExpectationOption.invalid with
    | nil => rw [hl] at hm; simp at hm
    | cons x xs => exact ⟨x, rfl⟩
  refine ⟨herr, ?_, ?_, hinv⟩
  · constructor
    · rintro ⟨e, he⟩ o ho
      cases hoi : o.invalid with
      | none => rfl
      | some err0 =>
        obtain ⟨err, herr'⟩ := hsome ⟨o, ho, err0, hoi⟩
        have := (herr err).2 herr'
        unfold NewExpectation at he
        rw [he] at this
        simp at this
    · intro hv
      obtain ⟨e', he', _⟩ := applyOptions_ok opts
        { ID := id, Request := req, Response := res, Priority := 0,
          Times := some { RemainingTimes := 1, Unlimited := false }, TimeToLive := none,
          CreatedAt := now } hv
      exact ⟨e', he'⟩
  · constructor
    · rintro ⟨err, he⟩
      obtain ⟨o, ho, hoe⟩ := hhead err ((herr err).1 he)
      refine ⟨o, ho, ?_⟩
      rcases (hinv o err).1 hoe with ⟨n, h1, h2, _⟩ | ⟨d, h1, h2, _⟩
      · exact Or.inl ⟨n, h1, h2⟩
      · exact Or.inr ⟨d, h1, h2⟩
    · rintro ⟨o, ho, h⟩
      have : ∃ err, o.invalid = some err := by
        rcases h with ⟨n, h1, h2⟩ | ⟨d, h1, h2⟩
        · exact ⟨_, (hinv o _).2 (Or.inl ⟨n, h1, h2, rfl⟩)⟩
        · exact ⟨_, (hinv o _).2 (Or.inr ⟨d, h1, h2, rfl⟩)⟩
      obtain ⟨err0, hoe⟩ := this
      obtain ⟨err, herr'⟩ := hsome ⟨o, ho, err0, hoe⟩
      exact ⟨err, (herr err).2 herr'⟩

/-- C17: for a list of valid options `NewExpectation` returns an expectation
whose usage is that of the last limited or unlimited option (limited with one
use when there is none), whose priority is that of the last priority option (0
when there is none) and whose TTL is that of the last TTL option (absent when
there is none); id, request, response and creation time are the arguments. -/
theorem NewExpectation_last_option_wins (id : Nat) (now : Int) (req : Request)
    (res : Response) (opts : List ExpectationOption)
    (hvalid : ∀ o ∈ opts, o.invalid = none) :
    ∃ e, NewExpectation id now req res opts = Except.ok e ∧
      e.Times = some (((opts.filterMap ExpectationOption.usage).getLast?).getD
        { RemainingTimes := 1, Unlimited := false }) ∧
      e.Priority = ((opts.filterMap ExpectationOption.priority).getLast?).getD 0 ∧
      e.TimeToLive = (opts.filterMap ExpectationOption.timeToLive).getLast? ∧
      e.ID = id ∧ e.Request = req ∧ e.Response = res ∧ e.CreatedAt = now := by
  obtain ⟨e, he, t, p, l, i, q, r, c⟩ := applyOptions_ok opts
    { ID := id, Request := req, Response := res, Priority := 0,
      Times := some { RemainingTimes := 1, Unlimited := false }, TimeToLive := none,
      CreatedAt := now } hvalid
  refine ⟨e, he, ?_, ?_, ?_, i, q, r, c⟩
  · rw [t]
    cases (opts.filterMap ExpectationOption.usage).getLast? <;> rfl
  · rw [p]
    cases (opts.filterMap ExpectationOption.priority).getLast? <;> rfl
  · rw [l]
    cases (opts.filterMap ExpectationOption.timeToLive).getLast? <;> rfl

/-- Witness for C17: six valid options, two of each kind in mixed order. -/
theorem NewExpectation_last_option_wins_witness :
    (∀ o ∈ [ExpectationOption.WithLimitedTimes 2, ExpectationOption.WithPriority 1,
        ExpectationOption.WithUnlimitedTimes, ExpectationOption.WithTimeToLive 60,
        ExpectationOption.WithPriority 7, ExpectationOption.WithLimitedTimes 3],
      o.invalid = none) ∧
    ∃ e, NewExpectation 5 100 (sampleExpectation 1 [] 0).Request { Body := [98] }
        [ExpectationOption.WithLimitedTimes 2, ExpectationOption.WithPriority 1,
          ExpectationOption.WithUnlimitedTimes, ExpectationOption.WithTimeToLive 60,
          ExpectationOption.WithPriority 7, ExpectationOption.WithLimitedTimes 3] =
        Except.ok e ∧
      e.Times = some (((([ExpectationOption.WithLimitedTimes 2, ExpectationOption.WithPriority 1,
          ExpectationOption.WithUnlimitedTimes, ExpectationOption.WithTimeToLive 60,
          ExpectationOption.WithPriority 7, ExpectationOption.WithLimitedTimes 3] :
            List ExpectationOption).filterMap ExpectationOption.usage).getLast?).getD
        { RemainingTimes := 1, Unlimited := false }) ∧
      e.Priority = ((([ExpectationOption.WithLimitedTimes 2, ExpectationOption.WithPriority 1,
          ExpectationOption.WithUnlimitedTimes, ExpectationOption.WithTimeToLive 60,
          ExpectationOption.WithPriority 7, ExpectationOption.WithLimitedTimes 3] :
            List ExpectationOption).filterMap ExpectationOption.priority).getLast?).getD 0 ∧
      e.TimeToLive = (([ExpectationOption.WithLimitedTimes 2, ExpectationOption.WithPriority 1,
          ExpectationOption.WithUnlimitedTimes, ExpectationOption.WithTimeToLive 60,
          ExpectationOption.WithPriority 7, ExpectationOption.WithLimitedTimes 3] :
            List ExpectationOption).filterMap ExpectationOption.timeToLive).getLast? ∧
      e.ID = 5 ∧ e.Request = (sampleExpectation 1 [] 0).Request ∧
      e.Response = { Body := [98] } ∧ e.CreatedAt = 100 :=
  ⟨by decide,
    NewExpectation_last_option_wins 5 100 (sampleExpectation 1 [] 0).Request { Body := [98] }
      [ExpectationOption.WithLimitedTimes 2, ExpectationOption.WithPriority 1,
        ExpectationOption.WithUnlimitedTimes, ExpectationOption.WithTimeToLive 60,
        ExpectationOption.WithPriority 7, ExpectationOption.WithLimitedTimes 3] (by decide)⟩

/-- C18: `NewCandidate` and `NewRequest` fail with `ErrEmptyExchange` exactly
when the exchange is empty, fail with `ErrEmptyRoutingKey` exactly when the
exchange is not empty and the routing key is, and otherwise return the value
holding the three arguments unchanged; the body may be empty. -/
theorem NewCandidate_NewRequest_validation (exchange rk : String) (body : Bytes)
    (cmp : Option BodyComparator) :
    (NewCandidate exchange rk body = Except.error Error.ErrEmptyExchange ↔ exchange = "") ∧
    (NewCandidate exchange rk body = Except.error Error.ErrEmptyRoutingKey ↔
      exchange ≠ "" ∧ rk = "") ∧
    (NewCandidate exchange rk body =
        Except.ok { Exchange := exchange, RoutingKey := rk, Body := body } ↔
      exchange ≠ "" ∧ rk ≠ "") ∧
    (∀ err, NewCandidate exchange rk body = Except.error err →
      err = Error.ErrEmptyExchange ∨ err = Error.ErrEmptyRoutingKey) ∧
    (NewRequest exchange rk cmp = Except.error Error.ErrEmptyExchange ↔ exchange = "") ∧
    (NewRequest exchange rk cmp = Except.error Error.ErrEmptyRoutingKey ↔
      exchange ≠ "" ∧ rk = "") ∧
    ((∃ r, NewRequest exchange rk cmp = Except.ok r ∧ r.Exchange = exchange ∧
        r.RoutingKey = rk ∧ r.BodyComparator = cmp) ↔ exchange ≠ "" ∧ rk ≠ "") ∧
    (∀ err, NewRequest exchange rk cmp = Except.error err →
      err = Error.ErrEmptyExchange ∨ err = Error.ErrEmptyRoutingKey) ∧
    NewCandidate "exchange" "rk" [] =
      Except.ok { Exchange := "exchange", RoutingKey := "rk", Body := [] } := by
  unfold NewCandidate NewRequest
  by_cases hx : exchange = ""
  · simp [hx]
  · by_cases hr : rk = ""
    · simp [hx, hr]
    · simp [hx, hr]

/-- C19, the claim fails: `NewRequest` with a nil comparator, as the package's
own test calls it, returns a request and no error, and `Matches` on that request
panics for a candidate with the same exchange and routing key. -/
theorem NewRequest_accepts_nil_comparator :
    ∃ r, NewRequest "exchange" "rk" none = Except.ok r ∧ r.BodyComparator.isNone = true ∧
      r.Matches { Exchange := "exchange", RoutingKey := "rk", Body := [] } = none :=
  ⟨{ Exchange := "exchange", RoutingKey := "rk", BodyComparator := none }, rfl, rfl, rfl⟩

/-- C19 as amended: `NewRequest` stores the comparator it is given, present or
absent, and fails only on an empty exchange or routing key; `Matches` on a
request it returned with a comparator present returns a boolean for every
candidate. -/
theorem NewRequest_keeps_comparator (exchange rk : String) (cmp : Option BodyComparator)
    (r : Request) (h : NewRequest exchange rk cmp = Except.ok r) :
    exchange ≠ "" ∧ rk ≠ "" ∧
      r.Exchange = exchange ∧ r.RoutingKey = rk ∧ r.BodyComparator = cmp ∧
      (∃ r', NewRequest exchange rk none = Except.ok r' ∧ r'.BodyComparator = none) ∧
      (∀ c, cmp = some c → ∀ cnd : Candidate,
        r.Matches cnd =
          some (decide (exchange = cnd.Exchange) && decide (rk = cnd.RoutingKey) &&
            c.Match cnd.Body)) := by
  unfold NewRequest at h ⊢
  by_cases hx : exchange = ""
  · simp [hx] at h
  · by_cases hr : rk = ""
    · simp [hx, hr] at h
    · simp only [hx, hr, if_false, Except.ok.injEq] at h
      subst h
      refine ⟨hx, hr, rfl, rfl, rfl,
        ⟨{ Exchange := exchange, RoutingKey := rk, BodyComparator := none },
          by simp [hx, hr], rfl⟩, ?_⟩
      intro c hc cnd
      subst hc
      unfold Request.Matches
      by_cases h1 : exchange = cnd.Exchange
      · by_cases h2 : rk = cnd.RoutingKey
        · simp [h1, h2]
        · simp [h1, h2]
      · simp [h1]

/-- Witness for the amended C19: a request built with the comparator
`regexEmpty`. -/
theorem NewRequest_keeps_comparator_witness :
    NewRequest "exchange" "rk" (some regexEmpty) =
        Except.ok { Exchange := "exchange", RoutingKey := "rk",
                    BodyComparator := some regexEmpty } ∧
      ("exchange" ≠ "" ∧ "rk" ≠ "" ∧
        ({ Exchange := "exchange", RoutingKey := "rk",
           BodyComparator := some regexEmpty } : Request).Exchange = "exchange" ∧
        ({ Exchange := "exchange", RoutingKey := "rk",
           BodyComparator := some regexEmpty } : Request).RoutingKey = "rk" ∧
        ({ Exchange := "exchange", RoutingKey := "rk",
           BodyComparator := some regexEmpty } : Request).BodyComparator = some regexEmpty ∧
        (∃ r', NewRequest "exchange" "rk" none = Except.ok r' ∧ r'.BodyComparator = none) ∧
        (∀ c, some regexEmpty = some c → ∀ cnd : Candidate,
          ({ Exchange := "exchange", RoutingKey := "rk",
             BodyComparator := some regexEmpty } : Request).Matches cnd =
            some (decide ("exchange" = cnd.Exchange) && decide ("rk" = cnd.RoutingKey) &&
              c.Match cnd.Body))) :=
  ⟨rfl, NewRequest_keeps_comparator "exchange" "rk" (some regexEmpty)
    { Exchange := "exchange", RoutingKey := "rk", BodyComparator := some regexEmpty } rfl⟩

end Expectations

/-! ## The JSON body comparator -/

namespace Comparators

open Expectations

theorem MapIndex_isSome (m : List (String × JSONValue)) (key : String) :
    (MapIndex m key).isSome = true ↔ key ∈ m.map Prod.fst := by
  induction m with
  | nil => simp [MapIndex]
  | cons x rest ih =>
    obtain ⟨k, v⟩ := x
    simp only [MapIndex, List.map_cons, List.mem_cons]
    by_cases hk : k = key
    · simp [hk]
    · simp only [hk, if_false, ih]
      constructor
      · exact Or.inr
      · rintro (h | h)
        · exact absurd h.symm hk
        · exact h

theorem MapIndex_wellFormed (m : List (String × JSONValue)) (key : String) (v : JSONValue)
    (hm : WellFormedFields m) (h : MapIndex m key = some v) : v.WellFormed := by
  induction m with
  | nil => simp [MapIndex] at h
  | cons x rest ih =>
    obtain ⟨k, w⟩ := x
    simp only [WellFormedFields] at hm
    simp only [MapIndex] at h
    by_cases hk : k = key
    · simp only [hk, if_true, Option.some.injEq] at h
      rw [← h]
      exact hm.1
    · simp only [hk, if_false] at h
      exact ih hm.2 h

theorem StructEqFields_keys (m1 m2 : List (String × JSONValue)) (h : StructEqFields m1 m2) :
    m1.map Prod.fst ⊆ m2.map Prod.fst := by
  induction m1 with
  | nil => simp
  | cons x rest ih =>
    obtain ⟨k, v⟩ := x
    simp only [StructEqFields] at h
    intro key hkey
    simp only [List.map_cons, List.mem_cons] at hkey
    rcases hkey with hkey | hkey
    · rw [hkey]
      apply (MapIndex_isSome m2 k).1
      cases hm : MapIndex m2 k with
      | none => rw [hm] at h; exact absurd h.1 (by simp)
      | some v2 => rfl
    · exact ih h.2 hkey

theorem same_keys_iff_length (m1 m2 : List (String × JSONValue))
    (h1 : (m1.map Prod.fst).Nodup) (h2 : (m2.map Prod.fst).Nodup)
    (hsub : m1.map Prod.fst ⊆ m2.map Prod.fst) :
    m1.length = m2.length ↔ ∀ key, (MapIndex m1 key).isSome = (MapIndex m2 key).isSome := by
  have hiff : (∀ key, (MapIndex m1 key).isSome = (MapIndex m2 key).isSome) ↔
      ∀ key, key ∈ m1.map Prod.fst ↔ key ∈ m2.map Prod.fst := by
    constructor
    · intro h key
      rw [← MapIndex_isSome, ← MapIndex_isSome, h key]
    · intro h key
      have := h key
      rw [← MapIndex_isSome, ← MapIndex_isSome] at this
      cases ha : (MapIndex m1 key).isSome <;> cases hb : (MapIndex m2 key).isSome <;>
        simp [ha, hb] at this ⊢
  rw [hiff]
  constructor
  · intro hlen
    have hsp : (m1.map Prod.fst).Subperm (m2.map Prod.fst) := List.subperm_of_subset h1 hsub
    have hp : (m1.map Prod.fst).Perm (m2.map Prod.fst) :=
      hsp.perm_of_length_le (by simp [hlen])
    exact fun key => hp.mem_iff
  · intro h
    have hp : (m1.map Prod.fst).Perm (m2.map Prod.fst) := (List.perm_ext_iff_of_nodup h1 h2).2 h
    simpa using hp.length_eq

mutual
theorem DeepEqual_iff_StructEq : (a b : JSONValue) → a.WellFormed → b.WellFormed →
    (DeepEqual a b = true ↔ StructEq a b)
  | JSONValue.array xs, JSONValue.array ys, ha, hb => by
    simp only [DeepEqual, StructEq]
    simp only [JSONValue.WellFormed] at ha hb
    exact DeepEqualSlice_iff_StructEqArray xs ys ha hb
  | JSONValue.object m1, JSONValue.object m2, ha, hb => by
    simp only [DeepEqual, StructEq, Bool.and_eq_true, beq_iff_eq]
    simp only [JSONValue.WellFormed] at ha hb
    have hf := DeepEqualMap_iff_StructEqFields m1 m2 ha.2 hb.2
    rw [hf]
    constructor
    · rintro ⟨hlen, hfields⟩
      exact ⟨(same_keys_iff_length m1 m2 ha.1 hb.1 (StructEqFields_keys m1 m2 hfields)).1 hlen,
        hfields⟩
    · rintro ⟨hkeys, hfields⟩
      exact ⟨(same_keys_iff_length m1 m2 ha.1 hb.1 (StructEqFields_keys m1 m2 hfields)).2 hkeys,
        hfields⟩
  | JSONValue.null, b, _, _ => by cases b <;> simp [DeepEqual, StructEq]
  | JSONValue.bool x, b, _, _ => by cases b <;> simp [DeepEqual, StructEq]
  | JSONValue.number x, b, _, _ => by cases b <;> simp [DeepEqual, StructEq]
  | JSONValue.string x, b, _, _ => by cases b <;> simp [DeepEqual, StructEq]
  | JSONValue.array xs, JSONValue.null, _, _ => by simp [DeepEqual, StructEq]
  | JSONValue.array xs, JSONValue.bool _, _, _ => by simp [DeepEqual, StructEq]
  | JSONValue.array xs, JSONValue.number _, _, _ => by simp [DeepEqual, StructEq]
  | JSONValue.array xs, JSONValue.string _, _, _ => by simp [DeepEqual, StructEq]
  | JSONValue.array xs, JSONValue.object _, _, _ => by simp [DeepEqual, StructEq]
  | JSONValue.object m, JSONValue.null, _, _ => by simp [DeepEqual, StructEq]
  | JSONValue.object m, JSONValue.bool _, _, _ => by simp [DeepEqual, StructEq]
  | JSONValue.object m, JSONValue.number _, _, _ => by simp [DeepEqual, StructEq]
  | JSONValue.object m, JSONValue.string _, _, _ => by simp [DeepEqual, StructEq]
  | JSONValue.object m, JSONValue.array _, _, _ => by simp [DeepEqual, StructEq]
theorem DeepEqualSlice_iff_StructEqArray : (xs ys : List JSONValue) → WellFormedItems xs →
    WellFormedItems ys → (DeepEqualSlice xs ys = true ↔ StructEqArray xs ys)
  | [], [], _, _ => by simp [DeepEqualSlice, StructEqArray]
  | [], _ :: _, _, _ => by simp [DeepEqualSlice, StructEqArray]
  | _ :: _, [], _, _ => by simp [DeepEqualSlice, StructEqArray]
  | x :: xs, y :: ys, hx, hy => by
    simp only [WellFormedItems] at hx hy
    simp only [DeepEqualSlice, StructEqArray, Bool.and_eq_true]
    rw [DeepEqual_iff_StructEq x y hx.1 hy.1, DeepEqualSlice_iff_StructEqArray xs ys hx.2 hy.2]
theorem DeepEqualMap_iff_StructEqFields : (m1 m2 : List (String × JSONValue)) →
    WellFormedFields m1 → WellFormedFields m2 →
    (DeepEqualMap m1 m2 = true ↔ StructEqFields m1 m2)
  | [], _, _, _ => by simp [DeepEqualMap, StructEqFields]
  | (k, v1) :: rest, m2, h1, h2 => by
    simp only [WellFormedFields] at h1
    simp only [DeepEqualMap, StructEqFields, Bool.and_eq_true]
    rw [DeepEqualMap_iff_StructEqFields rest m2 h1.2 h2]
    cases hm : MapIndex m2 k with
    | none => simp
    | some v2 =>
      simp only []
      rw [DeepEqual_iff_StructEq v1 v2 h1.1 (MapIndex_wellFormed m2 k v2 h2 hm)]
end

end Comparators

namespace Comparators

open Expectations

theorem MapIndex_mem (m : List (String × JSONValue)) (key : String) (v : JSONValue)
    (h : MapIndex m key = some v) : (key, v) ∈ m := by
  induction m with
  | nil => simp [MapIndex] at h
  | cons x rest ih =>
    obtain ⟨k, w⟩ := x
    simp only [MapIndex] at h
    by_cases hk : k = key
    · simp only [hk, if_true, Option.some.injEq] at h
      simp [hk, h]
    · simp only [hk, if_false] at h
      exact List.mem_cons_of_mem _ (ih h)

theorem MapIndex_of_mem (m : List (String × JSONValue)) (key : String) (v : JSONValue)
    (hnd : (m.map Prod.fst).Nodup) (h : (key, v) ∈ m) : MapIndex m key = some v := by
  induction m with
  | nil => simp at h
  | cons x rest ih =>
    obtain ⟨k, w⟩ := x
    simp only [List.map_cons, List.nodup_cons] at hnd
    simp only [MapIndex]
    rcases List.mem_cons.1 h with heq | hmem
    · simp only [Prod.mk.injEq] at heq
      simp [heq.1, heq.2]
    · have hne : k ≠ key := by
        intro hk
        apply hnd.1
        rw [hk]
        exact List.mem_map.2 ⟨(key, v), hmem, rfl⟩
      simp only [hne, if_false]
      exact ih hnd.2 hmem

theorem WellFormedFields_mem (m : List (String × JSONValue)) (x : String × JSONValue)
    (hm : WellFormedFields m) (h : x ∈ m) : x.2.WellFormed := by
  induction m with
  | nil => simp at h
  | cons y rest ih =>
    obtain ⟨k, w⟩ := y
    simp only [WellFormedFields] at hm
    rcases List.mem_cons.1 h with heq | hmem
    · rw [heq]
      exact hm.1
    · exact ih hm.2 hmem

theorem StructEqFields_iff (m1 m2 : List (String × JSONValue)) :
    StructEqFields m1 m2 ↔
      ∀ x ∈ m1, ∃ v2, MapIndex m2 x.1 = some v2 ∧ StructEq x.2 v2 := by
  induction m1 with
  | nil => simp [StructEqFields]
  | cons y rest ih =>
    obtain ⟨k, v1⟩ := y
    simp only [StructEqFields, ih, List.mem_cons, forall_eq_or_imp]
    cases hm : MapIndex m2 k with
    | none => simp
    | some v2 => simp

theorem StructEqArray_iff_pointwise (xs ys : List JSONValue) :
    StructEqArray xs ys ↔ List.Forall₂ StructEq xs ys := by
  induction xs generalizing ys with
  | nil => cases ys <;> simp [StructEqArray]
  | cons x xs ih => cases ys <;> simp [StructEqArray, ih]

theorem MapIndex_perm (m m' : List (String × JSONValue)) (hnd : (m.map Prod.fst).Nodup)
    (hp : m.Perm m') (key : String) : MapIndex m key = MapIndex m' key := by
  have hnd' : (m'.map Prod.fst).Nodup := (hp.map Prod.fst).nodup_iff.1 hnd
  cases h : MapIndex m key with
  | some v =>
    exact (MapIndex_of_mem m' key v hnd' (hp.mem_iff.1 (MapIndex_mem m key v h))).symm
  | none =>
    cases h' : MapIndex m' key with
    | none => rfl
    | some v =>
      have := MapIndex_of_mem m key v hnd (hp.mem_iff.2 (MapIndex_mem m' key v h'))
      rw [h] at this
      exact this

/-- Structural equality of objects does not look at the order of the keys: permuting the
entries of either object leaves it unchanged. -/
theorem StructEq_object_perm (m1 m1' m2 m2' : List (String × JSONValue))
    (hnd : (m2.map Prod.fst).Nodup) (h1 : m1.Perm m1') (h2 : m2.Perm m2') :
    StructEq (JSONValue.object m1) (JSONValue.object m2) ↔
      StructEq (JSONValue.object m1') (JSONValue.object m2') := by
  have hidx : ∀ key, MapIndex m2 key = MapIndex m2' key := MapIndex_perm m2 m2' hnd h2
  have hkeys : ∀ key, (MapIndex m1 key).isSome = (MapIndex m1' key).isSome := by
    intro key
    have h := (h1.map Prod.fst).mem_iff (a := key)
    rw [← MapIndex_isSome, ← MapIndex_isSome] at h
    cases ha : (MapIndex m1 key).isSome <;> cases hb : (MapIndex m1' key).isSome <;>
      simp [ha, hb] at h ⊢
  simp only [StructEq, StructEqFields_iff]
  constructor
  · rintro ⟨hk, hf⟩
    refine ⟨fun key => by rw [← hkeys, hk, hidx], fun x hx => ?_⟩
    obtain ⟨v2, hv, hs⟩ := hf x (h1.mem_iff.2 hx)
    exact ⟨v2, by rw [← hidx, hv], hs⟩
  · rintro ⟨hk, hf⟩
    refine ⟨fun key => by rw [hkeys, hk, hidx], fun x hx => ?_⟩
    obtain ⟨v2, hv, hs⟩ := hf x (h1.mem_iff.1 hx)
    exact ⟨v2, by rw [hidx, hv], hs⟩

mutual
theorem StructEq_symm : (a b : JSONValue) → b.WellFormed → StructEq a b → StructEq b a
  | JSONValue.array xs, JSONValue.array ys, hb, h => by
    simp only [StructEq] at h ⊢
    simp only [JSONValue.WellFormed] at hb
    exact StructEqArray_symm xs ys hb h
  | JSONValue.object m1, JSONValue.object m2, hb, h => by
    simp only [JSONValue.WellFormed] at hb
    simp only [StructEq, StructEqFields_iff] at h ⊢
    obtain ⟨hk, hf⟩ := h
    refine ⟨fun key => (hk key).symm, fun x hx => ?_⟩
    have hsome : (MapIndex m1 x.1).isSome = true := by
      rw [hk, MapIndex_isSome]
      exact List.mem_map.2 ⟨x, hx, rfl⟩
    obtain ⟨v1, hv1⟩ := Option.isSome_iff_exists.1 hsome
    have hmem := MapIndex_mem m1 x.1 v1 hv1
    obtain ⟨v2, hv2, hs⟩ := hf (x.1, v1) hmem
    have hx2 : MapIndex m2 x.1 = some x.2 := MapIndex_of_mem m2 x.1 x.2 hb.1 hx
    simp only [hx2, Option.some.injEq] at hv2
    subst hv2
    exact ⟨v1, hv1, StructEq_symm_fields m1 (x.1, v1) hmem x.2
      (WellFormedFields_mem m2 x hb.2 hx) hs⟩
  | JSONValue.null, b, _, h => by cases b <;> simp_all [StructEq]
  | JSONValue.bool x, b, _, h => by
    cases b <;> simp_all [StructEq]
  | JSONValue.number x, b, _, h => by
    cases b <;> simp_all [StructEq]
  | JSONValue.string x, b, _, h => by
    cases b <;> simp_all [StructEq]
  | JSONValue.array xs, JSONValue.null, _, h => by simp [StructEq] at h
  | JSONValue.array xs, JSONValue.bool _, _, h => by simp [StructEq] at h
  | JSONValue.array xs, JSONValue.number _, _, h => by simp [StructEq] at h
  | JSONValue.array xs, JSONValue.string _, _, h => by simp [StructEq] at h
  | JSONValue.array xs, JSONValue.object _, _, h => by simp [StructEq] at h
  | JSONValue.object m, JSONValue.null, _, h => by simp [StructEq] at h
  | JSONValue.object m, JSONValue.bool _, _, h => by simp [StructEq] at h
  | JSONValue.object m, JSONValue.number _, _, h => by simp [StructEq] at h
  | JSONValue.object m, JSONValue.string _, _, h => by simp [StructEq] at h
  | JSONValue.object m, JSONValue.array _, _, h => by simp [StructEq] at h
theorem StructEqArray_symm : (xs ys : List JSONValue) → WellFormedItems ys →
    StructEqArray xs ys → StructEqArray ys xs
  | [], [], _, _ => by simp [StructEqArray]
  | [], _ :: _, _, h => by simp [StructEqArray] at h
  | _ :: _, [], _, h => by simp [StructEqArray] at h
  | x :: xs, y :: ys, hy, h => by
    simp only [WellFormedItems] at hy
    simp only [StructEqArray] at h ⊢
    exact ⟨StructEq_symm x y hy.1 h.1, StructEqArray_symm xs ys hy.2 h.2⟩
theorem StructEq_symm_fields : (m1 : List (String × JSONValue)) → (x : String × JSONValue) →
    x ∈ m1 → (v2 : JSONValue) → v2.WellFormed → StructEq x.2 v2 → StructEq v2 x.2
  | [], _, hx, _, _, _ => by simp at hx
  | (k, v1) :: rest, x, hx, v2, hv2, h => by
    by_cases heq : x = (k, v1)
    · subst heq
      exact StructEq_symm v1 v2 hv2 h
    · have hmem : x ∈ rest := by
        rcases List.mem_cons.1 hx with h1 | h1
        · exact absurd h1 heq
        · exact h1
      exact StructEq_symm_fields rest x hmem v2 hv2 h
end

end Comparators

namespace Comparators

open Expectations

/-- The deep comparison on two objects that list the same fields in different orders. -/
theorem DeepEqual_key_order_example :
    DeepEqual
      (JSONValue.object [("a", JSONValue.number 1), ("c", JSONValue.object [("d", JSONValue.number 3)])])
      (JSONValue.object [("c", JSONValue.object [("d", JSONValue.number 3)]), ("a", JSONValue.number 1)])
      = true := by
  decide

/-- The deep comparison on two arrays that hold the same items in different orders. -/
theorem DeepEqual_array_order_example :
    DeepEqual (JSONValue.array [JSONValue.number 1, JSONValue.number 2])
      (JSONValue.array [JSONValue.number 2, JSONValue.number 1]) = false := by
  decide

theorem matchStrict_iff (lib : JSONLib) (b : JSONBody) (p : Bytes) :
    b.matchStrict lib p = true ↔ StructEq (lib.Unmarshal b.Body) (lib.Unmarshal p) := by
  simp only [JSONBody.matchStrict]
  exact DeepEqual_iff_StructEq _ _ (lib.unmarshal_wellFormed _) (lib.unmarshal_wellFormed _)

theorem Match_invalid (lib : JSONLib) (b : JSONBody) (p : Bytes) (h : lib.Valid p = false) :
    b.Match lib p = false := by
  simp [JSONBody.Match, h]

/-- C20: for an exact JSON comparator with body e and every payload p, Match returns true exactly
when p is valid JSON and the decoded payload is structurally equal to the decoded body, whichever
of the two is taken first; a payload that is not valid JSON is rejected by every comparator,
exact, partial or other; and NewJSONBody builds this comparator from a valid body and fails on an
invalid one. -/
theorem JSONBody_exact_Match_iff (lib : JSONLib) (e p : Bytes) :
    (JSONBody.Match lib { Body := e, MatchType := MatchTypeExact } p = true ↔
      lib.Valid p = true ∧ StructEq (lib.Unmarshal p) (lib.Unmarshal e)) ∧
    (JSONBody.Match lib { Body := e, MatchType := MatchTypeExact } p = true ↔
      lib.Valid p = true ∧ StructEq (lib.Unmarshal e) (lib.Unmarshal p)) ∧
    (∀ b : JSONBody, lib.Valid p = false → JSONBody.Match lib b p = false) ∧
    NewJSONBody lib e MatchTypeExact =
      (if lib.Valid e = true then Except.ok { Body := e, MatchType := MatchTypeExact }
       else Except.error (Error.message "invalid json body")) := by
  have hmain : JSONBody.Match lib { Body := e, MatchType := MatchTypeExact } p = true ↔
      lib.Valid p = true ∧ StructEq (lib.Unmarshal e) (lib.Unmarshal p) := by
    cases hv : lib.Valid p with
    | false => simp [JSONBody.Match, hv]
    | true =>
      have := matchStrict_iff lib { Body := e, MatchType := MatchTypeExact } p
      simp only [JSONBody.Match, hv, Bool.not_true, Bool.false_eq_true, if_false, if_true,
        true_and]
      exact this
  refine ⟨?_, hmain, fun b h => Match_invalid lib b p h, ?_⟩
  · rw [hmain]
    constructor
    · rintro ⟨hv, hs⟩
      exact ⟨hv, StructEq_symm _ _ (lib.unmarshal_wellFormed _) hs⟩
    · rintro ⟨hv, hs⟩
      exact ⟨hv, StructEq_symm _ _ (lib.unmarshal_wellFormed _) hs⟩
  · cases hv : lib.Valid e <;> simp [NewJSONBody, hv]

end Comparators

namespace Comparators

open Expectations

/-- The exact cases of `TestJSONBody_Equal` on the tabulated library, and the same body against
a payload that lists its keys in another order. -/
theorem JSONBody_Match_testdata :
    JSONBody.Match testdataJSONLib { Body := docA1, MatchType := MatchTypeExact } docA1 = true ∧
    JSONBody.Match testdataJSONLib { Body := docA1, MatchType := MatchTypeExact } docA2 = false ∧
    JSONBody.Match testdataJSONLib { Body := docA1, MatchType := MatchTypeExact } docFoo = false ∧
    JSONBody.Match testdataJSONLib { Body := docA1, MatchType := MatchTypePartial } docFoo = false ∧
    JSONBody.Match testdataJSONLib { Body := docA1, MatchType := MatchTypeExact } docA1Reordered
      = true := by
  decide

end Comparators

/-! ## The frame of `Match` -/

namespace Expectations

theorem Use_unlimited_flag (e : Expectation) :
    e.Use.Times.map (fun t => t.Unlimited) = e.Times.map (fun t => t.Unlimited) := by
  rw [Use_Times]
  cases e.Times with
  | none => rfl
  | some t =>
    by_cases hu : t.Unlimited = true
    · simp [hu]
    · simp [hu]

/-- C30: on a well-formed registry `Match` returns, and the stored list after the
call has the length and the ids, position by position, of the list before it.
When nil is returned the stored list is the list before the call. When a response
is returned there is one position `i`, holding the expectation `e` whose response
it is, such that the list after the call is the list before it with `e.Use` at
position `i`: every other position holds what it held, and `e.Use` has the id,
request, response, TTL, priority, creation time and unlimited flag of `e`, so that
it differs from `e` in the remaining count at most. -/
theorem Match_changes_at_most_one (s : ExpectationsService) (cnd : Candidate) (now : Int)
    (hwf : s.WellFormed) :
    ∃ (s' : ExpectationsService) (r : Option Response), s.Match cnd now = some (s', r) ∧
      s'.expectations.length = s.expectations.length ∧
      s'.expectations.map (fun e => e.ID) = s.expectations.map (fun e => e.ID) ∧
      (r = none → s'.expectations = s.expectations) ∧
      (∀ resp, r = some resp →
        ∃ (i : Nat) (e : Expectation), s.expectations[i]? = some e ∧ e.Response = resp ∧
          s'.expectations = s.expectations.set i e.Use ∧
          s'.expectations[i]? = some e.Use ∧
          (∀ j, j ≠ i → s'.expectations[j]? = s.expectations[j]?) ∧
          e.Use.ID = e.ID ∧ e.Use.Request = e.Request ∧ e.Use.Response = e.Response ∧
          e.Use.TimeToLive = e.TimeToLive ∧ e.Use.Priority = e.Priority ∧
          e.Use.CreatedAt = e.CreatedAt ∧
          e.Use.Times.map (fun t => t.Unlimited) = e.Times.map (fun t => t.Unlimited)) := by
  rcases Match_spec s cnd now hwf with ⟨_, h1⟩ | ⟨i, e, h1, _, _, h4⟩
  · refine ⟨_, _, h1, rfl, rfl, fun _ => rfl, ?_⟩
    intro resp hr
    simp at hr
  · have hi : i < s.expectations.length := by
      by_contra hn
      rw [List.getElem?_eq_none (by omega)] at h1
      simp at h1
    have hget : s.expectations[i] = e := by
      rw [List.getElem?_eq_getElem hi] at h1
      simpa using h1
    refine ⟨_, _, h4, by simp, ?_, fun h => by simp at h, ?_⟩
    · simp only []
      apply List.ext_getElem?
      intro j
      simp only [List.getElem?_map, List.getElem?_set]
      by_cases hj : i = j
      · subst hj
        simp [hi, h1, Use_ID]
      · simp [hj]
    · intro resp hr
      simp only [Option.some.injEq] at hr
      refine ⟨i, e, h1, hr, rfl, by simp [List.getElem?_set, hi], ?_, Use_ID e, Use_Request e,
        Use_Response e, Use_TimeToLive e, Use_Priority e, Use_CreatedAt e, Use_unlimited_flag e⟩
      intro j hj
      simp only [List.getElem?_set]
      simp [Ne.symm hj]

/-- Witness for C30: in scenario A the call returns and changes the second stored
expectation only. -/
theorem Match_changes_at_most_one_witness :
    scenarioA.WellFormed ∧
    ∃ (s' : ExpectationsService) (r : Option Response),
      scenarioA.Match sampleCandidate 0 = some (s', r) ∧
      s'.expectations.length = scenarioA.expectations.length ∧
      s'.expectations.map (fun e => e.ID) = scenarioA.expectations.map (fun e => e.ID) ∧
      (r = none → s'.expectations = scenarioA.expectations) ∧
      (∀ resp, r = some resp →
        ∃ (i : Nat) (e : Expectation), scenarioA.expectations[i]? = some e ∧ e.Response = resp ∧
          s'.expectations = scenarioA.expectations.set i e.Use ∧
          s'.expectations[i]? = some e.Use ∧
          (∀ j, j ≠ i → s'.expectations[j]? = scenarioA.expectations[j]?) ∧
          e.Use.ID = e.ID ∧ e.Use.Request = e.Request ∧ e.Use.Response = e.Response ∧
          e.Use.TimeToLive = e.TimeToLive ∧ e.Use.Priority = e.Priority ∧
          e.Use.CreatedAt = e.CreatedAt ∧
          e.Use.Times.map (fun t => t.Unlimited) = e.Times.map (fun t => t.Unlimited)) :=
  ⟨by decide, Match_changes_at_most_one scenarioA sampleCandidate 0 (by decide)⟩

end Expectations

/-! ## Listener stop and the map of listeners -/

namespace Amqp

open Expectations Subscriptions

theorem lookup_delete_self {χ : Type} (m : ListenerMap χ) (id : Nat) :
    (ListenerMap.delete m id).lookup id = none := by
  induction m with
  | nil => rfl
  | cons x rest ih =>
    obtain ⟨k, lst⟩ := x
    unfold ListenerMap.delete at ih ⊢
    by_cases hk : k = id
    · simpa [List.filter_cons, hk] using ih
    · simp only [List.filter_cons, ne_eq, hk, not_false_eq_true, decide_True, if_true]
      simp only [ListenerMap.lookup, hk, if_false]
      exact ih

theorem lookup_delete_ne {χ : Type} (m : ListenerMap χ) (id other : Nat) (h : other ≠ id) :
    (ListenerMap.delete m id).lookup other = m.lookup other := by
  induction m with
  | nil => rfl
  | cons x rest ih =>
    obtain ⟨k, lst⟩ := x
    unfold ListenerMap.delete at ih ⊢
    by_cases hk : k = id
    · have hko : ¬ k = other := fun e => h (e ▸ hk)
      simp only [List.filter_cons, ne_eq, hk, not_true_eq_false, decide_False,
        Bool.false_eq_true, if_false]
      rw [ih]
      simp [ListenerMap.lookup, hk ▸ hko]
    · simp only [List.filter_cons, ne_eq, hk, not_false_eq_true, decide_True, if_true]
      simp only [ListenerMap.lookup]
      rw [ih]

theorem lookup_isSome_iff {χ : Type} (m : ListenerMap χ) (id : Nat) :
    (m.lookup id).isSome = true ↔ id ∈ m.map Prod.fst := by
  induction m with
  | nil => simp [ListenerMap.lookup]
  | cons x rest ih =>
    obtain ⟨k, lst⟩ := x
    simp only [ListenerMap.lookup, List.map_cons, List.mem_cons]
    by_cases hk : k = id
    · simp [hk]
    · simp only [hk, if_false, ih]
      constructor
      · exact Or.inr
      · rintro (h | h)
        · exact absurd h.symm hk
        · exact h

theorem lookup_mem {χ : Type} (m : ListenerMap χ) (id : Nat) (lst : amqpListener χ)
    (h : m.lookup id = some lst) : (id, lst) ∈ m := by
  induction m with
  | nil => simp [ListenerMap.lookup] at h
  | cons x rest ih =>
    obtain ⟨k, l⟩ := x
    simp only [ListenerMap.lookup] at h
    by_cases hk : k = id
    · simp only [hk, if_true, Option.some.injEq] at h
      simp [hk, h]
    · simp only [hk, if_false] at h
      exact List.mem_cons_of_mem _ (ih h)

theorem delete_of_not_mem {χ : Type} (m : ListenerMap χ) (id : Nat)
    (h : id ∉ m.map Prod.fst) : ListenerMap.delete m id = m := by
  unfold ListenerMap.delete
  rw [List.filter_eq_self]
  intro entry he
  have : entry.1 ≠ id := fun e => h (e ▸ List.mem_map_of_mem Prod.fst he)
  simpa using this

theorem length_delete {χ : Type} (m : ListenerMap χ) (id : Nat)
    (hnd : (m.map Prod.fst).Nodup) (h : id ∈ m.map Prod.fst) :
    (ListenerMap.delete m id).length + 1 = m.length := by
  induction m with
  | nil => simp at h
  | cons x rest ih =>
    obtain ⟨k, lst⟩ := x
    simp only [List.map_cons, List.nodup_cons] at hnd
    by_cases hk : k = id
    · have hrest : ListenerMap.delete rest id = rest := delete_of_not_mem rest id (hk ▸ hnd.1)
      have : ListenerMap.delete ((k, lst) :: rest) id = ListenerMap.delete rest id := by
        unfold ListenerMap.delete
        simp [List.filter_cons, hk]
      rw [this, hrest]
      rfl
    · have hin : id ∈ rest.map Prod.fst := by
        simp only [List.map_cons, List.mem_cons] at h
        rcases h with h | h
        · exact absurd h.symm hk
        · exact h
      have : ListenerMap.delete ((k, lst) :: rest) id = (k, lst) :: ListenerMap.delete rest id := by
        unfold ListenerMap.delete
        simp [List.filter_cons, hk]
      rw [this]
      simp only [List.length_cons]
      have := ih hnd.2 hin
      omega

theorem Unsubscribe_absent {χ : Type} (b : Broker χ) (c : Consumer χ) (id : Nat)
    (h : c.listeners.lookup id = none) : c.Unsubscribe b id = (c, none) := by
  simp [Consumer.Unsubscribe, h]

theorem Unsubscribe_present {χ : Type} (b : Broker χ) (c : Consumer χ) (id : Nat)
    (lst : amqpListener χ) (h : c.listeners.lookup id = some lst) (hs : (lst.stop b).2 = none) :
    c.Unsubscribe b id = ({ listeners := c.listeners.delete id }, none) := by
  simp [Consumer.Unsubscribe, h, hs]

theorem stop_of_ErrClosed {χ : Type} (b : Broker χ) (l : amqpListener χ)
    (h : errorsIs (b.Close l.channel).2 Err.ErrClosed = true) :
    l.stop b = ({ l with channel := (b.Close l.channel).1 }, none) := by
  simp [amqpListener.stop, h]

theorem stop_of_not_ErrClosed {χ : Type} (b : Broker χ) (l : amqpListener χ)
    (h : errorsIs (b.Close l.channel).2 Err.ErrClosed = false) :
    l.stop b = ({ l with channel := (b.Close (b.Close l.channel).1).1 },
      (b.Close (b.Close l.channel).1).2) := by
  simp [amqpListener.stop, h]

/-- C27: with a library whose `Close` returns no error on a channel that a `Close` has
left closed, `stop` returns no error on every listener, whether its channel is open or
already closed and whatever the first `Close` returned, and a second `stop` right after
a first returns no error too; `stop` leaves the subscription of the listener as it was.
For every library, when the first `Close` reports `amqp.ErrClosed`, `stop` does not call
`Close` again and returns no error. -/
theorem stop_returns_no_error {χ : Type} (b : Broker χ) (l : amqpListener χ)
    (hquiet : ∀ ch, (b.Close (b.Close ch).1).2 = none) :
    (l.stop b).2 = none ∧
    ((l.stop b).1.stop b).2 = none ∧
    (l.stop b).1.subscription = l.subscription ∧
    ((l.stop b).1.stop b).1.subscription = l.subscription ∧
    (∀ b2 : Broker χ, errorsIs (b2.Close l.channel).2 Err.ErrClosed = true →
      l.stop b2 = ({ l with channel := (b2.Close l.channel).1 }, none)) := by
  have hstop : ∀ x : amqpListener χ,
      (x.stop b).2 = none ∧ (x.stop b).1.subscription = x.subscription := by
    intro x
    cases h : errorsIs (b.Close x.channel).2 Err.ErrClosed with
    | true =>
      rw [stop_of_ErrClosed b x h]
      exact ⟨rfl, rfl⟩
    | false =>
      rw [stop_of_not_ErrClosed b x h]
      exact ⟨hquiet x.channel, rfl⟩
  refine ⟨(hstop l).1, (hstop _).1, (hstop l).2, ?_, fun b2 h => stop_of_ErrClosed b2 l h⟩
  rw [(hstop _).2, (hstop l).2]

/-- Witness for C27: the broker `closeQuiet`, a listener on an open channel and a
listener on a closed one. -/
theorem stop_returns_no_error_witness :
    (∀ ch, (closeQuiet.Close (closeQuiet.Close ch).1).2 = none) ∧
    (openListener 1 "q").stop closeQuiet = (closedListener 1 "q", none) ∧
    (closedListener 1 "q").stop closeQuiet = (closedListener 1 "q", none) ∧
    ((openListener 1 "q").stop closeQuiet).2 = none ∧
    (((openListener 1 "q").stop closeQuiet).1.stop closeQuiet).2 = none ∧
    ((openListener 1 "q").stop closeQuiet).1.subscription = (openListener 1 "q").subscription ∧
    (((openListener 1 "q").stop closeQuiet).1.stop closeQuiet).1.subscription =
      (openListener 1 "q").subscription ∧
    (∀ b2 : Broker ChannelState,
      errorsIs (b2.Close (openListener 1 "q").channel).2 Err.ErrClosed = true →
      (openListener 1 "q").stop b2 =
        ({ openListener 1 "q" with channel := (b2.Close (openListener 1 "q").channel).1 },
          none)) :=
  ⟨fun _ => rfl, rfl, rfl, stop_returns_no_error closeQuiet (openListener 1 "q") (fun _ => rfl)⟩

/-- C23: `Unsubscribe` of an id that is not in the map returns no error and the
consumer as it was. For an id in the map whose listener stops without error it returns
no error and the map without the entry of that id: the id is no longer in the map, every
other id is mapped as before, and the map has one entry less. In both cases a second
`Unsubscribe` of the same id right after the first returns no error and leaves the
consumer as the first call left it. -/
theorem Unsubscribe_idempotent {χ : Type} (b : Broker χ) (c : Consumer χ) (id : Nat) :
    (c.listeners.lookup id = none → c.Unsubscribe b id = (c, none)) ∧
    (∀ lst, c.listeners.lookup id = some lst → (lst.stop b).2 = none →
      c.Unsubscribe b id = ({ listeners := c.listeners.delete id }, none) ∧
      (c.Unsubscribe b id).1.listeners = c.listeners.filter (fun entry => decide (entry.1 ≠ id)) ∧
      (c.Unsubscribe b id).1.listeners.lookup id = none ∧
      (∀ other, other ≠ id →
        (c.Unsubscribe b id).1.listeners.lookup other = c.listeners.lookup other) ∧
      ((c.listeners.map Prod.fst).Nodup →
        (c.Unsubscribe b id).1.listeners.length + 1 = c.listeners.length)) ∧
    ((c.listeners.lookup id = none ∨
        ∃ lst, c.listeners.lookup id = some lst ∧ (lst.stop b).2 = none) →
      (c.Unsubscribe b id).2 = none ∧
      (c.Unsubscribe b id).1.Unsubscribe b id = ((c.Unsubscribe b id).1, none)) := by
  refine ⟨Unsubscribe_absent b c id, ?_, ?_⟩
  · intro lst h hs
    have hu := Unsubscribe_present b c id lst h hs
    rw [hu]
    refine ⟨rfl, rfl, lookup_delete_self _ _, fun other ho => lookup_delete_ne _ _ _ ho, ?_⟩
    intro hnd
    apply length_delete _ _ hnd
    rw [← lookup_isSome_iff, h]
    rfl
  · rintro (h | ⟨lst, h, hs⟩)
    · rw [Unsubscribe_absent b c id h]
      exact ⟨rfl, Unsubscribe_absent b c id h⟩
    · rw [Unsubscribe_present b c id lst h hs]
      exact ⟨rfl, Unsubscribe_absent b _ id (lookup_delete_self _ _)⟩

end Amqp

namespace Amqp

open Expectations Subscriptions

/-- The two calls of C23 on the sample consumer, with a broker whose `Close` returns
no error. -/
theorem Unsubscribe_sample :
    ((sampleConsumer.Unsubscribe closeQuiet 1).1.listeners.map Prod.fst) = [2, 3] ∧
    (sampleConsumer.Unsubscribe closeQuiet 1).2 = none ∧
    (((sampleConsumer.Unsubscribe closeQuiet 1).1.Unsubscribe closeQuiet 1).1.listeners.map
      Prod.fst) = [2, 3] ∧
    ((sampleConsumer.Unsubscribe closeQuiet 1).1.Unsubscribe closeQuiet 1).2 = none ∧
    ((sampleConsumer.Unsubscribe closeQuiet 7).1.listeners.map Prod.fst) = [1, 2, 3] ∧
    (sampleConsumer.Unsubscribe closeQuiet 7).2 = none := by
  decide

theorem unsubscribeFromQueueLoop_spec {χ : Type} (b : Broker χ) (queue : String)
    (snap : List (Nat × amqpListener χ)) (m : ListenerMap χ)
    (hstop : ∀ entry ∈ snap, (entry.2.stop b).2 = none) :
    unsubscribeFromQueueLoop b queue snap m =
      (m.filter (fun entry => decide (entry.1 ∉
        (snap.filter (fun x => decide (x.2.subscription.Queue = queue))).map Prod.fst)), none) := by
  induction snap generalizing m with
  | nil => simp [unsubscribeFromQueueLoop]
  | cons x rest ih =>
    obtain ⟨id, lst⟩ := x
    have hrest : ∀ entry ∈ rest, (entry.2.stop b).2 = none :=
      fun entry he => hstop entry (List.mem_cons_of_mem _ he)
    have hx : (lst.stop b).2 = none := hstop (id, lst) (List.mem_cons_self _ _)
    simp only [unsubscribeFromQueueLoop]
    by_cases hq : lst.subscription.Queue = queue
    · simp only [hq, if_true, hx]
      rw [ih _ hrest]
      simp only [ListenerMap.delete, List.filter_filter, List.filter_cons, hq, decide_True,
        if_true, List.map_cons, List.mem_cons, not_or]
      congr 1
      apply List.filter_congr
      intro entry _
      by_cases h1 : entry.1 = id <;> simp [h1]
    · have hf : ((id, lst) :: rest).filter (fun x => decide (x.2.subscription.Queue = queue)) =
          rest.filter (fun x => decide (x.2.subscription.Queue = queue)) := by
        rw [List.filter_cons]
        simp [hq]
      simp only [hq, if_false]
      rw [ih _ hrest, hf]

theorem mem_unique_of_nodup_keys {χ : Type} (m : ListenerMap χ)
    (hnd : (m.map Prod.fst).Nodup) (x y : Nat × amqpListener χ) (hx : x ∈ m) (hy : y ∈ m)
    (h : x.1 = y.1) : x = y := by
  induction m with
  | nil => simp at hx
  | cons z rest ih =>
    simp only [List.map_cons, List.nodup_cons] at hnd
    rcases List.mem_cons.1 hx with hx | hx <;> rcases List.mem_cons.1 hy with hy | hy
    · rw [hx, hy]
    · exfalso
      apply hnd.1
      rw [← hx, h]
      exact List.mem_map_of_mem Prod.fst hy
    · exfalso
      apply hnd.1
      rw [← hy, ← h]
      exact List.mem_map_of_mem Prod.fst hx
    · exact ih hnd.2 hx hy

theorem UnsubscribeFromQueue_eq {χ : Type} (b : Broker χ)
    (o : RangeOrder (Nat × amqpListener χ)) (c : Consumer χ) (queue : String)
    (hnd : (c.listeners.map Prod.fst).Nodup)
    (hstop : ∀ entry ∈ c.listeners, (entry.2.stop b).2 = none) :
    c.UnsubscribeFromQueue b o queue =
      ({ listeners := c.listeners.filter
          (fun entry => decide (entry.2.subscription.Queue ≠ queue)) }, none) := by
  have hmem : ∀ entry, entry ∈ o.iter c.listeners ↔ entry ∈ c.listeners :=
    fun entry => (o.perm c.listeners).mem_iff
  have hs : ∀ entry ∈ o.iter c.listeners, (entry.2.stop b).2 = none :=
    fun entry he => hstop entry ((hmem entry).1 he)
  simp only [Consumer.UnsubscribeFromQueue]
  rw [unsubscribeFromQueueLoop_spec b queue _ _ hs]
  simp only [Prod.mk.injEq, and_true]
  congr 1
  apply List.filter_congr
  intro entry he
  by_cases hq : entry.2.subscription.Queue = queue
  · have : entry.1 ∈ ((o.iter c.listeners).filter
        (fun x => decide (x.2.subscription.Queue = queue))).map Prod.fst := by
      apply List.mem_map.2
      exact ⟨entry, List.mem_filter.2 ⟨(hmem entry).2 he, by simpa using hq⟩, rfl⟩
    simp [this, hq]
  · have : entry.1 ∉ ((o.iter c.listeners).filter
        (fun x => decide (x.2.subscription.Queue = queue))).map Prod.fst := by
      intro hin
      obtain ⟨y, hy, hy1⟩ := List.mem_map.1 hin
      obtain ⟨hy2, hy3⟩ := List.mem_filter.1 hy
      have := mem_unique_of_nodup_keys c.listeners hnd y entry ((hmem y).1 hy2) he hy1
      rw [this] at hy3
      exact hq (by simpa using hy3)
    simp [this, hq]

/-- C24: when the keys of the map are distinct and every listener stops without error,
`UnsubscribeFromQueue`, whatever the order of its loop, returns no error and leaves the
map with exactly the entries whose subscription names another queue, each as it was.
Afterwards `GetQueueSubscriptions` of the queue is empty, that of any other queue is a
rearrangement of what it was, and `GetAllSubscriptions` is a rearrangement of the earlier
subscriptions without those of the queue. -/
theorem UnsubscribeFromQueue_removes_queue {χ : Type} (b : Broker χ)
    (o : RangeOrder (Nat × amqpListener χ)) (c : Consumer χ) (queue : String)
    (hwf : c.WellFormed)
    (hstop : ∀ entry ∈ c.listeners, (entry.2.stop b).2 = none) :
    (c.UnsubscribeFromQueue b o queue).2 = none ∧
    (c.UnsubscribeFromQueue b o queue).1.listeners =
      c.listeners.filter (fun entry => decide (entry.2.subscription.Queue ≠ queue)) ∧
    (∀ entry, entry ∈ (c.UnsubscribeFromQueue b o queue).1.listeners ↔
      entry ∈ c.listeners ∧ entry.2.subscription.Queue ≠ queue) ∧
    (∀ o2, (c.UnsubscribeFromQueue b o queue).1.GetQueueSubscriptions o2 queue = []) ∧
    (∀ o1 o2 other, other ≠ queue →
      ((c.UnsubscribeFromQueue b o queue).1.GetQueueSubscriptions o2 other).Perm
        (c.GetQueueSubscriptions o1 other)) ∧
    (∀ o1 o2, ((c.UnsubscribeFromQueue b o queue).1.GetAllSubscriptions o2).Perm
      ((c.GetAllSubscriptions o1).filter (fun sub => decide (sub.Queue ≠ queue)))) := by
  rw [UnsubscribeFromQueue_eq b o c queue hwf.1 hstop]
  refine ⟨rfl, rfl, ?_, ?_, ?_, ?_⟩
  · intro entry
    simp [List.mem_filter]
  · intro o2
    simp only [Consumer.GetQueueSubscriptions, List.map_eq_nil_iff, List.filter_eq_nil_iff]
    intro entry he
    have := (o2.perm _).mem_iff.1 he
    simp only [List.mem_filter, ne_eq, decide_not, Bool.not_eq_true', decide_eq_false_iff_not]
      at this
    simpa using this.2
  · intro o1 o2 other hne
    simp only [Consumer.GetQueueSubscriptions]
    apply List.Perm.map
    refine ((o2.perm _).filter _).trans ?_
    refine List.Perm.trans ?_ ((o1.perm _).filter _).symm
    rw [List.filter_filter]
    apply List.Perm.of_eq
    apply List.filter_congr
    intro entry _
    by_cases h1 : entry.2.subscription.Queue = other
    · simp [h1, hne]
    · simp [h1]
  · intro o1 o2
    simp only [Consumer.GetAllSubscriptions]
    refine ((o2.perm _).map _).trans ?_
    refine List.Perm.trans ?_ (((o1.perm _).map _).filter _).symm
    apply List.Perm.of_eq
    rw [List.filter_map]
    rfl

/-- Witness for C24: the sample consumer, a broker whose `Close` returns no error, the
queue `q`, the loop running backwards. -/
theorem UnsubscribeFromQueue_removes_queue_witness :
    sampleConsumer.WellFormed ∧
    (∀ entry ∈ sampleConsumer.listeners, (entry.2.stop closeQuiet).2 = none) ∧
    ((sampleConsumer.UnsubscribeFromQueue closeQuiet (RangeOrder.backward _) "q").1.listeners.map
      Prod.fst) = [3] ∧
    (sampleConsumer.UnsubscribeFromQueue closeQuiet (RangeOrder.backward _) "q").2 = none ∧
    (sampleConsumer.UnsubscribeFromQueue closeQuiet (RangeOrder.backward _) "q").1.listeners =
      sampleConsumer.listeners.filter (fun entry => decide (entry.2.subscription.Queue ≠ "q")) :=
  ⟨by decide, by decide, by decide, by decide,
    (UnsubscribeFromQueue_removes_queue closeQuiet (RangeOrder.backward _) sampleConsumer "q"
      (by decide) (by decide)).2.1⟩

end Amqp

namespace Amqp

open Expectations Subscriptions

theorem store_of_not_mem {χ : Type} (m : ListenerMap χ) (id : Nat) (lst : amqpListener χ)
    (h : id ∉ m.map Prod.fst) : ListenerMap.store m id lst = m ++ [(id, lst)] := by
  induction m with
  | nil => rfl
  | cons x rest ih =>
    obtain ⟨k, old⟩ := x
    simp only [List.map_cons, List.mem_cons, not_or] at h
    have hk : ¬ k = id := fun e => h.1 e.symm
    simp only [ListenerMap.store, hk, if_false, List.cons_append]
    rw [ih h.2]

theorem filter_store {χ : Type} (m : ListenerMap χ) (id : Nat) (lst : amqpListener χ)
    (queue : String) (hq : lst.subscription.Queue = queue)
    (hm : ∀ entry ∈ m, entry.2.subscription.Queue ≠ queue) :
    (ListenerMap.store m id lst).filter (fun entry => decide (entry.2.subscription.Queue = queue))
      = [(id, lst)] := by
  induction m with
  | nil => simp [ListenerMap.store, hq]
  | cons x rest ih =>
    obtain ⟨k, old⟩ := x
    have hold : old.subscription.Queue ≠ queue := hm (k, old) (List.mem_cons_self _ _)
    have hrest : ∀ entry ∈ rest, entry.2.subscription.Queue ≠ queue :=
      fun entry he => hm entry (List.mem_cons_of_mem _ he)
    simp only [ListenerMap.store]
    by_cases hk : k = id
    · simp only [hk, if_true, List.filter_cons, hq, decide_True]
      rw [List.filter_eq_nil_iff.2]
      intro entry he
      simpa using hrest entry he
    · simp only [hk, if_false, List.filter_cons, hold, decide_False, Bool.false_eq_true]
      exact ih hrest

theorem GetQueueSubscriptions_nil_iff {χ : Type} (o : RangeOrder (Nat × amqpListener χ))
    (c : Consumer χ) (queue : String) :
    c.GetQueueSubscriptions o queue = [] ↔
      ∀ entry ∈ c.listeners, entry.2.subscription.Queue ≠ queue := by
  simp only [Consumer.GetQueueSubscriptions, List.map_eq_nil_iff, List.filter_eq_nil_iff]
  constructor
  · intro h entry he
    simpa using h entry ((o.perm _).mem_iff.2 he)
  · intro h entry he
    simpa using h entry ((o.perm _).mem_iff.1 he)

theorem GetQueueSubscriptions_mem {χ : Type} (o : RangeOrder (Nat × amqpListener χ))
    (c : Consumer χ) (queue : String) (sub : Subscription)
    (h : sub ∈ c.GetQueueSubscriptions o queue) :
    sub.Queue = queue ∧ ∃ entry ∈ c.listeners, entry.2.subscription = sub := by
  simp only [Consumer.GetQueueSubscriptions, List.mem_map, List.mem_filter,
    decide_eq_true_eq] at h
  obtain ⟨entry, ⟨he, hq⟩, hs⟩ := h
  exact ⟨hs ▸ hq, entry, (o.perm _).mem_iff.1 he, hs⟩

theorem GetQueueSubscriptions_perm {χ : Type} (o1 o2 : RangeOrder (Nat × amqpListener χ))
    (c : Consumer χ) (queue : String) :
    (c.GetQueueSubscriptions o1 queue).Perm (c.GetQueueSubscriptions o2 queue) := by
  simp only [Consumer.GetQueueSubscriptions]
  apply List.Perm.map
  exact ((o1.perm _).filter _).trans ((o2.perm _).filter _).symm

theorem subscribeNew_ok {χ : Type} (b : Broker χ) (newID : Nat) (s : SubscriptionsService χ)
    (queue : String) (ch : χ) (h : b.Start queue = Except.ok ch) :
    s.subscribeNew b newID queue =
      ({ consumer := { listeners := s.consumer.listeners.store newID ⟨⟨newID, queue⟩, ch⟩ } },
        Except.ok { id := newID, queue := queue }) := by
  simp [SubscriptionsService.subscribeNew, Consumer.Subscribe, startListener, NewSubscription,
    Subscription.Queue, Subscription.ID, h]

theorem subscribeNew_error {χ : Type} (b : Broker χ) (newID : Nat) (s : SubscriptionsService χ)
    (queue : String) (err : Err) (h : b.Start queue = Except.error err) :
    s.subscribeNew b newID queue =
      (s, Except.error (Err.wrap ("starting amqp listener for queue " ++ queue) err)) := by
  simp [SubscriptionsService.subscribeNew, Consumer.Subscribe, startListener, NewSubscription,
    Subscription.Queue, h]

theorem Subscribe_new {χ : Type} (b : Broker χ) (o : RangeOrder (Nat × amqpListener χ))
    (newID : Nat) (s : SubscriptionsService χ) (queue : String) (idempotent : Bool)
    (h : idempotent = false ∨ s.consumer.GetQueueSubscriptions o queue = []) :
    s.Subscribe b o newID queue idempotent = s.subscribeNew b newID queue := by
  unfold SubscriptionsService.Subscribe
  cases idempotent with
  | false => simp
  | true =>
    rcases h with h | h
    · simp at h
    · simp [h]

/-- C22, the claim fails: on the sample service, whose queue `q` holds the subscriptions
1 and 2, an idempotent subscribe to `q` whose loop runs forwards returns subscription 1,
and a second one whose loop runs backwards returns subscription 2; neither registers
anything. -/
theorem Subscribe_idempotent_two_ids :
    (sampleService.Subscribe closeQuiet (RangeOrder.forward _) 8 "q" true).2 =
      Except.ok { id := 1, queue := "q" } ∧
    ((sampleService.Subscribe closeQuiet (RangeOrder.forward _) 8 "q" true).1.consumer.listeners.map
      Prod.fst) = [1, 2, 3] ∧
    ((sampleService.Subscribe closeQuiet (RangeOrder.forward _) 8 "q" true).1.Subscribe closeQuiet
      (RangeOrder.backward _) 9 "q" true).2 = Except.ok { id := 2, queue := "q" } ∧
    (((sampleService.Subscribe closeQuiet (RangeOrder.forward _) 8 "q" true).1.Subscribe closeQuiet
      (RangeOrder.backward _) 9 "q" true).1.consumer.listeners.map Prod.fst) = [1, 2, 3] := by
  refine ⟨rfl, rfl, rfl, rfl⟩

/-- C22 as amended: an idempotent subscribe to a queue that has a subscription returns
one of the subscriptions of that queue and leaves the service as it was. Any other
subscribe, when the listener starts, returns the new subscription, with the new id and
the queue, and stores its listener under the new id, as one more entry of the map when
the id is new; when the listener does not start it returns the error and leaves the
service as it was. When the queue has at most one subscription, a second idempotent
subscribe right after a first that succeeded returns the same subscription and registers
nothing. -/
theorem Subscribe_idempotent_or_new {χ : Type} (b : Broker χ)
    (o : RangeOrder (Nat × amqpListener χ)) (newID : Nat) (s : SubscriptionsService χ)
    (queue : String) (idempotent : Bool) :
    (s.consumer.GetQueueSubscriptions o queue ≠ [] →
      ∃ sub, s.Subscribe b o newID queue true = (s, Except.ok sub) ∧
        sub ∈ s.consumer.GetQueueSubscriptions o queue ∧ sub.Queue = queue ∧
        ∃ entry ∈ s.consumer.listeners, entry.2.subscription = sub) ∧
    ((idempotent = false ∨ s.consumer.GetQueueSubscriptions o queue = []) →
      (∀ ch, b.Start queue = Except.ok ch →
        s.Subscribe b o newID queue idempotent =
          ({ consumer := { listeners := s.consumer.listeners.store newID ⟨⟨newID, queue⟩, ch⟩ } },
            Except.ok { id := newID, queue := queue }) ∧
        (newID ∉ s.consumer.listeners.map Prod.fst →
          (s.Subscribe b o newID queue idempotent).1.consumer.listeners =
            s.consumer.listeners ++
              [(newID, { subscription := { id := newID, queue := queue }, channel := ch })])) ∧
      (∀ err, b.Start queue = Except.error err →
        s.Subscribe b o newID queue idempotent =
          (s, Except.error (Err.wrap ("starting amqp listener for queue " ++ queue) err)))) ∧
    (∀ (o2 : RangeOrder (Nat × amqpListener χ)) (newID2 : Nat) (sub : Subscription),
      (s.consumer.GetQueueSubscriptions o queue).length ≤ 1 →
      (s.Subscribe b o newID queue true).2 = Except.ok sub →
      (s.Subscribe b o newID queue true).1.Subscribe b o2 newID2 queue true =
        ((s.Subscribe b o newID queue true).1, Except.ok sub)) := by
  refine ⟨?_, ?_, ?_⟩
  · intro hne
    cases hsubs : s.consumer.GetQueueSubscriptions o queue with
    | nil => exact absurd hsubs hne
    | cons sub rest =>
      have hmem : sub ∈ s.consumer.GetQueueSubscriptions o queue := by
        rw [hsubs]
        exact List.mem_cons_self _ _
      obtain ⟨hq, hentry⟩ := GetQueueSubscriptions_mem o s.consumer queue sub hmem
      refine ⟨sub, ?_, List.mem_cons_self _ _, hq, hentry⟩
      simp [SubscriptionsService.Subscribe, hsubs]
  · intro h
    rw [Subscribe_new b o newID s queue idempotent h]
    refine ⟨?_, fun err herr => subscribeNew_error b newID s queue err herr⟩
    intro ch hch
    rw [subscribeNew_ok b newID s queue ch hch]
    exact ⟨rfl, fun hnew => store_of_not_mem _ _ _ hnew⟩
  · intro o2 newID2 sub hlen hok
    cases hsubs : s.consumer.GetQueueSubscriptions o queue with
    | cons sub1 rest =>
      have hrest : rest = [] := by
        rw [hsubs] at hlen
        simp only [List.length_cons] at hlen
        exact List.length_eq_zero.1 (by omega)
      subst hrest
      have h1 : s.Subscribe b o newID queue true = (s, Except.ok sub1) := by
        simp [SubscriptionsService.Subscribe, hsubs]
      rw [h1] at hok ⊢
      simp only [Except.ok.injEq] at hok
      subst hok
      have hp := GetQueueSubscriptions_perm o2 o s.consumer queue
      rw [hsubs] at hp
      have h2 := List.perm_singleton.1 hp
      simp [SubscriptionsService.Subscribe, h2]
    | nil =>
      have h1 := Subscribe_new b o newID s queue true (Or.inr hsubs)
      rw [h1] at hok ⊢
      cases hstart : b.Start queue with
      | error err =>
        rw [subscribeNew_error b newID s queue err hstart] at hok
        simp at hok
      | ok ch =>
        rw [subscribeNew_ok b newID s queue ch hstart] at hok ⊢
        simp only [Except.ok.injEq] at hok
        subst hok
        have hnone := (GetQueueSubscriptions_nil_iff o s.consumer queue).1 hsubs
        have hf := filter_store s.consumer.listeners newID
          { subscription := { id := newID, queue := queue }, channel := ch } queue rfl hnone
        have hp : ((o2.iter (s.consumer.listeners.store newID
            { subscription := { id := newID, queue := queue }, channel := ch })).filter
            (fun entry => decide (entry.2.subscription.Queue = queue))).Perm
            [(newID, { subscription := { id := newID, queue := queue }, channel := ch })] := by
          rw [← hf]
          exact (o2.perm _).filter _
        have h2 := List.perm_singleton.1 hp
        simp [SubscriptionsService.Subscribe, Consumer.GetQueueSubscriptions, h2]

end Amqp

/-! ## The listener: one delivery -/

namespace Amqp

open Expectations Subscriptions

/-- The reply body sent when nothing matches, as text. -/
theorem notFoundResponse_text :
    notFoundResponse =
      "\x7b\"errors\":\"no match found\"\x7d".toList.map (fun c => UInt8.ofNat c.toNat) := by
  decide

theorem handleMessage_of_match {μ : Type} (matcher : Matcher μ)
    (publish : String → String → Bool → Bool → Publishing → Option Err)
    (ack : Bool → Option Err) (m m' : μ) (d : Delivery) (found : Option Response)
    (hex : d.Exchange ≠ "") (hrk : d.RoutingKey ≠ "")
    (hm : matcher m { Exchange := d.Exchange, RoutingKey := d.RoutingKey, Body := d.Body } =
      some (m', found)) :
    ∃ effects, handleMessage matcher publish ack m d = some (m', effects) ∧
      effects.filter Effect.isBrokerCall =
        [Effect.Publish "" d.ReplyTo false false
            { ContentType := "application/json", CorrelationId := d.CorrelationId,
              Body := replyBody found },
          Effect.Ack false] := by
  have hc : NewCandidate d.Exchange d.RoutingKey d.Body =
      Except.ok { Exchange := d.Exchange, RoutingKey := d.RoutingKey, Body := d.Body } := by
    simp [NewCandidate, hex, hrk]
  unfold handleMessage
  rw [hc]
  simp only [hm]
  cases found with
  | some r =>
    refine ⟨_, rfl, ?_⟩
    cases publish "" d.ReplyTo false false
        { ContentType := "application/json", CorrelationId := d.CorrelationId, Body := r.Body } <;>
      cases ack false <;> rfl
  | none =>
    refine ⟨_, rfl, ?_⟩
    simp only [NewResponse]
    cases publish "" d.ReplyTo false false
        { ContentType := "application/json", CorrelationId := d.CorrelationId,
          Body := notFoundResponse } <;>
      cases ack false <;> rfl

theorem handleMessage_of_bad_candidate {μ : Type} (matcher : Matcher μ)
    (publish : String → String → Bool → Bool → Publishing → Option Err)
    (ack : Bool → Option Err) (m : μ) (d : Delivery)
    (h : d.Exchange = "" ∨ d.RoutingKey = "") :
    handleMessage matcher publish ack m d =
      some (m, [Effect.LogError "failed to create candidate"]) := by
  unfold handleMessage
  by_cases hex : d.Exchange = ""
  · simp [NewCandidate, hex]
  · rcases h with h | h
    · exact absurd h hex
    · simp [NewCandidate, hex, h]

/-- C25: for a delivery with a non-empty exchange and routing key, on a well-formed
registry, whatever `Publish` and `Ack` return: `Match` is called on the candidate of the
delivery and returns, and the calls the listener makes on the channel and the delivery
are, in this order, one `Publish` to the exchange with the empty name, with the reply-to
of the delivery as routing key, mandatory and immediate false, content type
`application/json`, the correlation id of the delivery and, as body, the body of the
matched response or the not-found bytes when `Match` returned nil, and one `Ack` with
multiple false. -/
theorem handleMessage_replies_and_acks (s : ExpectationsService) (now : Int)
    (publish : String → String → Bool → Bool → Publishing → Option Err)
    (ack : Bool → Option Err) (d : Delivery)
    (hwf : s.WellFormed) (hex : d.Exchange ≠ "") (hrk : d.RoutingKey ≠ "") :
    ∃ (s' : ExpectationsService) (found : Option Response) (effects : List Effect),
      s.Match { Exchange := d.Exchange, RoutingKey := d.RoutingKey, Body := d.Body } now =
        some (s', found) ∧
      handleMessage (registryMatcher now) publish ack s d = some (s', effects) ∧
      effects.filter Effect.isBrokerCall =
        [Effect.Publish "" d.ReplyTo false false
            { ContentType := "application/json", CorrelationId := d.CorrelationId,
              Body := replyBody found },
          Effect.Ack false] := by
  have hret : ∃ s' found,
      s.Match { Exchange := d.Exchange, RoutingKey := d.RoutingKey, Body := d.Body } now =
        some (s', found) := by
    rcases Match_spec s { Exchange := d.Exchange, RoutingKey := d.RoutingKey, Body := d.Body }
      now hwf with ⟨_, h⟩ | ⟨i, e, _, _, _, h⟩
    · exact ⟨_, _, h⟩
    · exact ⟨_, _, h⟩
  obtain ⟨s', found, hm⟩ := hret
  obtain ⟨effects, h1, h2⟩ :=
    handleMessage_of_match (registryMatcher now) publish ack s s' d found hex hrk hm
  exact ⟨s', found, effects, hm, h1, h2⟩

/-- Witness for C25: scenario A, the delivery of the sample candidate, a `Publish` that
fails and an `Ack` that succeeds. -/
theorem handleMessage_replies_and_acks_witness :
    scenarioA.WellFormed ∧ sampleDelivery.Exchange ≠ "" ∧ sampleDelivery.RoutingKey ≠ "" ∧
    (handleMessage (registryMatcher 0) (fun _ _ _ _ _ => some Err.ErrClosed) (fun _ => none)
      scenarioA sampleDelivery).map Prod.snd =
      some [Effect.Publish "" "amq.rabbitmq.reply-to" false false
              { ContentType := "application/json", CorrelationId := "7", Body := [98, 50] },
            Effect.LogError "failed to publish response",
            Effect.Ack false] ∧
    ∃ (s' : ExpectationsService) (found : Option Response) (effects : List Effect),
      scenarioA.Match sampleCandidate 0 = some (s', found) ∧
      handleMessage (registryMatcher 0) (fun _ _ _ _ _ => some Err.ErrClosed) (fun _ => none)
        scenarioA sampleDelivery = some (s', effects) ∧
      effects.filter Effect.isBrokerCall =
        [Effect.Publish "" sampleDelivery.ReplyTo false false
            { ContentType := "application/json", CorrelationId := sampleDelivery.CorrelationId,
              Body := replyBody found },
          Effect.Ack false] :=
  ⟨by decide, by decide, by decide, by decide,
    handleMessage_replies_and_acks scenarioA 0 (fun _ _ _ _ _ => some Err.ErrClosed)
      (fun _ => none) sampleDelivery (by decide) (by decide) (by decide)⟩

/-- C26: for a delivery with an empty exchange or an empty routing key `handleMessage`
logs the error and returns: the matcher is not called and its state is unchanged, nothing
is published, no negative acknowledgement is sent, and the delivery is not acknowledged.
On scenario A, a delivery published to the default exchange leaves no call at all on the
channel or the delivery. -/
theorem handleMessage_bad_candidate_not_acked :
    (∀ (μ : Type) (matcher : Matcher μ)
        (publish : String → String → Bool → Bool → Publishing → Option Err)
        (ack : Bool → Option Err) (m : μ) (d : Delivery),
      d.Exchange = "" ∨ d.RoutingKey = "" →
        handleMessage matcher publish ack m d =
          some (m, [Effect.LogError "failed to create candidate"]) ∧
        ∀ effects, handleMessage matcher publish ack m d = some (m, effects) →
          effects.filter Effect.isBrokerCall = [] ∧ Effect.Ack false ∉ effects) ∧
    (handleMessage (registryMatcher 0) (fun _ _ _ _ _ => none) (fun _ => none) scenarioA
      defaultExchangeDelivery).map (fun r => r.2.filter Effect.isBrokerCall) = some [] ∧
    (handleMessage (registryMatcher 0) (fun _ _ _ _ _ => none) (fun _ => none) scenarioA
      defaultExchangeDelivery).map (fun r => r.2.count (Effect.Ack false)) = some 0 := by
  refine ⟨?_, by decide, by decide⟩
  intro μ matcher publish ack m d h
  have h1 := handleMessage_of_bad_candidate matcher publish ack m d h
  refine ⟨h1, ?_⟩
  intro effects he
  rw [h1] at he
  simp only [Option.some.injEq, Prod.mk.injEq, true_and] at he
  subst he
  exact ⟨rfl, by simp⟩

end Amqp

/-! ## The control plane: validation in the handlers -/

namespace Grpc

open Expectations Comparators

theorem newExpectationOptions_zero_times (lib : Lib) (req : CreateExpectationRequest)
    (ht : req.Times = some (ProtoTimes.RemainingTimes 0)) (httl : req.TimeToLiveSeconds = none) :
    newExpectationOptions lib req = [ExpectationOption.WithUnlimitedTimes] := by
  simp [newExpectationOptions, ht, httl, ProtoTimes.GetRemainingTimes]

/-- C28: a create request whose `times` holds `remainingTimes` 0 is not rejected. The
options built from it are the single option `WithUnlimitedTimes`, and when the request
and response parts are valid the handler stores an unlimited expectation and returns its
id, where `NewExpectation` with `WithLimitedTimes 0` fails with `ErrBadRequestTimes`. On
the sample server the call returns the id 9 and the registry holds one expectation more,
with unlimited usage. -/
theorem CreateExpectation_zero_times_stores_unlimited :
    (∀ (σ : Type) (lib : Lib) (newID : Nat) (now : Int) (s : AmqpMockServerServiceServer σ)
        (req : CreateExpectationRequest) (request : Request) (response : Response),
      req.Times = some (ProtoTimes.RemainingTimes 0) → req.TimeToLiveSeconds = none →
      newExpectationsRequest lib req.Request = Except.ok request →
      newExpectationsResponse req.Response = some (Except.ok response) →
      CreateExpectation lib newID now s req =
        some ({ s with expectationsService := (s.expectationsService.Create
                  { ID := newID, Request := request, Response := response, Priority := 0,
                    Times := some { RemainingTimes := 0, Unlimited := true },
                    TimeToLive := none, CreatedAt := now }) },
              Except.ok newID)) ∧
    (∀ (id : Nat) (now : Int) (request : Request) (response : Response),
      NewExpectation id now request response [ExpectationOption.WithLimitedTimes 0] =
        Except.error Error.ErrBadRequestTimes) ∧
    (CreateExpectation sampleLib 9 0 sampleServer
        (sampleCreateRequest (some (ProtoTimes.RemainingTimes 0)))).map
      (fun r => (r.2, r.1.expectationsService.expectations.map (fun e => (e.ID, e.Times)),
        r.1.expectationsService.assertions.list.length)) =
      some (Except.ok 9,
        sampleServer.expectationsService.expectations.map (fun e => (e.ID, e.Times)) ++
          [(9, some { RemainingTimes := 0, Unlimited := true })],
        sampleServer.expectationsService.assertions.list.length) := by
  refine ⟨?_, ?_, ?_⟩
  · intro σ lib newID now s req request response ht httl hreq hres
    have hopts := newExpectationOptions_zero_times lib req ht httl
    simp [CreateExpectation, hreq, hres, hopts, NewExpectation, applyOptions,
      ExpectationOption.apply]
  · intro id now request response
    simp [NewExpectation, applyOptions, ExpectationOption.apply]
  · rfl

/-- C29: `DeleteSubscription` with an id that `uuid.Parse` rejects panics inside
`uuid.MustParse`, before `UnsubscribeByID` is called: the handler returns nothing. The
recovery interceptor of the server turns the panic into the status error `Internal`,
`panic caught`, with the server unchanged. `GetExpectation` and `GetAssertions` with the
same text return the error `invalid expectation id` that wraps the error of
`uuid.Parse`. -/
theorem DeleteSubscription_malformed_id_panics :
    (∀ (σ : Type) (lib : Lib) (unsubscribeByID : σ → Nat → σ × Option Err)
        (s : AmqpMockServerServiceServer σ) (text : String) (err : Error),
      lib.uuidParse text = Except.error err →
        DeleteSubscription lib unsubscribeByID s text = none ∧
        unaryServerPanicRecoveryInterceptor s (DeleteSubscription lib unsubscribeByID s text) =
          (s, Except.error (Err.status "Internal" "panic caught")) ∧
        GetExpectation lib s text =
          Except.error (Err.wrap "invalid expectation id" (Err.base err)) ∧
        ∀ status incl,
          GetAssertions lib s { ExpectationId := some text, Status := status, Include := incl } =
            Except.error (Err.wrap "invalid expectation id" (Err.base err))) ∧
    (DeleteSubscription sampleLib (fun sv id => sv.UnsubscribeByID Amqp.closeQuiet id)
      sampleServer "invalid-id").isNone = true ∧
    GetExpectation sampleLib sampleServer "invalid-id" =
      Except.error (Err.wrap "invalid expectation id" (Err.base (Error.message "invalid UUID"))) ∧
    ((DeleteSubscription sampleLib (fun sv id => sv.UnsubscribeByID Amqp.closeQuiet id)
      sampleServer "1").map
        (fun r => r.1.subscriptionsService.consumer.listeners.map Prod.fst)) =
      some [2, 3] := by
  refine ⟨?_, by decide, rfl, by decide⟩
  intro σ lib unsubscribeByID s text err h
  have hd : DeleteSubscription lib unsubscribeByID s text = none := by
    simp [DeleteSubscription, MustParse, h]
  refine ⟨hd, ?_, ?_, ?_⟩
  · rw [hd]
    rfl
  · simp [GetExpectation, h]
  · intro status incl
    simp [GetAssertions, h]

end Grpc

/-! ## The partial JSON comparator, relative to the difference library -/

namespace Comparators

open Expectations

/-- What `matchSubset` computes from the result of `jsondiff.CompareJSON`: the call
succeeded and every operation of the patch is an `add`. -/
theorem matchSubset_eq_true_iff (lib : JSONLib) (b : JSONBody) (payload : Bytes) :
    b.matchSubset lib payload = true ↔
      ∃ ops, lib.CompareJSON b.Body payload = Except.ok ops ∧
        ∀ op ∈ ops, op.Type_ = OperationAdd := by
  unfold JSONBody.matchSubset
  cases h : lib.CompareJSON b.Body payload with
  | error err => simp
  | ok ops => simp [List.all_eq_true]

/-- The partial comparator accepts a payload exactly when the payload is valid JSON, the
difference from the body to the payload is computed, and it consists of `add` operations
only. -/
theorem partial_Match_eq_true_iff (lib : JSONLib) (e p : Bytes) :
    JSONBody.Match lib { Body := e, MatchType := MatchTypePartial } p = true ↔
      lib.Valid p = true ∧
        ∃ ops, lib.CompareJSON e p = Except.ok ops ∧ ∀ op ∈ ops, op.Type_ = OperationAdd := by
  have hne : ¬ (MatchTypePartial = MatchTypeExact) := by decide
  cases hv : lib.Valid p with
  | false => simp [JSONBody.Match, hv]
  | true =>
    have := matchSubset_eq_true_iff lib { Body := e, MatchType := MatchTypePartial } p
    simp only [JSONBody.Match, hv, Bool.not_true, Bool.false_eq_true, if_false, hne, if_true,
      true_and]
    exact this

end Comparators

